import Mathlib

/-!
# The noah ELF loader (`src/syscall/exec.c`)

A shallow embedding of `load_elf_interp`, `load_elf`, `push`, `init_userstack`
and `do_exec`, followed by theorems about them.

Conventions of the embedding

* `uint64_t` / `ulong` / `size_t` values are natural numbers; every
  arithmetic operation of the C code that can wrap is written with an explicit
  reduction modulo `2 ^ 64` (`add64`, `sub64`, `not64`, `roundup`).
* Guest memory is a function from guest addresses to bytes.  `memcpy` and
  `memset` through `guest_to_host` write the bytes at consecutive guest
  addresses.  `guest_to_host` is valid only within an active mapping; where a
  statement concerns a request the memory manager rejected, it carries that
  condition explicitly (`backed`).
* The virtual CPU registers RIP, RSP, RBP and the global `brk_min` are fields
  of `State`.
* A C string (`char *`) is the list of its bytes before the terminating NUL.
* A failed `assert` stops the process: `Run.abort`, carrying the source line
  of the assertion and the state reached.
-/

namespace Noah

/-! ## Constants of the headers (`elf.h`, `x86/page.h`, `linux/mman.h`) -/

/-- The value of `PAGE_SIZE(PAGE_4KB)`. -/
def PAGE_SIZE_4KB : Nat := 4096

def ET_EXEC : Nat := 2
def ET_DYN : Nat := 3
def EM_X86_64 : Nat := 62
def PT_LOAD : Nat := 1
def PT_INTERP : Nat := 3
def PF_X : Nat := 1
def PF_W : Nat := 2
def PF_R : Nat := 4

def L_PROT_READ : Nat := 1
def L_PROT_WRITE : Nat := 2
def L_PROT_EXEC : Nat := 4
def L_MAP_PRIVATE : Nat := 2
def L_MAP_FIXED : Nat := 16
def L_MAP_ANONYMOUS : Nat := 32

def AT_NULL : Nat := 0
def AT_PHDR : Nat := 3
def AT_PHENT : Nat := 4
def AT_PHNUM : Nat := 5
def AT_PAGESZ : Nat := 6
def AT_BASE : Nat := 7
def AT_ENTRY : Nat := 9

/-- The constants of `x86/vmemparam.h`, which is not part of the sources: the
top address and the size of the guest stack region. -/
structure Config where
  STACK_TOP : Nat
  STACK_SIZE : Nat

/-! ## 64-bit arithmetic -/

/-- Addition of two `uint64_t`. -/
def add64 (a b : Nat) : Nat := (a + b) % 2 ^ 64

/-- Subtraction of two `uint64_t`. -/
def sub64 (a b : Nat) : Nat := (a + (2 ^ 64 - b % 2 ^ 64)) % 2 ^ 64

/-- Bitwise complement of a `uint64_t` (the `~` of `~mask`). -/
def not64 (a : Nat) : Nat := 2 ^ 64 - 1 - a % 2 ^ 64

/-- The macro `roundup(x, y)`, that is `((x + (y - 1)) / y) * y`, on
`uint64_t`. -/
def roundup (x y : Nat) : Nat := (add64 x (y - 1) / y * y) % 2 ^ 64

/-- The macro `MAX(a, b)`. -/
def MAX (a b : Nat) : Nat := if a > b then a else b

/-! ## ELF structures -/

/-- One program header, `Elf64_Phdr`. -/
structure Elf64_Phdr where
  p_type : Nat
  p_flags : Nat
  p_offset : Nat
  p_vaddr : Nat
  p_paddr : Nat
  p_filesz : Nat
  p_memsz : Nat
  p_align : Nat
deriving DecidableEq, Repr

/-- A mapped ELF file seen through `Elf64_Ehdr *`: the header fields the loader
reads, the program-header array found at `e_phoff` (`phdrs`), and the raw bytes
of the file (`data`), from which segment contents are copied. -/
structure Elf64_Ehdr where
  e_ident : List Nat
  e_type : Nat
  e_machine : Nat
  e_entry : Nat
  e_phoff : Nat
  e_phentsize : Nat
  e_phnum : Nat
  phdrs : List Elf64_Phdr
  data : List Nat
deriving DecidableEq, Repr

/-- One auxiliary-vector entry, `Elf64_Auxv`: an 8-byte tag and an 8-byte
value. -/
structure Elf64_Auxv where
  a_tag : Nat
  a_val : Nat
deriving DecidableEq, Repr

/-- The macro `IS_ELF`: the first four identification bytes are
`0x7f 'E' 'L' 'F'`. -/
def IS_ELF (h : Elf64_Ehdr) : Bool :=
  h.e_ident.getD 0 0 == 0x7f && h.e_ident.getD 1 0 == 0x45 &&
  h.e_ident.getD 2 0 == 0x4c && h.e_ident.getD 3 0 == 0x46

/-- The entries `p[0]`, ..., `p[e_phnum - 1]` visited by the loops over the
program headers. -/
def phdr_table (h : Elf64_Ehdr) : List Elf64_Phdr := h.phdrs.take h.e_phnum

/-! ## Guest state -/

/-- One call of `do_mmap`: address, length, protection and flags. -/
structure MapReq where
  addr : Nat
  len : Nat
  prot : Nat
  flags : Nat
deriving DecidableEq, Repr

/-- The guest-visible state the loader acts on. `requests` logs every call of
`do_mmap` in order, `mapped` those the memory manager accepted. -/
structure State where
  mem : Nat → Nat
  requests : List MapReq
  mapped : List MapReq
  rip : Nat
  rsp : Nat
  rbp : Nat
  brk_min : Nat

/-- The outcome of running a piece of the loader: it returns a value in a new
state, or the `assert` at source line `line` fails and the process is aborted
in the state reached. -/
inductive Run (α : Type) where
  | done : α → State → Run α
  | abort (line : Nat) : State → Run α

/-- The state in which a run ended. -/
def Run.state {α : Type} : Run α → State
  | .done _ s => s
  | .abort _ s => s

/-- The libc `memcpy` into guest memory: `n` bytes of `src` are stored at
`dst`, `dst + 1`, .... -/
def memcpy (mem : Nat → Nat) (dst : Nat) (src : Nat → Nat) (n : Nat) : Nat → Nat :=
  fun a => if dst ≤ a ∧ a < dst + n then src (a - dst) else mem a

/-- The libc `memset` into guest memory. -/
def memset (mem : Nat → Nat) (dst : Nat) (c : Nat) (n : Nat) : Nat → Nat :=
  fun a => if dst ≤ a ∧ a < dst + n then c else mem a

/-- Modelled from the spec: `do_mmap`, the guest memory manager, is not part of
the sources. A request is logged; the manager accepts or rejects it according
to its `accept` policy over the mappings accepted so far; an accepted fixed
anonymous mapping is recorded and its range reads as zero. Every caller in
`exec.c` discards the return value, so only the state is returned. -/
def do_mmap (accept : List MapReq → MapReq → Bool) (addr len prot flags : Nat)
    (st : State) : State :=
  let r : MapReq := ⟨addr, len, prot, flags⟩
  if accept st.mapped r then
    { st with requests := st.requests ++ [r], mapped := st.mapped ++ [r],
              mem := memset st.mem addr 0 len }
  else
    { st with requests := st.requests ++ [r] }

/-- The little-endian bytes of a `uint64_t` object, as `memcpy` reads them. -/
def le64 (w : Nat) : Nat → Nat := fun i => w / 256 ^ i % 256

/-- The bytes of a host buffer, as `memcpy` reads them. -/
def bytes_of (l : List Nat) : Nat → Nat := fun i => l.getD i 0

/-- The 8-byte little-endian word stored in guest memory at address `a`. -/
def read64 (mem : Nat → Nat) (a : Nat) : Nat :=
  mem a + 256 * (mem (a + 1) + 256 * (mem (a + 2) + 256 * (mem (a + 3) +
    256 * (mem (a + 4) + 256 * (mem (a + 5) + 256 * (mem (a + 6) +
    256 * mem (a + 7)))))))

/-! ## Segment loading -/

/-- The protection derived from `p_flags` (lines 63-66 and 112-115). -/
def seg_prot (p_flags : Nat) : Nat :=
  let prot := 0
  let prot := if p_flags &&& PF_X ≠ 0 then prot ||| L_PROT_EXEC else prot
  let prot := if p_flags &&& PF_W ≠ 0 then prot ||| L_PROT_WRITE else prot
  let prot := if p_flags &&& PF_R ≠ 0 then prot ||| L_PROT_READ else prot
  prot

/-- The flags of every segment mapping. -/
def seg_flags : Nat := L_MAP_PRIVATE ||| L_MAP_FIXED ||| L_MAP_ANONYMOUS

/-- The locals of the loop of `load_elf_interp`. -/
structure InterpAcc where
  st : State
  map_top : Nat

/-- One iteration of the loop of `load_elf_interp` (lines 51-73) on the
entry `p`. -/
def load_elf_interp_segment (accept : List MapReq → MapReq → Bool) (data : List Nat)
    (load_addr : Nat) (acc : InterpAcc) (p : Elf64_Phdr) : InterpAcc :=
  if p.p_type ≠ PT_LOAD then acc
  else
    let p_vaddr := add64 p.p_vaddr load_addr
    let mask := PAGE_SIZE_4KB - 1
    let vaddr := p_vaddr &&& not64 mask
    let offset := p_vaddr &&& mask
    let size := roundup (add64 p.p_memsz offset) PAGE_SIZE_4KB
    let prot := seg_prot p.p_flags
    let st1 := do_mmap accept vaddr size prot seg_flags acc.st
    let st2 := { st1 with
      mem := memcpy st1.mem (vaddr + offset) (fun i => data.getD (p.p_offset + i) 0) p.p_filesz }
    { st := st2, map_top := MAX acc.map_top (roundup (add64 vaddr size) PAGE_SIZE_4KB) }

/-- The function `load_elf_interp` (lines 22-79). `fs` stands for the host
file system: `do_open`, `fstat` and `mmap` of the file at `path` give its
contents, or `do_open` fails. -/
def load_elf_interp (fs : List Nat → Option Elf64_Ehdr)
    (accept : List MapReq → MapReq → Bool) (path : List Nat) (load_addr : Nat)
    (st : State) : Run Int :=
  match fs path with
  | none => .done (-1) st
  | some h =>
    if ¬ IS_ELF h then .abort 42 st
    else if ¬ (h.e_type = ET_EXEC ∨ h.e_type = ET_DYN) then .done (-1) st
    else if h.e_machine ≠ EM_X86_64 then .done (-1) st
    else
      let acc := (phdr_table h).foldl (load_elf_interp_segment accept h.data load_addr)
        { st := st, map_top := 0 }
      .done 0 { acc.st with rip := add64 load_addr h.e_entry, brk_min := acc.map_top }

/-- The locals of the first loop of `load_elf`. -/
structure LoadAcc where
  st : State
  load_base : Nat
  load_base_set : Bool
  map_top : Nat

/-- One iteration of the first loop of `load_elf` (lines 102-126) on the
entry `p`. -/
def load_elf_segment (accept : List MapReq → MapReq → Bool) (data : List Nat)
    (acc : LoadAcc) (p : Elf64_Phdr) : LoadAcc :=
  if p.p_type ≠ PT_LOAD then acc
  else
    let mask := PAGE_SIZE_4KB - 1
    let vaddr := p.p_vaddr &&& not64 mask
    let offset := p.p_vaddr &&& mask
    let size := roundup (add64 p.p_memsz offset) PAGE_SIZE_4KB
    let prot := seg_prot p.p_flags
    let st1 := do_mmap accept vaddr size prot seg_flags acc.st
    let st2 := { st1 with
      mem := memcpy st1.mem (vaddr + offset) (fun i => data.getD (p.p_offset + i) 0) p.p_filesz }
    { st := st2,
      load_base := if ! acc.load_base_set then sub64 p.p_vaddr p.p_offset else acc.load_base,
      load_base_set := true,
      map_top := MAX acc.map_top (roundup (add64 vaddr size) PAGE_SIZE_4KB) }

/-- The first loop of `load_elf` (lines 99-126), started from the state `st`. -/
def load_elf_segments (accept : List MapReq → MapReq → Bool) (ehdr : Elf64_Ehdr)
    (st : State) : LoadAcc :=
  (phdr_table ehdr).foldl (load_elf_segment accept ehdr.data)
    { st := st, load_base := 0, load_base_set := false, map_top := 0 }

/-! ## The initial stack -/

/-- The function `push` (lines 163-182): `data = none` is the null pointer. -/
def push (data : Option (Nat → Nat)) (n : Nat) (st : State) : Nat × State :=
  let size := roundup n 8
  let rsp := sub64 st.rsp size
  let st1 := { st with rsp := rsp }
  match data with
  | some d => (rsp, { st1 with mem := memcpy st1.mem rsp d n })
  | none => (rsp, { st1 with mem := memset st1.mem rsp 0 n })

/-- The libc `strlen` of a C string. -/
def strlen (s : List Nat) : Nat := s.length

/-- The C string that starts at offset `off` of the buffer `buf`: the bytes up
to the first NUL. -/
def cstr_at (buf : List Nat) (off : Nat) : List Nat := (buf.drop off).takeWhile (· ≠ 0)

/-- The sums `total += strlen(s) + 1` over the strings `strs` (lines 198-204). -/
def add_lengths (total : Nat) (strs : List (List Nat)) : Nat :=
  strs.foldl (fun t s => add64 t (strlen s + 1)) total

/-- The copies `memcpy(buf + off, s, len + 1)` over the strings `strs`
(lines 210-219): `buf` is the part of the buffer filled so far, `off` its
length. -/
def copy_strings (buf : List Nat) (strs : List (List Nat)) : List Nat :=
  strs.foldl (fun b s => b ++ (s ++ [0])) buf

/-- The loop over the auxiliary vector (lines 226-230): it stops at the first
`AT_NULL` tag. -/
def push_auxv : List Elf64_Auxv → State → State
  | [], st => st
  | a :: rest, st =>
    if a.a_tag ≠ AT_NULL then
      let st1 := (push (some (le64 a.a_val)) 8 st).2
      let st2 := (push (some (le64 a.a_tag)) 8 st1).2
      push_auxv rest st2
    else st

/-- The two pointer loops (lines 235-239 for envp, lines 244-248 for argv):
`strs` lists the strings in the order the loop visits them, last string
first; `line` is the source line of the loop's `assert`. -/
def push_pointers (line : Nat) (buf : List Nat) (args_start : Nat) :
    List (List Nat) → Nat → State → Run Unit
  | [], _, st => .done () st
  | s :: rest, ptr, st =>
    let ptr1 := sub64 ptr (strlen s + 1)
    let st1 := (push (some (le64 ptr1)) 8 st).2
    if cstr_at buf (sub64 ptr1 args_start) = s then
      push_pointers line buf args_start rest ptr1 st1
    else .abort line st1

/-- The function `init_userstack` (lines 184-252). `argv` holds at least the
`argc` strings `argv[0]`, ..., `argv[argc - 1]`; `envp` holds the strings before
the terminating null pointer. -/
def init_userstack (cfg : Config) (accept : List MapReq → MapReq → Bool) (argc : Nat)
    (argv envp : List (List Nat)) (aux : List Elf64_Auxv) (st : State) : Run Unit :=
  let st := do_mmap accept (sub64 cfg.STACK_TOP cfg.STACK_SIZE) cfg.STACK_SIZE
    (L_PROT_READ ||| L_PROT_WRITE) (L_MAP_PRIVATE ||| L_MAP_FIXED ||| L_MAP_ANONYMOUS) st
  let st := { st with rsp := cfg.STACK_TOP }
  let st := { st with rbp := cfg.STACK_TOP }
  let args := argv.take argc
  let args_total := add_lengths 0 args
  let total := add_lengths args_total envp
  let buf := copy_strings (copy_strings [] args) envp
  let (args_start, st) := push (some (bytes_of buf)) total st
  let args_end := add64 args_start args_total
  let env_end := add64 args_start total
  let st := (push none 16 st).2
  let st := push_auxv aux st
  let st := (push none 8 st).2
  match push_pointers 238 buf args_start envp.reverse env_end st with
  | .abort l s => .abort l s
  | .done _ st =>
    let st := (push none 8 st).2
    match push_pointers 247 buf args_start args.reverse args_end st with
    | .abort l s => .abort l s
    | .done _ st =>
      let argc64 := argc % 2 ^ 64
      .done () (push (some (le64 argc64)) 8 st).2

/-! ## `load_elf` and `do_exec` -/

/-- The return statement by which `load_elf` ended. -/
inductive LoadExit where
  | not_executable
  | not_x64
  | loaded
deriving DecidableEq, Repr

/-- The array `aux` built by `load_elf` (lines 150-158). -/
def load_elf_auxv (ehdr : Elf64_Ehdr) (load_base map_top : Nat) (interp : Bool) :
    List Elf64_Auxv :=
  [ ⟨AT_PHDR, add64 load_base ehdr.e_phoff⟩,
    ⟨AT_PHENT, ehdr.e_phentsize⟩,
    ⟨AT_PHNUM, ehdr.e_phnum⟩,
    ⟨AT_PAGESZ, PAGE_SIZE_4KB⟩,
    ⟨AT_BASE, if interp then map_top else 0⟩,
    ⟨AT_ENTRY, ehdr.e_entry⟩,
    ⟨AT_NULL, 0⟩ ]

/-- The path copied out of the `PT_INTERP` entry `p` (lines 139-141), as the C
string `load_elf_interp` receives. -/
def interp_path (ehdr : Elf64_Ehdr) (p : Elf64_Phdr) : List Nat :=
  cstr_at (((ehdr.data.drop p.p_offset).take p.p_filesz) ++ [0]) 0

/-- Lines 84-158 of `load_elf`: everything before the call of
`init_userstack`. The value is `.inl` of the early return taken, or `.inr` of
the auxiliary vector that is handed to `init_userstack`. -/
def load_elf_image (fs : List Nat → Option Elf64_Ehdr)
    (accept : List MapReq → MapReq → Bool) (ehdr : Elf64_Ehdr) (st : State) :
    Run (LoadExit ⊕ List Elf64_Auxv) :=
  if ¬ IS_ELF ehdr then .abort 86 st
  else if ehdr.e_type ≠ ET_EXEC then .done (.inl .not_executable) st
  else if ehdr.e_machine ≠ EM_X86_64 then .done (.inl .not_x64) st
  else
    let acc := load_elf_segments accept ehdr st
    if ¬ acc.load_base_set then .abort 128 acc.st
    else
      match (phdr_table ehdr).find? (fun p => p.p_type == PT_INTERP) with
      | some p =>
        match load_elf_interp fs accept (interp_path ehdr p) acc.map_top acc.st with
        | .abort l s => .abort l s
        | .done _ s => .done (.inr (load_elf_auxv ehdr acc.load_base acc.map_top true)) s
      | none =>
        .done (.inr (load_elf_auxv ehdr acc.load_base acc.map_top false))
          { acc.st with rip := ehdr.e_entry, brk_min := acc.map_top }

/-- The function `load_elf` (lines 81-161). -/
def load_elf (cfg : Config) (fs : List Nat → Option Elf64_Ehdr)
    (accept : List MapReq → MapReq → Bool) (ehdr : Elf64_Ehdr) (argc : Nat)
    (argv envp : List (List Nat)) (st : State) : Run LoadExit :=
  match load_elf_image fs accept ehdr st with
  | .abort l s => .abort l s
  | .done (.inl e) s => .done e s
  | .done (.inr aux) s =>
    match init_userstack cfg accept argc argv envp aux s with
    | .abort l s1 => .abort l s1
    | .done _ s1 => .done .loaded s1

/-- The function `do_exec` (lines 254-271). `host_open` stands for `open`,
`fstat` and `mmap` of the file at `elf_path`; the value is `none` when `open`
fails. -/
def do_exec (cfg : Config) (host_open : List Nat → Option Elf64_Ehdr)
    (fs : List Nat → Option Elf64_Ehdr) (accept : List MapReq → MapReq → Bool)
    (elf_path : List Nat) (argc : Nat) (argv envp : List (List Nat)) (st : State) :
    Run (Option LoadExit) :=
  match host_open elf_path with
  | none => .done none st
  | some ehdr =>
    match load_elf cfg fs accept ehdr argc argv envp st with
    | .abort l s => .abort l s
    | .done e s => .done (some e) s

/-- A guest state with zeroed memory and registers and no mapping. -/
def State.zero : State :=
  { mem := fun _ => 0, requests := [], mapped := [], rip := 0, rsp := 0, rbp := 0,
    brk_min := 0 }

/-! ## Derived notions used in the statements -/

/-- The value `roundup(vaddr + size, PAGE_SIZE)` computed for a segment whose
(biased) address is `pv` and memory size `memsz`. -/
def seg_top (pv memsz : Nat) : Nat :=
  roundup (add64 (pv &&& not64 (PAGE_SIZE_4KB - 1))
    (roundup (add64 memsz (pv &&& (PAGE_SIZE_4KB - 1))) PAGE_SIZE_4KB)) PAGE_SIZE_4KB

/-- The mapping request made for a segment whose (biased) address is `pv`. -/
def seg_request (pv memsz p_flags : Nat) : MapReq :=
  { addr := pv &&& not64 (PAGE_SIZE_4KB - 1),
    len := roundup (add64 memsz (pv &&& (PAGE_SIZE_4KB - 1))) PAGE_SIZE_4KB,
    prot := seg_prot p_flags,
    flags := seg_flags }

/-- The specification's `map_top` of a program-header table loaded with bias
`b`: the largest page-rounded end address `p_vaddr + b + p_memsz` of a
`PT_LOAD` entry, and 0 when there is none. -/
def spec_map_top (b : Nat) (tbl : List Elf64_Phdr) : Nat :=
  ((tbl.filter (fun p => p.p_type = PT_LOAD)).map
    (fun p => (p.p_vaddr + b + p.p_memsz + 4095) / 4096 * 4096)).foldr max 0

/-! ## Concrete inputs -/

/-- A memory manager that accepts every request. -/
def accept_all : List MapReq → MapReq → Bool := fun _ _ => true

/-- A text segment: `PT_LOAD`, R+X, `[0x400000, 0x401000)`. -/
def phdr_text : Elf64_Phdr :=
  { p_type := PT_LOAD, p_flags := PF_R ||| PF_X, p_offset := 0, p_vaddr := 0x400000,
    p_paddr := 0x400000, p_filesz := 0x1000, p_memsz := 0x1000, p_align := 0x1000 }

/-- A data segment with a bss tail: `PT_LOAD`, R+W, not page-aligned. -/
def phdr_data : Elf64_Phdr :=
  { p_type := PT_LOAD, p_flags := PF_R ||| PF_W, p_offset := 0x10, p_vaddr := 0x601e10,
    p_paddr := 0x601e10, p_filesz := 4, p_memsz := 0x238, p_align := 0x1000 }

/-- A `PT_INTERP` entry whose 10 file bytes at offset 0x20 are the path. -/
def phdr_interp : Elf64_Phdr :=
  { p_type := PT_INTERP, p_flags := PF_R, p_offset := 0x20, p_vaddr := 0x400020,
    p_paddr := 0x400020, p_filesz := 10, p_memsz := 10, p_align := 1 }

/-- The bytes of the path `/lib/ld.so`. -/
def ld_so_path : List Nat := [0x2f, 0x6c, 0x69, 0x62, 0x2f, 0x6c, 0x64, 0x2e, 0x73, 0x6f]

/-- The first bytes of the demonstration files: the magic, then filler, then at
offset 0x20 the interpreter path. -/
def demo_data : List Nat :=
  [0x7f, 0x45, 0x4c, 0x46, 2, 1, 1, 0, 0, 0, 0, 0, 0, 0, 0, 0,
   0xde, 0xad, 0xbe, 0xef, 0, 0, 0, 0, 0, 0, 0, 0, 0, 0, 0, 0] ++ ld_so_path ++ [0]

/-- A static `ET_EXEC` image: one `PT_LOAD`, entry 0x400078. -/
def demo_static : Elf64_Ehdr :=
  { e_ident := demo_data.take 16, e_type := ET_EXEC, e_machine := EM_X86_64,
    e_entry := 0x400078, e_phoff := 64, e_phentsize := 56, e_phnum := 1,
    phdrs := [phdr_text], data := demo_data }

/-- A dynamically linked `ET_EXEC` image: an interpreter request and two
loadable segments. -/
def demo_dynamic : Elf64_Ehdr :=
  { e_ident := demo_data.take 16, e_type := ET_EXEC, e_machine := EM_X86_64,
    e_entry := 0x400078, e_phoff := 64, e_phentsize := 56, e_phnum := 3,
    phdrs := [phdr_interp, phdr_text, phdr_data], data := demo_data }

/-- A position-independent (`ET_DYN`) image with the same contents. -/
def demo_pie : Elf64_Ehdr :=
  { demo_static with e_type := ET_DYN }

/-- The loadable segment of the interpreter: address 0, two pages. -/
def phdr_ld_so : Elf64_Phdr :=
  { p_type := PT_LOAD, p_flags := PF_R ||| PF_X, p_offset := 0, p_vaddr := 0,
    p_paddr := 0, p_filesz := 0x10, p_memsz := 0x2000, p_align := 0x1000 }

/-- An interpreter image: `ET_DYN`, one `PT_LOAD` at address 0, entry 0x1040. -/
def demo_ld_so : Elf64_Ehdr :=
  { e_ident := demo_data.take 16, e_type := ET_DYN, e_machine := EM_X86_64,
    e_entry := 0x1040, e_phoff := 64, e_phentsize := 56, e_phnum := 1,
    phdrs := [phdr_ld_so], data := demo_data }

/-- A host file system holding only `/lib/ld.so`. -/
def demo_fs : List Nat → Option Elf64_Ehdr :=
  fun path => if path = ld_so_path then some demo_ld_so else none

/-- Stack constants for the demonstrations. -/
def demo_cfg : Config := { STACK_TOP := 0x7fc0000000, STACK_SIZE := 0xa00000 }

/-- Two states agree on everything but guest memory and the stack pointer. -/
def same_ctl (s t : State) : Prop :=
  s.rip = t.rip ∧ s.rbp = t.rbp ∧ s.brk_min = t.brk_min ∧ s.requests = t.requests ∧
  s.mapped = t.mapped

/-- The main image got past the validation of `load_elf` (lines 86-95): neither
the `assert` of line 86 failed nor one of the two early returns was taken, so
the loader went on to map the segments. -/
def accepted (r : Run (LoadExit ⊕ List Elf64_Auxv)) : Prop :=
  match r with
  | .abort l _ => l ≠ 86
  | .done (.inl _) _ => False
  | .done (.inr _) _ => True

/-- The bytes `l` are stored in memory from address `a` on. -/
def bytes_at (mem : Nat → Nat) : Nat → List Nat → Prop
  | _, [] => True
  | a, x :: l => mem a = x ∧ bytes_at mem (a + 1) l

/-- The C string `s` is stored at address `p`: its bytes, then a NUL. -/
def cstring_in (mem : Nat → Nat) (p : Nat) (s : List Nat) : Prop :=
  bytes_at mem p (s ++ [0])

/-- The consecutive 8-byte words stored from address `r` on are `ws`. -/
def stack_words (mem : Nat → Nat) : Nat → List Nat → Prop
  | _, [] => True
  | r, w :: ws => read64 mem r = w ∧ stack_words mem (r + 8) ws

/-- The argv and envp strings as laid out in the buffer: each followed by its
NUL. -/
def blob : List (List Nat) → List Nat
  | [] => []
  | s :: rest => s ++ 0 :: blob rest

/-- The addresses of the strings `strs` when their blob starts at `base`. -/
def str_ptrs (base : Nat) : List (List Nat) → List Nat
  | [] => []
  | s :: rest => base :: str_ptrs (base + s.length + 1) rest

/-- The words of a sequence of auxiliary-vector entries: tag, then value. -/
def aux_words : List Elf64_Auxv → List Nat
  | [] => []
  | a :: rest => a.a_tag :: a.a_val :: aux_words rest

/-- The number of bytes `init_userstack` pushes for `argv`, `envp` and an
auxiliary vector with the entries `ents` before its `AT_NULL`. -/
def stack_need (argv envp : List (List Nat)) (ents : List Elf64_Auxv) : Nat :=
  ((blob argv).length + (blob envp).length + 7) / 8 * 8 +
    8 * (argv.length + envp.length + 2 * ents.length + 5)

/-- The invariant of the stack builder below the string blob: the stack pointer
is `8 * ws.length` below `base`, the words from the stack pointer up to `base`
are `ws`, and memory from `base` on is still `mem0`. -/
def StackInv (base : Nat) (mem0 : Nat → Nat) (st : State) (ws : List Nat) : Prop :=
  st.rsp + 8 * ws.length = base ∧ base < 2 ^ 64 ∧ stack_words st.mem st.rsp ws ∧
  ∀ a, base ≤ a → st.mem a = mem0 a

/-- The argument vector `["/bin/true"]`. -/
def demo_argv : List (List Nat) := [[0x2f, 0x62, 0x69, 0x6e, 0x2f, 0x74, 0x72, 0x75, 0x65]]

/-- The environment `["PATH=/usr/bin"]`. -/
def demo_envp : List (List Nat) :=
  [[0x50, 0x41, 0x54, 0x48, 0x3d, 0x2f, 0x75, 0x73, 0x72, 0x2f, 0x62, 0x69, 0x6e]]

/-- Two auxiliary entries, to be followed by the `AT_NULL` terminator. -/
def demo_ents : List Elf64_Auxv := [⟨AT_PHDR, 0x400040⟩, ⟨AT_ENTRY, 0x400078⟩]

/-- The total length of the strings `strs`, one NUL counted for each. -/
def total_len (strs : List (List Nat)) : Nat := (strs.map (fun s => s.length + 1)).sum

/-- The state `s` was reached from `s0` by pushes that never wrote below the
stack pointer of `s`: the stack pointer did not grow and memory below it is
that of `s0`. -/
def Below (s0 s : State) : Prop :=
  s.rsp ≤ s0.rsp ∧ ∀ a, a < s.rsp → s.mem a = s0.mem a

/-- The start of the page range mapped for a segment at (biased) address
`pv`. -/
def page_lo (pv : Nat) : Nat := pv / 4096 * 4096

/-- The end of the page range mapped for a segment at (biased) address `pv`
with memory size `memsz`. -/
def page_hi (pv memsz : Nat) : Nat := (pv + memsz + 4095) / 4096 * 4096

/-- Loaded with bias `b`, the entries `p` and `q` occupy disjoint page
ranges. -/
def disjoint_pages (b : Nat) (p q : Elf64_Phdr) : Prop :=
  page_hi (p.p_vaddr + b) p.p_memsz ≤ page_lo (q.p_vaddr + b) ∨
  page_hi (q.p_vaddr + b) q.p_memsz ≤ page_lo (p.p_vaddr + b)

instance (b : Nat) (p q : Elf64_Phdr) : Decidable (disjoint_pages b p q) := by
  unfold disjoint_pages
  infer_instance

/-- A host file system on which every `do_open` fails. -/
def fs_empty : List Nat → Option Elf64_Ehdr := fun _ => none

/-- An interpreter file of unsupported type (`ET_REL`). -/
def demo_rel_ld_so : Elf64_Ehdr := { demo_ld_so with e_type := 1 }

/-- A host file system whose every file is `demo_rel_ld_so`. -/
def fs_rel : List Nat → Option Elf64_Ehdr := fun _ => some demo_rel_ld_so

/-- A static `ET_EXEC` image with two loadable segments. -/
def demo_two : Elf64_Ehdr :=
  { e_ident := demo_data.take 16, e_type := ET_EXEC, e_machine := EM_X86_64,
    e_entry := 0x400078, e_phoff := 64, e_phentsize := 56, e_phnum := 2,
    phdrs := [phdr_text, phdr_data], data := demo_data }

/-- Modelled from the spec: `guest_to_host`, the translation of the guest
memory manager, is not part of the sources; it is valid only for addresses
within an active mapping. `backed st a n` says that the `n` bytes reached as
`guest_to_host(a) + i` lie within one active mapping of `st`, which is when a
`memcpy` or `memset` through `guest_to_host(a)` is defined. -/
def backed (st : State) (a n : Nat) : Prop :=
  ∃ r ∈ st.mapped, r.addr ≤ a ∧ a < r.addr + r.len ∧ a + n ≤ r.addr + r.len

instance (st : State) (a n : Nat) : Decidable (backed st a n) := by
  unfold backed
  infer_instance

/-- The copy of line 119 for the entry `p` is defined: after the `do_mmap` call
of line 117, accepted or not, the bytes from `guest_to_host(vaddr)` up to the
end of the copy lie within an active mapping. -/
def segment_backed (accept : List MapReq → MapReq → Bool) (acc : LoadAcc) (p : Elf64_Phdr) :
    Prop :=
  p.p_type = PT_LOAD →
    backed (do_mmap accept (seg_request p.p_vaddr p.p_memsz p.p_flags).addr
        (seg_request p.p_vaddr p.p_memsz p.p_flags).len
        (seg_request p.p_vaddr p.p_memsz p.p_flags).prot
        (seg_request p.p_vaddr p.p_memsz p.p_flags).flags acc.st)
      (seg_request p.p_vaddr p.p_memsz p.p_flags).addr
      ((p.p_vaddr &&& (PAGE_SIZE_4KB - 1)) + p.p_filesz)

instance (accept : List MapReq → MapReq → Bool) (acc : LoadAcc) (p : Elf64_Phdr) :
    Decidable (segment_backed accept acc p) := by
  unfold segment_backed
  infer_instance

/-- Every copy made by the first loop of `load_elf` over the entries `tbl`,
started with the locals `acc`, is defined at the time it is made. -/
def segments_backed (accept : List MapReq → MapReq → Bool) (data : List Nat) :
    List Elf64_Phdr → LoadAcc → Prop
  | [], _ => True
  | p :: rest, acc =>
    segment_backed accept acc p ∧
      segments_backed accept data rest (load_elf_segment accept data acc p)

/-- A memory manager that rejects a request overlapping an active mapping and
accepts every other request. -/
def reject_overlap : List MapReq → MapReq → Bool :=
  fun mapped r => mapped.all (fun o => decide (r.addr + r.len ≤ o.addr ∨ o.addr + o.len ≤ r.addr))

/-- The mapping of the pages `[0x400000, 0x401000)` left by an earlier image. -/
def old_text_mapping : MapReq :=
  { addr := 0x400000, len := 0x1000, prot := L_PROT_READ ||| L_PROT_WRITE,
    flags := L_MAP_PRIVATE ||| L_MAP_FIXED ||| L_MAP_ANONYMOUS }

/-- A guest state in which the pages `[0x400000, 0x401000)` are already
mapped. -/
def state_with_old_text : State :=
  { State.zero with requests := [old_text_mapping], mapped := [old_text_mapping] }

/-! ## Arithmetic of pages and words -/

theorem and_page_mask (x : Nat) : x &&& (PAGE_SIZE_4KB - 1) = x % 4096 := by
  have h := Nat.and_pow_two_sub_one_eq_mod x 12
  simpa [PAGE_SIZE_4KB] using h

theorem and_not_page_mask (x : Nat) :
    x &&& not64 (PAGE_SIZE_4KB - 1) = x % 2 ^ 64 / 4096 * 4096 := by
  have e1 : not64 (PAGE_SIZE_4KB - 1) = 2 ^ 12 * (2 ^ 52 - 1) := by
    simp [not64, PAGE_SIZE_4KB]
  have e2 : x % 2 ^ 64 / 4096 * 4096 = 2 ^ 12 * (x % 2 ^ 64 / 2 ^ 12) := by
    omega
  rw [e1, e2]
  apply Nat.eq_of_testBit_eq
  intro i
  rw [← Nat.shiftRight_eq_div_pow]
  simp only [Nat.testBit_and, Nat.testBit_mul_pow_two, Nat.testBit_two_pow_sub_one,
    Nat.testBit_shiftRight, Nat.testBit_mod_two_pow]
  by_cases h1 : 12 ≤ i
  · by_cases h2 : i < 64
    · have h3 : i - 12 < 52 := by omega
      have h4 : 12 + (i - 12) = i := by omega
      simp [h1, h2, h3, h4]
    · have h3 : ¬ (i - 12 < 52) := by omega
      have h4 : ¬ (12 + (i - 12) < 64) := by omega
      simp [h1, h2, h3, h4]
  · simp [h1]

theorem MAX_eq_max (a b : Nat) : MAX a b = max a b := by
  unfold MAX
  split <;> omega

theorem roundup_page (x : Nat) : roundup x PAGE_SIZE_4KB = (x + 4095) % 2 ^ 64 / 4096 * 4096 := by
  simp only [roundup, add64, PAGE_SIZE_4KB]
  omega

theorem roundup_8 (x : Nat) : roundup x 8 = (x + 7) % 2 ^ 64 / 8 * 8 := by
  simp only [roundup, add64]
  omega

theorem seg_top_eq (pv memsz : Nat) (h : pv + memsz + 4095 < 2 ^ 64) :
    seg_top pv memsz = (pv + memsz + 4095) / 4096 * 4096 := by
  simp only [seg_top, roundup_page, and_page_mask, and_not_page_mask, add64]
  omega

theorem seg_top_mod (pv memsz : Nat) : seg_top pv memsz % 4096 = 0 := by
  simp only [seg_top, roundup_page]
  omega

theorem seg_top_mod_bias (pv memsz : Nat) :
    seg_top (pv % 2 ^ 64) memsz = seg_top pv memsz := by
  simp only [seg_top, roundup_page, and_page_mask, and_not_page_mask, add64]
  omega

theorem do_mmap_requests (accept : List MapReq → MapReq → Bool) (a l pr fl : Nat) (st : State) :
    (do_mmap accept a l pr fl st).requests = st.requests ++ [⟨a, l, pr, fl⟩] := by
  simp only [do_mmap]
  split <;> rfl

theorem do_mmap_regs (accept : List MapReq → MapReq → Bool) (a l pr fl : Nat) (st : State) :
    (do_mmap accept a l pr fl st).rip = st.rip ∧ (do_mmap accept a l pr fl st).rsp = st.rsp ∧
    (do_mmap accept a l pr fl st).rbp = st.rbp ∧
    (do_mmap accept a l pr fl st).brk_min = st.brk_min := by
  simp only [do_mmap]
  split <;> simp

theorem interp_segment_map_top (accept : List MapReq → MapReq → Bool) (data : List Nat)
    (b : Nat) (acc : InterpAcc) (p : Elf64_Phdr) :
    (load_elf_interp_segment accept data b acc p).map_top =
      if p.p_type = PT_LOAD then max acc.map_top (seg_top (add64 p.p_vaddr b) p.p_memsz)
      else acc.map_top := by
  unfold load_elf_interp_segment
  by_cases h : p.p_type = PT_LOAD
  · simp [h, MAX_eq_max, seg_top]
  · simp [h]

theorem segment_map_top (accept : List MapReq → MapReq → Bool) (data : List Nat)
    (acc : LoadAcc) (p : Elf64_Phdr) :
    (load_elf_segment accept data acc p).map_top =
      if p.p_type = PT_LOAD then max acc.map_top (seg_top p.p_vaddr p.p_memsz)
      else acc.map_top := by
  unfold load_elf_segment
  by_cases h : p.p_type = PT_LOAD
  · simp [h, MAX_eq_max, seg_top]
  · simp [h]

theorem interp_segment_requests (accept : List MapReq → MapReq → Bool) (data : List Nat)
    (b : Nat) (acc : InterpAcc) (p : Elf64_Phdr) :
    (load_elf_interp_segment accept data b acc p).st.requests =
      if p.p_type = PT_LOAD then
        acc.st.requests ++ [seg_request (add64 p.p_vaddr b) p.p_memsz p.p_flags]
      else acc.st.requests := by
  unfold load_elf_interp_segment
  by_cases h : p.p_type = PT_LOAD
  · simp [h, do_mmap_requests, seg_request]
  · simp [h]

theorem segment_requests (accept : List MapReq → MapReq → Bool) (data : List Nat)
    (acc : LoadAcc) (p : Elf64_Phdr) :
    (load_elf_segment accept data acc p).st.requests =
      if p.p_type = PT_LOAD then
        acc.st.requests ++ [seg_request p.p_vaddr p.p_memsz p.p_flags]
      else acc.st.requests := by
  unfold load_elf_segment
  by_cases h : p.p_type = PT_LOAD
  · simp [h, do_mmap_requests, seg_request]
  · simp [h]

/-! ## The segment loops -/

theorem spec_map_top_cons (b : Nat) (p : Elf64_Phdr) (tbl : List Elf64_Phdr) :
    spec_map_top b (p :: tbl) =
      if p.p_type = PT_LOAD then
        max ((p.p_vaddr + b + p.p_memsz + 4095) / 4096 * 4096) (spec_map_top b tbl)
      else spec_map_top b tbl := by
  unfold spec_map_top
  by_cases h : p.p_type = PT_LOAD
  · simp [List.filter_cons, h]
  · simp [List.filter_cons, h]

theorem interp_fold_map_top (accept : List MapReq → MapReq → Bool) (data : List Nat) (b : Nat)
    (tbl : List Elf64_Phdr) (acc : InterpAcc)
    (hno : ∀ p ∈ tbl, p.p_type = PT_LOAD → p.p_vaddr + b + p.p_memsz + 4095 < 2 ^ 64) :
    (tbl.foldl (load_elf_interp_segment accept data b) acc).map_top =
      max acc.map_top (spec_map_top b tbl) := by
  induction tbl generalizing acc with
  | nil => simp [spec_map_top]
  | cons p tbl ih =>
    have hp := hno p (List.mem_cons_self _ _)
    have ht : ∀ q ∈ tbl, q.p_type = PT_LOAD → q.p_vaddr + b + q.p_memsz + 4095 < 2 ^ 64 :=
      fun q hq => hno q (List.mem_cons_of_mem _ hq)
    rw [List.foldl_cons, ih _ ht, interp_segment_map_top, spec_map_top_cons]
    by_cases h : p.p_type = PT_LOAD
    · have h1 := hp h
      have h2 : add64 p.p_vaddr b = p.p_vaddr + b := by
        unfold add64
        omega
      rw [if_pos h, if_pos h, h2, seg_top_eq _ _ h1]
      omega
    · rw [if_neg h, if_neg h]

theorem interp_fold_mono (accept : List MapReq → MapReq → Bool) (data : List Nat) (b : Nat)
    (tbl : List Elf64_Phdr) (acc : InterpAcc) :
    acc.map_top ≤ (tbl.foldl (load_elf_interp_segment accept data b) acc).map_top := by
  induction tbl generalizing acc with
  | nil => simp
  | cons p tbl ih =>
    rw [List.foldl_cons]
    refine Nat.le_trans ?_ (ih _)
    rw [interp_segment_map_top]
    split <;> omega

theorem interp_fold_aligned (accept : List MapReq → MapReq → Bool) (data : List Nat) (b : Nat)
    (tbl : List Elf64_Phdr) (acc : InterpAcc) (h : acc.map_top % 4096 = 0) :
    (tbl.foldl (load_elf_interp_segment accept data b) acc).map_top % 4096 = 0 := by
  induction tbl generalizing acc with
  | nil => simpa using h
  | cons p tbl ih =>
    rw [List.foldl_cons]
    apply ih
    rw [interp_segment_map_top]
    have := seg_top_mod (add64 p.p_vaddr b) p.p_memsz
    split
    · rcases Nat.le_total acc.map_top (seg_top (add64 p.p_vaddr b) p.p_memsz) with h1 | h1
      · rw [Nat.max_eq_right h1]
        exact this
      · rw [Nat.max_eq_left h1]
        exact h
    · exact h

/-- The loop of `load_elf` computes the same `map_top` as the loop of
`load_elf_interp` run with load address 0. -/
theorem segments_fold_map_top (accept accept2 : List MapReq → MapReq → Bool)
    (data data2 : List Nat) (tbl : List Elf64_Phdr) (acc : LoadAcc) (acc2 : InterpAcc)
    (h : acc.map_top = acc2.map_top) :
    (tbl.foldl (load_elf_segment accept data) acc).map_top =
      (tbl.foldl (load_elf_interp_segment accept2 data2 0) acc2).map_top := by
  induction tbl generalizing acc acc2 with
  | nil => simpa using h
  | cons p tbl ih =>
    rw [List.foldl_cons, List.foldl_cons]
    apply ih
    rw [segment_map_top, interp_segment_map_top, h]
    have e : seg_top (add64 p.p_vaddr 0) p.p_memsz = seg_top p.p_vaddr p.p_memsz := by
      have := seg_top_mod_bias p.p_vaddr p.p_memsz
      simpa [add64] using this
    rw [e]

/-- C6: after the segment-mapping loop over a program-header table with load
bias `b` (no 64-bit overflow), `map_top` is the maximum over the `PT_LOAD`
entries of `p_vaddr + b + p_memsz` rounded up to a multiple of 4096 (0 when
there is none); it is a multiple of 4096, and the running value after any
initial part of the table is at most the final value. The loop of `load_elf`
is the case `b = 0`. -/
theorem map_top_is_highest_page_end (accept : List MapReq → MapReq → Bool) (data : List Nat)
    (b : Nat) (tbl : List Elf64_Phdr) (st : State)
    (hno : ∀ p ∈ tbl, p.p_type = PT_LOAD → p.p_vaddr + b + p.p_memsz + 4095 < 2 ^ 64) :
    ((tbl.foldl (load_elf_interp_segment accept data b) { st := st, map_top := 0 }).map_top
        = spec_map_top b tbl
      ∧ (tbl.foldl (load_elf_interp_segment accept data b) { st := st, map_top := 0 }).map_top
        % 4096 = 0
      ∧ ∀ l1 l2, tbl = l1 ++ l2 →
        (l1.foldl (load_elf_interp_segment accept data b) { st := st, map_top := 0 }).map_top
          ≤ (tbl.foldl (load_elf_interp_segment accept data b)
              { st := st, map_top := 0 }).map_top)
    ∧ (b = 0 →
      (tbl.foldl (load_elf_segment accept data)
          { st := st, load_base := 0, load_base_set := false, map_top := 0 }).map_top
        = spec_map_top 0 tbl
      ∧ (tbl.foldl (load_elf_segment accept data)
          { st := st, load_base := 0, load_base_set := false, map_top := 0 }).map_top % 4096 = 0
      ∧ ∀ l1 l2, tbl = l1 ++ l2 →
        (l1.foldl (load_elf_segment accept data)
            { st := st, load_base := 0, load_base_set := false, map_top := 0 }).map_top
          ≤ (tbl.foldl (load_elf_segment accept data)
              { st := st, load_base := 0, load_base_set := false, map_top := 0 }).map_top) := by
  have A := interp_fold_map_top accept data b tbl { st := st, map_top := 0 } hno
  have B := interp_fold_aligned accept data b tbl { st := st, map_top := 0 } rfl
  have C : ∀ l1 l2, tbl = l1 ++ l2 →
      (l1.foldl (load_elf_interp_segment accept data b) { st := st, map_top := 0 }).map_top
        ≤ (tbl.foldl (load_elf_interp_segment accept data b)
            { st := st, map_top := 0 }).map_top := by
    intro l1 l2 e
    rw [e, List.foldl_append]
    exact interp_fold_mono accept data b l2 _
  have A1 : (tbl.foldl (load_elf_interp_segment accept data b) { st := st, map_top := 0 }).map_top
      = spec_map_top b tbl := by
    rw [A]
    simp
  refine ⟨⟨A1, B, C⟩, ?_⟩
  intro hb
  subst hb
  have E : ∀ l : List Elf64_Phdr,
      (l.foldl (load_elf_segment accept data)
          { st := st, load_base := 0, load_base_set := false, map_top := 0 }).map_top =
      (l.foldl (load_elf_interp_segment accept data 0) { st := st, map_top := 0 }).map_top :=
    fun l => segments_fold_map_top accept accept data data l _ _ rfl
  refine ⟨?_, ?_, ?_⟩
  · rw [E, A1]
  · rw [E]
    exact B
  · intro l1 l2 e
    rw [E, E]
    exact C l1 l2 e

theorem map_top_is_highest_page_end_witness :
    (∀ p ∈ demo_dynamic.phdrs, p.p_type = PT_LOAD →
        p.p_vaddr + 0x401000 + p.p_memsz + 4095 < 2 ^ 64) ∧
    (demo_dynamic.phdrs.foldl (load_elf_interp_segment accept_all demo_data 0x401000)
        { st := State.zero, map_top := 0 }).map_top = spec_map_top 0x401000 demo_dynamic.phdrs :=
  ⟨by decide,
   (map_top_is_highest_page_end accept_all demo_data 0x401000 demo_dynamic.phdrs State.zero
      (by decide)).1.1⟩

theorem seg_prot_bits (fl : Nat) :
    (seg_prot fl &&& L_PROT_READ ≠ 0 ↔ fl &&& PF_R ≠ 0) ∧
    (seg_prot fl &&& L_PROT_WRITE ≠ 0 ↔ fl &&& PF_W ≠ 0) ∧
    (seg_prot fl &&& L_PROT_EXEC ≠ 0 ↔ fl &&& PF_X ≠ 0) ∧
    seg_prot fl &&& (L_PROT_READ ||| L_PROT_WRITE ||| L_PROT_EXEC) = seg_prot fl := by
  unfold seg_prot
  simp only [L_PROT_READ, L_PROT_WRITE, L_PROT_EXEC]
  by_cases hx : fl &&& PF_X ≠ 0 <;> by_cases hw : fl &&& PF_W ≠ 0 <;>
    by_cases hr : fl &&& PF_R ≠ 0 <;>
    simp only [if_pos, if_neg, hx, hw, hr, not_false_eq_true, not_true_eq_false, ne_eq] <;>
    simp_all <;> decide

theorem load_elf_segments_requests (accept : List MapReq → MapReq → Bool) (data : List Nat)
    (tbl : List Elf64_Phdr) (acc : LoadAcc) :
    (tbl.foldl (load_elf_segment accept data) acc).st.requests =
      acc.st.requests ++ (tbl.filter (fun p => p.p_type = PT_LOAD)).map
        (fun p => seg_request p.p_vaddr p.p_memsz p.p_flags) := by
  induction tbl generalizing acc with
  | nil => simp
  | cons p tbl ih =>
    rw [List.foldl_cons, ih, segment_requests]
    by_cases h : p.p_type = PT_LOAD
    · simp [List.filter_cons, h]
    · simp [List.filter_cons, h]

/-- C7: the segment loop of `load_elf` requests exactly one mapping per
`PT_LOAD` entry of the table, in file order, and none for another entry; each
request has an address and a size that are multiples of 4096 (the address is
`p_vaddr` rounded down to a page), the flags private, fixed and anonymous, and
a protection in which read, write, execute are present exactly when `PF_R`,
`PF_W`, `PF_X` is set in `p_flags`. -/
theorem one_mapping_per_load_segment (accept : List MapReq → MapReq → Bool)
    (ehdr : Elf64_Ehdr) (st : State) :
    (load_elf_segments accept ehdr st).st.requests =
        st.requests ++ ((phdr_table ehdr).filter (fun p => p.p_type = PT_LOAD)).map
          (fun p => seg_request p.p_vaddr p.p_memsz p.p_flags)
    ∧ ((load_elf_segments accept ehdr st).st.requests.length =
        st.requests.length + ((phdr_table ehdr).filter (fun p => p.p_type = PT_LOAD)).length)
    ∧ ∀ p : Elf64_Phdr,
        (seg_request p.p_vaddr p.p_memsz p.p_flags).addr = p.p_vaddr % 2 ^ 64 / 4096 * 4096
      ∧ (seg_request p.p_vaddr p.p_memsz p.p_flags).addr % 4096 = 0
      ∧ (seg_request p.p_vaddr p.p_memsz p.p_flags).len % 4096 = 0
      ∧ (seg_request p.p_vaddr p.p_memsz p.p_flags).flags =
          L_MAP_PRIVATE ||| L_MAP_FIXED ||| L_MAP_ANONYMOUS
      ∧ ((seg_request p.p_vaddr p.p_memsz p.p_flags).prot &&& L_PROT_READ ≠ 0 ↔
          p.p_flags &&& PF_R ≠ 0)
      ∧ ((seg_request p.p_vaddr p.p_memsz p.p_flags).prot &&& L_PROT_WRITE ≠ 0 ↔
          p.p_flags &&& PF_W ≠ 0)
      ∧ ((seg_request p.p_vaddr p.p_memsz p.p_flags).prot &&& L_PROT_EXEC ≠ 0 ↔
          p.p_flags &&& PF_X ≠ 0)
      ∧ (seg_request p.p_vaddr p.p_memsz p.p_flags).prot &&&
          (L_PROT_READ ||| L_PROT_WRITE ||| L_PROT_EXEC) =
          (seg_request p.p_vaddr p.p_memsz p.p_flags).prot := by
  have R := load_elf_segments_requests accept ehdr.data (phdr_table ehdr)
    { st := st, load_base := 0, load_base_set := false, map_top := 0 }
  refine ⟨R, ?_, ?_⟩
  · unfold load_elf_segments
    rw [R]
    simp
  · intro p
    have hb := seg_prot_bits p.p_flags
    refine ⟨?_, ?_, ?_, rfl, hb.1, hb.2.1, hb.2.2.1, hb.2.2.2⟩
    · simp only [seg_request, and_not_page_mask]
    · simp only [seg_request, and_not_page_mask]
      omega
    · simp only [seg_request, roundup_page]
      omega

theorem memcpy_inside (mem : Nat → Nat) (dst : Nat) (src : Nat → Nat) (n i : Nat) (h : i < n) :
    memcpy mem dst src n (dst + i) = src i := by
  unfold memcpy
  have h1 : dst ≤ dst + i ∧ dst + i < dst + n := by omega
  rw [if_pos h1]
  congr 1
  omega

theorem memcpy_outside (mem : Nat → Nat) (dst : Nat) (src : Nat → Nat) (n a : Nat)
    (h : a < dst ∨ dst + n ≤ a) : memcpy mem dst src n a = mem a := by
  unfold memcpy
  have h1 : ¬ (dst ≤ a ∧ a < dst + n) := by omega
  rw [if_neg h1]

theorem memset_inside (mem : Nat → Nat) (dst c n i : Nat) (h : i < n) :
    memset mem dst c n (dst + i) = c := by
  unfold memset
  have h1 : dst ≤ dst + i ∧ dst + i < dst + n := by omega
  rw [if_pos h1]

theorem memset_outside (mem : Nat → Nat) (dst c n a : Nat)
    (h : a < dst ∨ dst + n ≤ a) : memset mem dst c n a = mem a := by
  unfold memset
  have h1 : ¬ (dst ≤ a ∧ a < dst + n) := by omega
  rw [if_neg h1]

/-- C8: in `load_elf_interp` with load address `B`, for a `PT_LOAD` entry the
page base and the in-page offset computed by the loop add up to
`(p_vaddr + B) mod 2^64`, the offset is below 4096, the mapping is requested at
that page base, and after the iteration the `p_filesz` bytes of the file at
offset `p_offset` are in guest memory from address `(p_vaddr + B) mod 2^64`
on. -/
theorem interp_segment_placed_at_bias (accept : List MapReq → MapReq → Bool) (data : List Nat)
    (B : Nat) (acc : InterpAcc) (p : Elf64_Phdr) (hp : p.p_type = PT_LOAD) :
    (add64 p.p_vaddr B &&& not64 (PAGE_SIZE_4KB - 1)) + (add64 p.p_vaddr B &&& (PAGE_SIZE_4KB - 1))
        = (p.p_vaddr + B) % 2 ^ 64
    ∧ (add64 p.p_vaddr B &&& (PAGE_SIZE_4KB - 1)) < 4096
    ∧ (load_elf_interp_segment accept data B acc p).st.requests =
        acc.st.requests ++ [seg_request (add64 p.p_vaddr B) p.p_memsz p.p_flags]
    ∧ (seg_request (add64 p.p_vaddr B) p.p_memsz p.p_flags).addr =
        add64 p.p_vaddr B &&& not64 (PAGE_SIZE_4KB - 1)
    ∧ ∀ i, i < p.p_filesz →
        (load_elf_interp_segment accept data B acc p).st.mem ((p.p_vaddr + B) % 2 ^ 64 + i) =
          data.getD (p.p_offset + i) 0 := by
  have hsum : (add64 p.p_vaddr B &&& not64 (PAGE_SIZE_4KB - 1)) +
      (add64 p.p_vaddr B &&& (PAGE_SIZE_4KB - 1)) = (p.p_vaddr + B) % 2 ^ 64 := by
    simp only [and_page_mask, and_not_page_mask, add64]
    omega
  refine ⟨hsum, ?_, ?_, rfl, ?_⟩
  · simp only [and_page_mask]
    omega
  · rw [interp_segment_requests, if_pos hp]
  · intro i hi
    have hne : ¬ (p.p_type ≠ PT_LOAD) := by simp [hp]
    simp only [load_elf_interp_segment, if_neg hne]
    rw [← hsum]
    exact memcpy_inside _ _ _ _ _ hi

theorem interp_segment_placed_at_bias_witness :
    phdr_ld_so.p_type = PT_LOAD ∧
    ∀ i, i < phdr_ld_so.p_filesz →
      (load_elf_interp_segment accept_all demo_data 0x401000
          { st := State.zero, map_top := 0 } phdr_ld_so).st.mem
        ((phdr_ld_so.p_vaddr + 0x401000) % 2 ^ 64 + i) =
        demo_data.getD (phdr_ld_so.p_offset + i) 0 :=
  ⟨by decide,
   (interp_segment_placed_at_bias accept_all demo_data 0x401000
      { st := State.zero, map_top := 0 } phdr_ld_so (by decide)).2.2.2.2⟩

/-! ## Frame properties of the stack builder -/

theorem same_ctl_refl (s : State) : same_ctl s s := ⟨rfl, rfl, rfl, rfl, rfl⟩

theorem same_ctl_trans {s t u : State} (h1 : same_ctl s t) (h2 : same_ctl t u) : same_ctl s u :=
  ⟨h1.1.trans h2.1, h1.2.1.trans h2.2.1, h1.2.2.1.trans h2.2.2.1,
   h1.2.2.2.1.trans h2.2.2.2.1, h1.2.2.2.2.trans h2.2.2.2.2⟩

theorem push_same_ctl (data : Option (Nat → Nat)) (n : Nat) (st : State) :
    same_ctl (push data n st).2 st := by
  unfold push
  cases data <;> exact ⟨rfl, rfl, rfl, rfl, rfl⟩

theorem push_rsp (data : Option (Nat → Nat)) (n : Nat) (st : State) :
    (push data n st).2.rsp = sub64 st.rsp (roundup n 8) ∧
    (push data n st).1 = sub64 st.rsp (roundup n 8) := by
  unfold push
  cases data <;> exact ⟨rfl, rfl⟩

theorem push_auxv_same_ctl (aux : List Elf64_Auxv) (st : State) :
    same_ctl (push_auxv aux st) st := by
  induction aux generalizing st with
  | nil => exact same_ctl_refl _
  | cons a rest ih =>
    unfold push_auxv
    split
    · exact same_ctl_trans (ih _) (same_ctl_trans (push_same_ctl _ _ _) (push_same_ctl _ _ _))
    · exact same_ctl_refl _

theorem push_pointers_same_ctl (line : Nat) (buf : List Nat) (args_start : Nat)
    (strs : List (List Nat)) (ptr : Nat) (st : State) :
    same_ctl (push_pointers line buf args_start strs ptr st).state st := by
  induction strs generalizing ptr st with
  | nil => exact same_ctl_refl _
  | cons s rest ih =>
    unfold push_pointers
    simp only
    split
    · exact same_ctl_trans (ih _ _) (push_same_ctl _ _ _)
    · exact push_same_ctl _ _ _

/-- Whatever the outcome, `init_userstack` leaves RIP and `brk_min` as they
were and sets RBP to `STACK_TOP`. -/
theorem init_userstack_ctl (cfg : Config) (accept : List MapReq → MapReq → Bool) (argc : Nat)
    (argv envp : List (List Nat)) (aux : List Elf64_Auxv) (st : State) :
    (init_userstack cfg accept argc argv envp aux st).state.rip = st.rip ∧
    (init_userstack cfg accept argc argv envp aux st).state.brk_min = st.brk_min ∧
    (init_userstack cfg accept argc argv envp aux st).state.rbp = cfg.STACK_TOP := by
  have hm := do_mmap_regs accept (sub64 cfg.STACK_TOP cfg.STACK_SIZE) cfg.STACK_SIZE
    (L_PROT_READ ||| L_PROT_WRITE) (L_MAP_PRIVATE ||| L_MAP_FIXED ||| L_MAP_ANONYMOUS) st
  simp only [init_userstack]
  generalize hst0 : ({ ({ (do_mmap accept (sub64 cfg.STACK_TOP cfg.STACK_SIZE) cfg.STACK_SIZE
    (L_PROT_READ ||| L_PROT_WRITE) (L_MAP_PRIVATE ||| L_MAP_FIXED ||| L_MAP_ANONYMOUS) st)
      with rsp := cfg.STACK_TOP } : State) with rbp := cfg.STACK_TOP } : State) = st0
  have h0 : st0.rip = st.rip ∧ st0.brk_min = st.brk_min ∧ st0.rbp = cfg.STACK_TOP := by
    subst hst0
    exact ⟨hm.1, hm.2.2.2, rfl⟩
  generalize hbuf : copy_strings (copy_strings [] (List.take argc argv)) envp = buf
  generalize htot : add_lengths (add_lengths 0 (List.take argc argv)) envp = total
  generalize hst1 : push (some (bytes_of buf)) total st0 = r1
  have h1 : same_ctl r1.2 st0 := by
    rw [← hst1]
    exact push_same_ctl _ _ _
  generalize hst2 : (push none 8 (push_auxv aux (push none 16 r1.2).2)).2 = st2
  have h2 : same_ctl st2 st0 := by
    rw [← hst2]
    exact same_ctl_trans (push_same_ctl _ _ _) (same_ctl_trans (push_auxv_same_ctl _ _)
      (same_ctl_trans (push_same_ctl _ _ _) h1))
  have h3 := push_pointers_same_ctl 238 buf r1.1 envp.reverse (add64 r1.1 total) st2
  cases hp : push_pointers 238 buf r1.1 envp.reverse (add64 r1.1 total) st2 with
  | abort l s =>
    rw [hp] at h3
    have h4 := same_ctl_trans h3 h2
    exact ⟨h4.1.trans h0.1, h4.2.2.1.trans h0.2.1, h4.2.1.trans h0.2.2⟩
  | done u s =>
    rw [hp] at h3
    have h4 : same_ctl (push none 8 s).2 st0 :=
      same_ctl_trans (push_same_ctl _ _ _) (same_ctl_trans h3 h2)
    have h5 := push_pointers_same_ctl 247 buf r1.1 (List.take argc argv).reverse
      (add64 r1.1 (add_lengths 0 (List.take argc argv))) (push none 8 s).2
    simp only
    cases hq : push_pointers 247 buf r1.1 (List.take argc argv).reverse
        (add64 r1.1 (add_lengths 0 (List.take argc argv))) (push none 8 s).2 with
    | abort l s2 =>
      rw [hq] at h5
      have h6 := same_ctl_trans h5 h4
      exact ⟨h6.1.trans h0.1, h6.2.2.1.trans h0.2.1, h6.2.1.trans h0.2.2⟩
    | done u2 s2 =>
      rw [hq] at h5
      have h6 := same_ctl_trans (push_same_ctl (some (le64 (argc % 2 ^ 64))) 8 s2)
        (same_ctl_trans h5 h4)
      exact ⟨h6.1.trans h0.1, h6.2.2.1.trans h0.2.1, h6.2.1.trans h0.2.2⟩

/-! ## `load_elf` before the stack is built -/

theorem segment_load_base (accept : List MapReq → MapReq → Bool) (data : List Nat)
    (acc : LoadAcc) (p : Elf64_Phdr) :
    (load_elf_segment accept data acc p).load_base_set =
        (acc.load_base_set || decide (p.p_type = PT_LOAD)) ∧
    (load_elf_segment accept data acc p).load_base =
        if p.p_type = PT_LOAD ∧ acc.load_base_set = false then sub64 p.p_vaddr p.p_offset
        else acc.load_base := by
  unfold load_elf_segment
  by_cases h : p.p_type = PT_LOAD
  · cases hb : acc.load_base_set <;> simp [h, hb]
  · simp [h]

theorem segments_fold_load_base (accept : List MapReq → MapReq → Bool) (data : List Nat)
    (tbl : List Elf64_Phdr) (acc : LoadAcc) :
    (tbl.foldl (load_elf_segment accept data) acc).load_base_set =
        (acc.load_base_set || tbl.any (fun p => p.p_type == PT_LOAD)) ∧
    (tbl.foldl (load_elf_segment accept data) acc).load_base =
        if acc.load_base_set then acc.load_base
        else match tbl.find? (fun p => p.p_type == PT_LOAD) with
          | some p => sub64 p.p_vaddr p.p_offset
          | none => acc.load_base := by
  induction tbl generalizing acc with
  | nil => simp
  | cons p tbl ih =>
    rw [List.foldl_cons]
    obtain ⟨i1, i2⟩ := ih (load_elf_segment accept data acc p)
    obtain ⟨s1, s2⟩ := segment_load_base accept data acc p
    rw [i1, i2, s1, s2]
    by_cases h : p.p_type = PT_LOAD
    · cases hb : acc.load_base_set <;> simp [h, hb, List.find?_cons]
    · cases hb : acc.load_base_set <;> simp [h, hb, List.find?_cons]

theorem interp_fold_map_top_indep (accept accept2 : List MapReq → MapReq → Bool)
    (data data2 : List Nat) (b : Nat) (tbl : List Elf64_Phdr) (acc acc2 : InterpAcc)
    (h : acc.map_top = acc2.map_top) :
    (tbl.foldl (load_elf_interp_segment accept data b) acc).map_top =
      (tbl.foldl (load_elf_interp_segment accept2 data2 b) acc2).map_top := by
  induction tbl generalizing acc acc2 with
  | nil => simpa using h
  | cons p tbl ih =>
    rw [List.foldl_cons, List.foldl_cons]
    apply ih
    rw [interp_segment_map_top, interp_segment_map_top, h]

/-- The `map_top` computed by the first loop of `load_elf` depends only on the
program-header table. -/
theorem load_elf_segments_map_top_indep (accept accept2 : List MapReq → MapReq → Bool)
    (ehdr : Elf64_Ehdr) (st st2 : State) :
    (load_elf_segments accept ehdr st).map_top = (load_elf_segments accept2 ehdr st2).map_top := by
  unfold load_elf_segments
  rw [segments_fold_map_top accept accept ehdr.data ehdr.data (phdr_table ehdr) _
      { st := st, map_top := 0 } rfl,
    segments_fold_map_top accept2 accept ehdr.data ehdr.data (phdr_table ehdr) _
      { st := st2, map_top := 0 } rfl]
  exact interp_fold_map_top_indep accept accept ehdr.data ehdr.data 0 (phdr_table ehdr) _ _ rfl

theorem load_elf_image_valid (fs : List Nat → Option Elf64_Ehdr)
    (accept : List MapReq → MapReq → Bool) (ehdr : Elf64_Ehdr) (st : State)
    (hmagic : IS_ELF ehdr = true) (htype : ehdr.e_type = ET_EXEC)
    (hmach : ehdr.e_machine = EM_X86_64) :
    load_elf_image fs accept ehdr st =
      if ¬ (load_elf_segments accept ehdr st).load_base_set then
        .abort 128 (load_elf_segments accept ehdr st).st
      else
        match (phdr_table ehdr).find? (fun p => p.p_type == PT_INTERP) with
        | some p =>
          match load_elf_interp fs accept (interp_path ehdr p)
              (load_elf_segments accept ehdr st).map_top (load_elf_segments accept ehdr st).st with
          | .abort l s => .abort l s
          | .done _ s => .done (.inr (load_elf_auxv ehdr (load_elf_segments accept ehdr st).load_base
              (load_elf_segments accept ehdr st).map_top true)) s
        | none =>
          .done (.inr (load_elf_auxv ehdr (load_elf_segments accept ehdr st).load_base
              (load_elf_segments accept ehdr st).map_top false))
            { (load_elf_segments accept ehdr st).st with
              rip := ehdr.e_entry, brk_min := (load_elf_segments accept ehdr st).map_top } := by
  unfold load_elf_image
  simp [hmagic, htype, hmach]

theorem load_elf_image_invalid (fs : List Nat → Option Elf64_Ehdr)
    (accept : List MapReq → MapReq → Bool) (ehdr : Elf64_Ehdr) (st : State)
    (h : ¬ (IS_ELF ehdr = true ∧ ehdr.e_type = ET_EXEC ∧ ehdr.e_machine = EM_X86_64)) :
    load_elf_image fs accept ehdr st = .abort 86 st ∨
    load_elf_image fs accept ehdr st = .done (.inl .not_executable) st ∨
    load_elf_image fs accept ehdr st = .done (.inl .not_x64) st := by
  unfold load_elf_image
  by_cases h1 : IS_ELF ehdr = true
  · by_cases h2 : ehdr.e_type = ET_EXEC
    · have h3 : ehdr.e_machine ≠ EM_X86_64 := fun h3 => h ⟨h1, h2, h3⟩
      simp [h1, h2, h3]
    · simp [h1, h2]
  · simp [h1]

theorem load_elf_interp_abort_line (fs : List Nat → Option Elf64_Ehdr)
    (accept : List MapReq → MapReq → Bool) (path : List Nat) (b : Nat) (st s : State) (l : Nat)
    (h : load_elf_interp fs accept path b st = .abort l s) : l = 42 := by
  unfold load_elf_interp at h
  split at h
  · cases h
  · split at h
    · cases h
      rfl
    · split at h
      · cases h
      · split at h <;> cases h

theorem interp_fold_requests (accept : List MapReq → MapReq → Bool) (data : List Nat) (b : Nat)
    (tbl : List Elf64_Phdr) (acc : InterpAcc) :
    (tbl.foldl (load_elf_interp_segment accept data b) acc).st.requests =
      acc.st.requests ++ (tbl.filter (fun p => p.p_type = PT_LOAD)).map
        (fun p => seg_request (add64 p.p_vaddr b) p.p_memsz p.p_flags) := by
  induction tbl generalizing acc with
  | nil => simp
  | cons p tbl ih =>
    rw [List.foldl_cons, ih, interp_segment_requests]
    by_cases h : p.p_type = PT_LOAD
    · simp [List.filter_cons, h]
    · simp [List.filter_cons, h]

theorem load_elf_interp_success (fs : List Nat → Option Elf64_Ehdr)
    (accept : List MapReq → MapReq → Bool) (path : List Nat) (b : Nat) (st s : State)
    (h : Elf64_Ehdr) (hfs : fs path = some h)
    (hok : load_elf_interp fs accept path b st = .done 0 s) :
    s = { ((phdr_table h).foldl (load_elf_interp_segment accept h.data b)
            { st := st, map_top := 0 }).st with
          rip := add64 b h.e_entry,
          brk_min := ((phdr_table h).foldl (load_elf_interp_segment accept h.data b)
            { st := st, map_top := 0 }).map_top } := by
  unfold load_elf_interp at hok
  rw [hfs] at hok
  simp only at hok
  split at hok
  · cases hok
  · split at hok
    · cases hok
    · split at hok
      · cases hok
      · cases hok
        rfl

theorem load_elf_interp_invalid (fs : List Nat → Option Elf64_Ehdr)
    (accept : List MapReq → MapReq → Bool) (path : List Nat) (b : Nat) (st : State)
    (h : Elf64_Ehdr) (hfs : fs path = some h)
    (hbad : ¬ (IS_ELF h = true ∧ (h.e_type = ET_EXEC ∨ h.e_type = ET_DYN) ∧
      h.e_machine = EM_X86_64)) :
    load_elf_interp fs accept path b st = .abort 42 st ∨
    load_elf_interp fs accept path b st = .done (-1) st := by
  unfold load_elf_interp
  rw [hfs]
  by_cases h1 : IS_ELF h = true
  · by_cases h2 : h.e_type = ET_EXEC ∨ h.e_type = ET_DYN
    · have h3 : h.e_machine ≠ EM_X86_64 := fun h3 => hbad ⟨h1, h2, h3⟩
      simp [h1, h2, h3]
    · simp [h1, h2]
  · simp [h1]

theorem load_elf_state_of_image (cfg : Config) (fs : List Nat → Option Elf64_Ehdr)
    (accept : List MapReq → MapReq → Bool) (ehdr : Elf64_Ehdr) (argc : Nat)
    (argv envp : List (List Nat)) (st s : State) (aux : List Elf64_Auxv)
    (h : load_elf_image fs accept ehdr st = .done (.inr aux) s) :
    (load_elf cfg fs accept ehdr argc argv envp st).state =
      (init_userstack cfg accept argc argv envp aux s).state := by
  unfold load_elf
  rw [h]
  simp only
  cases init_userstack cfg accept argc argv envp aux s <;> rfl

/-- C10: rejection is atomic. If the main image fails the validation of
`load_elf` (bad magic, type other than `ET_EXEC`, or machine other than
`EM_X86_64`), `load_elf` ends in the state it started in: no mapping requested,
no guest byte written, RIP, RSP, RBP and `brk_min` unchanged, and it does not
report a loaded image. Likewise, if the interpreter file fails the validation
of `load_elf_interp` (bad magic, type other than `ET_EXEC` and `ET_DYN`, or
machine other than `EM_X86_64`), `load_elf_interp` ends in the state it started
in and does not return 0. -/
theorem rejection_is_atomic (cfg : Config) (fs : List Nat → Option Elf64_Ehdr)
    (accept : List MapReq → MapReq → Bool) (ehdr : Elf64_Ehdr) (argc : Nat)
    (argv envp : List (List Nat)) (st : State) :
    (¬ (IS_ELF ehdr = true ∧ ehdr.e_type = ET_EXEC ∧ ehdr.e_machine = EM_X86_64) →
      (load_elf cfg fs accept ehdr argc argv envp st).state = st ∧
      ∀ s, load_elf cfg fs accept ehdr argc argv envp st ≠ .done .loaded s) ∧
    (∀ (path : List Nat) (b : Nat) (h : Elf64_Ehdr), fs path = some h →
      ¬ (IS_ELF h = true ∧ (h.e_type = ET_EXEC ∨ h.e_type = ET_DYN) ∧
          h.e_machine = EM_X86_64) →
      (load_elf_interp fs accept path b st).state = st ∧
      ∀ s, load_elf_interp fs accept path b st ≠ .done 0 s) := by
  constructor
  · intro hbad
    unfold load_elf
    rcases load_elf_image_invalid fs accept ehdr st hbad with h | h | h <;> rw [h] <;>
      simp [Run.state]
  · intro path b h hfs hbad
    rcases load_elf_interp_invalid fs accept path b st h hfs hbad with h1 | h1 <;> rw [h1] <;>
      simp [Run.state]

theorem rejection_is_atomic_witness :
    ¬ (IS_ELF demo_pie = true ∧ demo_pie.e_type = ET_EXEC ∧ demo_pie.e_machine = EM_X86_64) ∧
    (load_elf demo_cfg demo_fs accept_all demo_pie 0 [] [] State.zero).state = State.zero :=
  ⟨by decide,
   ((rejection_is_atomic demo_cfg demo_fs accept_all demo_pie 0 [] [] State.zero).1
      (by decide)).1⟩

theorem load_base_set_of_load (accept : List MapReq → MapReq → Bool) (ehdr : Elf64_Ehdr)
    (st : State) (hload : ∃ q ∈ phdr_table ehdr, q.p_type = PT_LOAD) :
    (load_elf_segments accept ehdr st).load_base_set = true := by
  unfold load_elf_segments
  rw [(segments_fold_load_base accept ehdr.data (phdr_table ehdr) _).1]
  obtain ⟨q, hq, ht⟩ := hload
  simp only [Bool.false_or, List.any_eq_true]
  exact ⟨q, hq, by simp [ht]⟩

theorem find_interp_none (tbl : List Elf64_Phdr) (hno : ∀ q ∈ tbl, q.p_type ≠ PT_INTERP) :
    tbl.find? (fun p => p.p_type == PT_INTERP) = none := by
  rw [List.find?_eq_none]
  intro q hq
  simpa using hno q hq

/-- C3: when `load_elf` reaches the call of `init_userstack`, the auxiliary
vector it hands over is `[AT_PHDR = load_base + e_phoff, AT_PHENT =
e_phentsize, AT_PHNUM = e_phnum, AT_PAGESZ = 4096, AT_BASE = (main map_top if
the table has a PT_INTERP entry, else 0), AT_ENTRY = e_entry, AT_NULL = 0]`,
where `load_base` is `p_vaddr - p_offset` (64-bit wrap-around) of the first
`PT_LOAD` entry of the main image; the vector is a function of the main image
alone (it is the same for every file system, memory manager and start
state). -/
theorem aux_vector_contents (fs : List Nat → Option Elf64_Ehdr)
    (accept : List MapReq → MapReq → Bool) (ehdr : Elf64_Ehdr) (st s : State)
    (aux : List Elf64_Auxv)
    (h : load_elf_image fs accept ehdr st = .done (.inr aux) s) :
    ∃ p, (phdr_table ehdr).find? (fun q => q.p_type == PT_LOAD) = some p ∧
      aux =
        [ ⟨AT_PHDR, (sub64 p.p_vaddr p.p_offset + ehdr.e_phoff) % 2 ^ 64⟩,
          ⟨AT_PHENT, ehdr.e_phentsize⟩,
          ⟨AT_PHNUM, ehdr.e_phnum⟩,
          ⟨AT_PAGESZ, 4096⟩,
          ⟨AT_BASE, if (phdr_table ehdr).any (fun q => q.p_type == PT_INTERP)
              then (load_elf_segments accept_all ehdr State.zero).map_top else 0⟩,
          ⟨AT_ENTRY, ehdr.e_entry⟩,
          ⟨AT_NULL, 0⟩ ] := by
  by_cases hv : IS_ELF ehdr = true ∧ ehdr.e_type = ET_EXEC ∧ ehdr.e_machine = EM_X86_64
  · obtain ⟨h1, h2, h3⟩ := hv
    rw [load_elf_image_valid fs accept ehdr st h1 h2 h3] at h
    have hmt := load_elf_segments_map_top_indep accept accept_all ehdr st State.zero
    have hlb := segments_fold_load_base accept ehdr.data (phdr_table ehdr)
      { st := st, load_base := 0, load_base_set := false, map_top := 0 }
    have hlb1 : (load_elf_segments accept ehdr st).load_base_set =
        (phdr_table ehdr).any (fun p => p.p_type == PT_LOAD) := by
      simpa [load_elf_segments] using hlb.1
    have hlb2 : (load_elf_segments accept ehdr st).load_base =
        match (phdr_table ehdr).find? (fun p => p.p_type == PT_LOAD) with
          | some p => sub64 p.p_vaddr p.p_offset
          | none => 0 := by
      simpa [load_elf_segments] using hlb.2
    split at h
    · cases h
    · rename_i hset
      have hset1 : (phdr_table ehdr).any (fun p => p.p_type == PT_LOAD) = true := by
        rw [← hlb1]
        simpa using hset
      cases hf : (phdr_table ehdr).find? (fun p => p.p_type == PT_LOAD) with
      | none =>
        rw [List.find?_eq_none] at hf
        rw [List.any_eq_true] at hset1
        obtain ⟨q, hq, hq2⟩ := hset1
        exact absurd hq2 (hf q hq)
      | some p =>
        rw [hf] at hlb2
        refine ⟨p, rfl, ?_⟩
        split at h
        · rename_i pi hpi
          have hany : (phdr_table ehdr).any (fun q => q.p_type == PT_INTERP) = true := by
            rw [List.any_eq_true]
            exact ⟨pi, List.mem_of_find?_eq_some hpi, by simpa using List.find?_some hpi⟩
          split at h
          · cases h
          · cases h
            simp [load_elf_auxv, hlb2, hmt, hany, add64, PAGE_SIZE_4KB]
        · rename_i hpi
          have hany : (phdr_table ehdr).any (fun q => q.p_type == PT_INTERP) = false := by
            rw [List.find?_eq_none] at hpi
            rw [Bool.eq_false_iff]
            intro hc
            rw [List.any_eq_true] at hc
            obtain ⟨q, hq, hq2⟩ := hc
            exact hpi q hq hq2
          cases h
          simp [load_elf_auxv, hlb2, hany, add64, PAGE_SIZE_4KB]
  · rcases load_elf_image_invalid fs accept ehdr st hv with h1 | h1 | h1 <;>
      rw [h1] at h <;> cases h

theorem aux_vector_contents_witness :
    ∃ p, (phdr_table demo_dynamic).find? (fun q => q.p_type == PT_LOAD) = some p ∧
      load_elf_auxv demo_dynamic 0x400000 0x603000 true =
        [ ⟨AT_PHDR, (sub64 p.p_vaddr p.p_offset + demo_dynamic.e_phoff) % 2 ^ 64⟩,
          ⟨AT_PHENT, demo_dynamic.e_phentsize⟩,
          ⟨AT_PHNUM, demo_dynamic.e_phnum⟩,
          ⟨AT_PAGESZ, 4096⟩,
          ⟨AT_BASE, if (phdr_table demo_dynamic).any (fun q => q.p_type == PT_INTERP)
              then (load_elf_segments accept_all demo_dynamic State.zero).map_top else 0⟩,
          ⟨AT_ENTRY, demo_dynamic.e_entry⟩,
          ⟨AT_NULL, 0⟩ ] :=
  aux_vector_contents demo_fs accept_all demo_dynamic State.zero
    (load_elf_image demo_fs accept_all demo_dynamic State.zero).state
    (load_elf_auxv demo_dynamic 0x400000 0x603000 true) rfl

theorem one_segment_requests (accept : List MapReq → MapReq → Bool) (ehdr : Elf64_Ehdr)
    (st : State) (p : Elf64_Phdr) (htbl : phdr_table ehdr = [p]) (hpt : p.p_type = PT_LOAD) :
    (load_elf_segments accept ehdr st).st.requests =
      st.requests ++ [seg_request p.p_vaddr p.p_memsz p.p_flags] := by
  unfold load_elf_segments
  rw [load_elf_segments_requests, htbl]
  simp [List.filter_cons, hpt]

/-- C4: for a valid main image (magic, `ET_EXEC`, `EM_X86_64`, at least one
`PT_LOAD` so that `assert(load_base_set)` holds) with a `PT_INTERP` entry whose
interpreter file `h` is loaded successfully, the interpreter is loaded with
load address equal to the main image's `map_top` (one mapping per `PT_LOAD`
entry of `h`, each at `p_vaddr + map_top`), RIP after `load_elf` is
`(map_top + h.e_entry) mod 2^64`, `AT_BASE` is the main `map_top` and
`AT_ENTRY` is the main image's `e_entry`. -/
theorem interpreter_chained_at_map_top (cfg : Config) (fs : List Nat → Option Elf64_Ehdr)
    (accept : List MapReq → MapReq → Bool) (ehdr h : Elf64_Ehdr) (p : Elf64_Phdr)
    (argc : Nat) (argv envp : List (List Nat)) (st s1 : State)
    (hmagic : IS_ELF ehdr = true) (htype : ehdr.e_type = ET_EXEC)
    (hmach : ehdr.e_machine = EM_X86_64)
    (hload : ∃ q ∈ phdr_table ehdr, q.p_type = PT_LOAD)
    (hinterp : (phdr_table ehdr).find? (fun q => q.p_type == PT_INTERP) = some p)
    (hfs : fs (interp_path ehdr p) = some h)
    (hok : load_elf_interp fs accept (interp_path ehdr p)
      (load_elf_segments accept ehdr st).map_top (load_elf_segments accept ehdr st).st
        = .done 0 s1) :
    load_elf_image fs accept ehdr st =
        .done (.inr (load_elf_auxv ehdr (load_elf_segments accept ehdr st).load_base
          (load_elf_segments accept ehdr st).map_top true)) s1
    ∧ s1.requests = (load_elf_segments accept ehdr st).st.requests ++
        ((phdr_table h).filter (fun q => q.p_type = PT_LOAD)).map
          (fun q => seg_request (add64 q.p_vaddr (load_elf_segments accept ehdr st).map_top)
            q.p_memsz q.p_flags)
    ∧ s1.rip = ((load_elf_segments accept ehdr st).map_top + h.e_entry) % 2 ^ 64
    ∧ (load_elf cfg fs accept ehdr argc argv envp st).state.rip =
        ((load_elf_segments accept ehdr st).map_top + h.e_entry) % 2 ^ 64
    ∧ (load_elf_auxv ehdr (load_elf_segments accept ehdr st).load_base
          (load_elf_segments accept ehdr st).map_top true).find? (fun a => a.a_tag == AT_BASE)
        = some ⟨AT_BASE, (load_elf_segments accept ehdr st).map_top⟩
    ∧ (load_elf_auxv ehdr (load_elf_segments accept ehdr st).load_base
          (load_elf_segments accept ehdr st).map_top true).find? (fun a => a.a_tag == AT_ENTRY)
        = some ⟨AT_ENTRY, ehdr.e_entry⟩ := by
  have himg : load_elf_image fs accept ehdr st =
      .done (.inr (load_elf_auxv ehdr (load_elf_segments accept ehdr st).load_base
        (load_elf_segments accept ehdr st).map_top true)) s1 := by
    rw [load_elf_image_valid fs accept ehdr st hmagic htype hmach,
      load_base_set_of_load accept ehdr st hload]
    simp only [not_true_eq_false, if_false, hinterp, hok]
  have hs := load_elf_interp_success fs accept _ _ _ _ h hfs hok
  have hrip : s1.rip = ((load_elf_segments accept ehdr st).map_top + h.e_entry) % 2 ^ 64 := by
    rw [hs]
    rfl
  refine ⟨himg, ?_, hrip, ?_, ?_, ?_⟩
  · rw [hs]
    exact interp_fold_requests accept h.data _ (phdr_table h) _
  · rw [load_elf_state_of_image cfg fs accept ehdr argc argv envp st s1 _ himg,
      (init_userstack_ctl cfg accept argc argv envp _ s1).1, hrip]
  · simp [load_elf_auxv, AT_PHDR, AT_PHENT, AT_PHNUM, AT_PAGESZ, AT_BASE]
  · simp [load_elf_auxv, AT_PHDR, AT_PHENT, AT_PHNUM, AT_PAGESZ, AT_BASE, AT_ENTRY]

theorem interpreter_chained_at_map_top_witness :
    (load_elf_segments accept_all demo_dynamic State.zero).map_top = 0x603000 ∧
    (load_elf demo_cfg demo_fs accept_all demo_dynamic 0 [] [] State.zero).state.rip =
      ((load_elf_segments accept_all demo_dynamic State.zero).map_top + demo_ld_so.e_entry)
        % 2 ^ 64 :=
  ⟨by decide,
   (interpreter_chained_at_map_top demo_cfg demo_fs accept_all demo_dynamic demo_ld_so
      phdr_interp 0 [] [] State.zero
      (load_elf_interp demo_fs accept_all (interp_path demo_dynamic phdr_interp)
        (load_elf_segments accept_all demo_dynamic State.zero).map_top
        (load_elf_segments accept_all demo_dynamic State.zero).st).state
      (by decide) (by decide) (by decide) (by decide) (by decide) (by decide) rfl).2.2.2.1⟩

/-- C5: for a valid `ET_EXEC` x86-64 main image with at least one `PT_LOAD`
entry and no `PT_INTERP` entry, `load_elf` sets RIP to `e_entry` and `AT_BASE`
to 0. In particular, when the table is a single `PT_LOAD` entry with `p_vaddr =
0x400000`, `p_filesz = p_memsz = 0x1000`, flags R+X, and `e_entry = 0x400078`,
the segment loop requests exactly one mapping, of `[0x400000, 0x401000)` with
read and execute protection, `map_top` is `0x401000` and RIP is `0x400078`. -/
theorem static_image_entry (cfg : Config) (fs : List Nat → Option Elf64_Ehdr)
    (accept : List MapReq → MapReq → Bool) (ehdr : Elf64_Ehdr)
    (argc : Nat) (argv envp : List (List Nat)) (st : State)
    (hmagic : IS_ELF ehdr = true) (htype : ehdr.e_type = ET_EXEC)
    (hmach : ehdr.e_machine = EM_X86_64)
    (hload : ∃ q ∈ phdr_table ehdr, q.p_type = PT_LOAD)
    (hno : ∀ q ∈ phdr_table ehdr, q.p_type ≠ PT_INTERP) :
    (∃ s, load_elf_image fs accept ehdr st =
        .done (.inr (load_elf_auxv ehdr (load_elf_segments accept ehdr st).load_base
          (load_elf_segments accept ehdr st).map_top false)) s ∧ s.rip = ehdr.e_entry)
    ∧ (load_elf cfg fs accept ehdr argc argv envp st).state.rip = ehdr.e_entry
    ∧ (load_elf_auxv ehdr (load_elf_segments accept ehdr st).load_base
          (load_elf_segments accept ehdr st).map_top false).find? (fun a => a.a_tag == AT_BASE)
        = some ⟨AT_BASE, 0⟩
    ∧ (∀ p, phdr_table ehdr = [p] → p.p_vaddr = 0x400000 → p.p_filesz = 0x1000 →
        p.p_memsz = 0x1000 → p.p_flags = PF_R ||| PF_X → ehdr.e_entry = 0x400078 →
        (load_elf_segments accept ehdr st).st.requests = st.requests ++
          [⟨0x400000, 0x1000, L_PROT_READ ||| L_PROT_EXEC,
            L_MAP_PRIVATE ||| L_MAP_FIXED ||| L_MAP_ANONYMOUS⟩]
        ∧ (load_elf_segments accept ehdr st).map_top = 0x401000
        ∧ (load_elf cfg fs accept ehdr argc argv envp st).state.rip = 0x400078) := by
  have himg : load_elf_image fs accept ehdr st =
      .done (.inr (load_elf_auxv ehdr (load_elf_segments accept ehdr st).load_base
        (load_elf_segments accept ehdr st).map_top false))
        { (load_elf_segments accept ehdr st).st with
          rip := ehdr.e_entry, brk_min := (load_elf_segments accept ehdr st).map_top } := by
    rw [load_elf_image_valid fs accept ehdr st hmagic htype hmach,
      load_base_set_of_load accept ehdr st hload]
    simp only [not_true_eq_false, if_false, find_interp_none _ hno]
  have hrip : (load_elf cfg fs accept ehdr argc argv envp st).state.rip = ehdr.e_entry := by
    rw [load_elf_state_of_image cfg fs accept ehdr argc argv envp st _ _ himg,
      (init_userstack_ctl cfg accept argc argv envp _ _).1]
  refine ⟨⟨_, himg, rfl⟩, hrip, ?_, ?_⟩
  · simp [load_elf_auxv, AT_PHDR, AT_PHENT, AT_PHNUM, AT_PAGESZ, AT_BASE]
  · intro p htbl hv hf hm hfl he
    have hpt : p.p_type = PT_LOAD := by
      obtain ⟨q, hq, hqt⟩ := hload
      rw [htbl] at hq
      simp only [List.mem_singleton] at hq
      rw [← hq]
      exact hqt
    refine ⟨?_, ?_, ?_⟩
    · rw [(one_segment_requests accept ehdr st p htbl hpt), hv, hm, hfl]
      rfl
    · have := segment_map_top accept ehdr.data
        { st := st, load_base := 0, load_base_set := false, map_top := 0 } p
      unfold load_elf_segments
      rw [htbl, List.foldl_cons, List.foldl_nil, this, if_pos hpt, hv, hm]
      show max 0 (seg_top 4194304 4096) = 4198400
      decide
    · rw [hrip, he]

theorem static_image_entry_witness :
    (load_elf demo_cfg demo_fs accept_all demo_static 0 [] [] State.zero).state.rip = 0x400078
    ∧ (load_elf_segments accept_all demo_static State.zero).st.requests =
        [⟨0x400000, 0x1000, L_PROT_READ ||| L_PROT_EXEC,
          L_MAP_PRIVATE ||| L_MAP_FIXED ||| L_MAP_ANONYMOUS⟩] :=
  ⟨(static_image_entry demo_cfg demo_fs accept_all demo_static 0 [] [] State.zero
      (by decide) (by decide) (by decide) (by decide) (by decide)).2.1,
   ((static_image_entry demo_cfg demo_fs accept_all demo_static 0 [] [] State.zero
      (by decide) (by decide) (by decide) (by decide) (by decide)).2.2.2
      phdr_text rfl rfl rfl rfl rfl rfl).1⟩

/-! ## Words and bytes in guest memory -/

theorem read64_le64 (mem : Nat → Nat) (a w : Nat) :
    read64 (memcpy mem a (le64 w) 8) a = w % 2 ^ 64 := by
  have h0 : memcpy mem a (le64 w) 8 a = le64 w 0 := by
    simpa using memcpy_inside mem a (le64 w) 8 0 (by omega)
  have h : ∀ i, i < 8 → memcpy mem a (le64 w) 8 (a + i) = le64 w i :=
    fun i hi => memcpy_inside mem a (le64 w) 8 i hi
  unfold read64
  rw [h0, h 1 (by omega), h 2 (by omega), h 3 (by omega), h 4 (by omega), h 5 (by omega),
    h 6 (by omega), h 7 (by omega)]
  simp only [le64]
  norm_num
  omega

theorem read64_zero (mem : Nat → Nat) (a n : Nat) (hn : 8 ≤ n) :
    read64 (memset mem a 0 n) a = 0 := by
  have h0 : memset mem a 0 n a = 0 := by
    simpa using memset_inside mem a 0 n 0 (by omega)
  have h : ∀ i, i < 8 → memset mem a 0 n (a + i) = 0 :=
    fun i hi => memset_inside mem a 0 n i (by omega)
  unfold read64
  rw [h0, h 1 (by omega), h 2 (by omega), h 3 (by omega), h 4 (by omega), h 5 (by omega),
    h 6 (by omega), h 7 (by omega)]

theorem read64_congr (mem mem2 : Nat → Nat) (a : Nat)
    (h : ∀ x, a ≤ x → mem2 x = mem x) : read64 mem2 a = read64 mem a := by
  unfold read64
  rw [h a (by omega), h (a + 1) (by omega), h (a + 2) (by omega), h (a + 3) (by omega),
    h (a + 4) (by omega), h (a + 5) (by omega), h (a + 6) (by omega), h (a + 7) (by omega)]

theorem stack_words_congr (mem mem2 : Nat → Nat) (ws : List Nat) (r : Nat)
    (h : ∀ x, r ≤ x → mem2 x = mem x) (hw : stack_words mem r ws) :
    stack_words mem2 r ws := by
  induction ws generalizing r with
  | nil => trivial
  | cons w ws ih =>
    obtain ⟨h1, h2⟩ := hw
    exact ⟨(read64_congr mem mem2 r h).trans h1, ih (r + 8) (fun x hx => h x (by omega)) h2⟩

theorem stack_words_append (mem : Nat → Nat) (a b : List Nat) (r : Nat) :
    stack_words mem r (a ++ b) ↔
      stack_words mem r a ∧ stack_words mem (r + 8 * a.length) b := by
  induction a generalizing r with
  | nil => simp [stack_words]
  | cons w a ih =>
    have e : r + 8 + 8 * a.length = r + 8 * (a.length + 1) := by omega
    show (read64 mem r = w ∧ stack_words mem (r + 8) (a ++ b)) ↔
      (read64 mem r = w ∧ stack_words mem (r + 8) a) ∧
        stack_words mem (r + 8 * (a.length + 1)) b
    rw [ih (r + 8), e, and_assoc]

theorem bytes_at_congr (mem mem2 : Nat → Nat) (l : List Nat) (a : Nat)
    (h : ∀ x, a ≤ x → mem2 x = mem x) (hb : bytes_at mem a l) : bytes_at mem2 a l := by
  induction l generalizing a with
  | nil => trivial
  | cons x l ih =>
    obtain ⟨h1, h2⟩ := hb
    exact ⟨(h a (Nat.le_refl a)).trans h1, ih (a + 1) (fun y hy => h y (by omega)) h2⟩

theorem bytes_at_append (mem : Nat → Nat) (l1 l2 : List Nat) (a : Nat) :
    bytes_at mem a (l1 ++ l2) ↔ bytes_at mem a l1 ∧ bytes_at mem (a + l1.length) l2 := by
  induction l1 generalizing a with
  | nil => simp [bytes_at]
  | cons x l1 ih =>
    have e : a + 1 + l1.length = a + (l1.length + 1) := by omega
    show (mem a = x ∧ bytes_at mem (a + 1) (l1 ++ l2)) ↔
      (mem a = x ∧ bytes_at mem (a + 1) l1) ∧ bytes_at mem (a + (l1.length + 1)) l2
    rw [ih (a + 1), e, and_assoc]

theorem bytes_at_of_index (mem : Nat → Nat) (l : List Nat) (a : Nat)
    (h : ∀ i, i < l.length → mem (a + i) = l.getD i 0) : bytes_at mem a l := by
  induction l generalizing a with
  | nil => trivial
  | cons x l ih =>
    refine ⟨?_, ih (a + 1) ?_⟩
    · simpa using h 0 (by simp)
    · intro i hi
      have := h (i + 1) (by simpa using hi)
      have e : a + 1 + i = a + (i + 1) := by omega
      rw [e, this]
      simp

theorem bytes_at_memcpy (mem : Nat → Nat) (l : List Nat) (a : Nat) :
    bytes_at (memcpy mem a (bytes_of l) l.length) a l :=
  bytes_at_of_index _ l a (fun i hi => memcpy_inside mem a (bytes_of l) l.length i hi)

theorem blob_append (a b : List (List Nat)) : blob (a ++ b) = blob a ++ blob b := by
  induction a with
  | nil => rfl
  | cons s a ih => simp [blob, ih]

theorem blob_length_cons (s : List Nat) (r : List (List Nat)) :
    (blob (s :: r)).length = s.length + 1 + (blob r).length := by
  simp [blob]
  omega

theorem blob_length_ge (strs : List (List Nat)) : strs.length ≤ (blob strs).length := by
  induction strs with
  | nil => simp [blob]
  | cons s r ih =>
    rw [blob_length_cons]
    simp only [List.length_cons]
    omega

theorem copy_strings_eq (buf : List Nat) (strs : List (List Nat)) :
    copy_strings buf strs = buf ++ blob strs := by
  unfold copy_strings
  induction strs generalizing buf with
  | nil => simp [blob]
  | cons s r ih =>
    rw [List.foldl_cons, ih]
    simp [blob]

theorem add_lengths_eq (t : Nat) (strs : List (List Nat)) (ht : t < 2 ^ 64) :
    add_lengths t strs = (t + (blob strs).length) % 2 ^ 64 := by
  unfold add_lengths
  induction strs generalizing t with
  | nil =>
    simp only [List.foldl_nil, blob, List.length_nil, Nat.add_zero]
    omega
  | cons s r ih =>
    rw [List.foldl_cons, ih _ (by unfold add64; omega), blob_length_cons]
    simp only [add64, strlen]
    omega

theorem str_ptrs_append (base : Nat) (a b : List (List Nat)) :
    str_ptrs base (a ++ b) = str_ptrs base a ++ str_ptrs (base + (blob a).length) b := by
  induction a generalizing base with
  | nil => simp [str_ptrs, blob]
  | cons s a ih =>
    have e : base + s.length + 1 + (blob a).length = base + (s.length + 1 + (blob a).length) := by
      omega
    show base :: str_ptrs (base + s.length + 1) (a ++ b) =
      base :: str_ptrs (base + s.length + 1) a ++ str_ptrs (base + (blob (s :: a)).length) b
    rw [ih, blob_length_cons, e]
    rfl

theorem str_ptrs_length (base : Nat) (strs : List (List Nat)) :
    (str_ptrs base strs).length = strs.length := by
  induction strs generalizing base with
  | nil => rfl
  | cons s r ih => simp [str_ptrs, ih]

theorem aux_words_append (a b : List Elf64_Auxv) :
    aux_words (a ++ b) = aux_words a ++ aux_words b := by
  induction a with
  | nil => rfl
  | cons x a ih => simp [aux_words, ih]

theorem aux_words_length (a : List Elf64_Auxv) : (aux_words a).length = 2 * a.length := by
  induction a with
  | nil => rfl
  | cons x a ih =>
    simp only [aux_words, List.length_cons, ih]
    omega

/-- The strings of a blob stored at `base` are found at the addresses
`str_ptrs base`. -/
theorem strings_in_blob (mem : Nat → Nat) (strs : List (List Nat)) (base : Nat)
    (h : bytes_at mem base (blob strs)) :
    List.Forall₂ (cstring_in mem) (str_ptrs base strs) strs := by
  induction strs generalizing base with
  | nil => exact List.Forall₂.nil
  | cons s r ih =>
    have e : blob (s :: r) = (s ++ [0]) ++ blob r := by simp [blob]
    rw [e, bytes_at_append] at h
    refine List.Forall₂.cons h.1 (ih (base + s.length + 1) ?_)
    have e2 : base + (s ++ [0]).length = base + s.length + 1 := by simp; omega
    rw [← e2]
    exact h.2

/-! ## The pushes of `init_userstack` -/

theorem push_some_eq (d : Nat → Nat) (n : Nat) (st : State) :
    push (some d) n st = (sub64 st.rsp (roundup n 8),
      { st with rsp := sub64 st.rsp (roundup n 8),
                mem := memcpy st.mem (sub64 st.rsp (roundup n 8)) d n }) := rfl

theorem push_none_eq (n : Nat) (st : State) :
    push none n st = (sub64 st.rsp (roundup n 8),
      { st with rsp := sub64 st.rsp (roundup n 8),
                mem := memset st.mem (sub64 st.rsp (roundup n 8)) 0 n }) := rfl

theorem sub64_small (a b : Nat) (ha : a < 2 ^ 64) (hb : b ≤ a) : sub64 a b = a - b := by
  unfold sub64
  omega

theorem push_word_inv (base : Nat) (mem0 : Nat → Nat) (st : State) (ws : List Nat) (w : Nat)
    (hinv : StackInv base mem0 st ws) (hw : w < 2 ^ 64) (h8 : 8 ≤ st.rsp) :
    StackInv base mem0 (push (some (le64 w)) 8 st).2 (w :: ws) := by
  obtain ⟨h1, h2, h3, h4⟩ := hinv
  have hr : sub64 st.rsp (roundup 8 8) = st.rsp - 8 := by
    rw [show roundup 8 8 = 8 by decide]
    exact sub64_small _ _ (by omega) h8
  rw [push_some_eq, hr]
  refine ⟨?_, h2, ⟨?_, ?_⟩, ?_⟩
  · simp only [List.length_cons]
    omega
  · show read64 (memcpy st.mem (st.rsp - 8) (le64 w) 8) (st.rsp - 8) = w
    rw [read64_le64]
    omega
  · show stack_words (memcpy st.mem (st.rsp - 8) (le64 w) 8) (st.rsp - 8 + 8) ws
    have e : st.rsp - 8 + 8 = st.rsp := by omega
    rw [e]
    exact stack_words_congr st.mem _ ws st.rsp
      (fun x hx => memcpy_outside _ _ _ _ _ (by omega)) h3
  · intro a ha
    show memcpy st.mem (st.rsp - 8) (le64 w) 8 a = mem0 a
    rw [memcpy_outside _ _ _ _ _ (by omega)]
    exact h4 a ha

theorem push_zero_inv (base : Nat) (mem0 : Nat → Nat) (st : State) (ws : List Nat)
    (hinv : StackInv base mem0 st ws) (h8 : 8 ≤ st.rsp) :
    StackInv base mem0 (push none 8 st).2 (0 :: ws) := by
  obtain ⟨h1, h2, h3, h4⟩ := hinv
  have hr : sub64 st.rsp (roundup 8 8) = st.rsp - 8 := by
    rw [show roundup 8 8 = 8 by decide]
    exact sub64_small _ _ (by omega) h8
  rw [push_none_eq, hr]
  refine ⟨?_, h2, ⟨?_, ?_⟩, ?_⟩
  · simp only [List.length_cons]
    omega
  · exact read64_zero st.mem (st.rsp - 8) 8 (by omega)
  · show stack_words (memset st.mem (st.rsp - 8) 0 8) (st.rsp - 8 + 8) ws
    have e : st.rsp - 8 + 8 = st.rsp := by omega
    rw [e]
    exact stack_words_congr st.mem _ ws st.rsp
      (fun x hx => memset_outside _ _ _ _ _ (by omega)) h3
  · intro a ha
    show memset st.mem (st.rsp - 8) 0 8 a = mem0 a
    rw [memset_outside _ _ _ _ _ (by omega)]
    exact h4 a ha

theorem push_zero16_inv (base : Nat) (mem0 : Nat → Nat) (st : State) (ws : List Nat)
    (hinv : StackInv base mem0 st ws) (h16 : 16 ≤ st.rsp) :
    StackInv base mem0 (push none 16 st).2 (0 :: 0 :: ws) := by
  obtain ⟨h1, h2, h3, h4⟩ := hinv
  have hr : sub64 st.rsp (roundup 16 8) = st.rsp - 16 := by
    rw [show roundup 16 8 = 16 by decide]
    exact sub64_small _ _ (by omega) h16
  rw [push_none_eq, hr]
  have hz : ∀ y, st.rsp - 16 ≤ y → y < st.rsp → memset st.mem (st.rsp - 16) 0 16 y = 0 := by
    intro y h5 h6
    have := memset_inside st.mem (st.rsp - 16) 0 16 (y - (st.rsp - 16)) (by omega)
    have e : st.rsp - 16 + (y - (st.rsp - 16)) = y := by omega
    rw [e] at this
    exact this
  refine ⟨?_, h2, ⟨?_, ?_, ?_⟩, ?_⟩
  · simp only [List.length_cons]
    omega
  · exact read64_zero st.mem (st.rsp - 16) 16 (by omega)
  · show read64 (memset st.mem (st.rsp - 16) 0 16) (st.rsp - 16 + 8) = 0
    unfold read64
    rw [hz _ (by omega) (by omega), hz _ (by omega) (by omega), hz _ (by omega) (by omega),
      hz _ (by omega) (by omega), hz _ (by omega) (by omega), hz _ (by omega) (by omega),
      hz _ (by omega) (by omega), hz _ (by omega) (by omega)]
  · show stack_words (memset st.mem (st.rsp - 16) 0 16) (st.rsp - 16 + 8 + 8) ws
    have e : st.rsp - 16 + 8 + 8 = st.rsp := by omega
    rw [e]
    exact stack_words_congr st.mem _ ws st.rsp
      (fun x hx => memset_outside _ _ _ _ _ (by omega)) h3
  · intro a ha
    show memset st.mem (st.rsp - 16) 0 16 a = mem0 a
    rw [memset_outside _ _ _ _ _ (by omega)]
    exact h4 a ha

theorem push_auxv_inv (base : Nat) (mem0 : Nat → Nat) (ents : List Elf64_Auxv)
    (term : Elf64_Auxv) (rest : List Elf64_Auxv) (hterm : term.a_tag = AT_NULL) :
    ∀ (st : State) (ws : List Nat), StackInv base mem0 st ws →
      (∀ e ∈ ents, e.a_tag ≠ AT_NULL ∧ e.a_tag < 2 ^ 64 ∧ e.a_val < 2 ^ 64) →
      16 * ents.length ≤ st.rsp →
      StackInv base mem0 (push_auxv (ents ++ term :: rest) st) (aux_words ents.reverse ++ ws) := by
  induction ents with
  | nil =>
    intro st ws hinv _ _
    simpa [push_auxv, hterm, aux_words] using hinv
  | cons e ents ih =>
    intro st ws hinv hents hroom
    have he := hents e (List.mem_cons_self _ _)
    have hrest : ∀ x ∈ ents, x.a_tag ≠ AT_NULL ∧ x.a_tag < 2 ^ 64 ∧ x.a_val < 2 ^ 64 :=
      fun x hx => hents x (List.mem_cons_of_mem _ hx)
    simp only [List.length_cons] at hroom
    have i1 := push_word_inv base mem0 st ws e.a_val hinv he.2.2 (by omega)
    have r1 : (push (some (le64 e.a_val)) 8 st).2.rsp = st.rsp - 8 := by
      have := i1.1
      have := hinv.1
      simp only [List.length_cons] at *
      omega
    have i2 := push_word_inv base mem0 _ _ e.a_tag i1 he.2.1 (by omega)
    have r2 : (push (some (le64 e.a_tag)) 8 (push (some (le64 e.a_val)) 8 st).2).2.rsp
        = st.rsp - 16 := by
      have := i2.1
      have := hinv.1
      simp only [List.length_cons] at *
      omega
    have i3 := ih _ _ i2 hrest (by omega)
    have e1 : push_auxv ((e :: ents) ++ term :: rest) st =
        push_auxv (ents ++ term :: rest)
          (push (some (le64 e.a_tag)) 8 (push (some (le64 e.a_val)) 8 st).2).2 := by
      show push_auxv (e :: (ents ++ term :: rest)) st = _
      rw [push_auxv, if_pos he.1]
    have e2 : aux_words (e :: ents).reverse ++ ws =
        aux_words ents.reverse ++ (e.a_tag :: e.a_val :: ws) := by
      rw [List.reverse_cons, aux_words_append]
      simp [aux_words]
    rw [e1, e2]
    exact i3

theorem takeWhile_ne_zero (s back : List Nat) (hs : 0 ∉ s) :
    (s ++ 0 :: back).takeWhile (· ≠ 0) = s := by
  induction s with
  | nil => simp
  | cons x s ih =>
    have hx : x ≠ 0 := fun h => hs (by simp [h])
    have hs2 : 0 ∉ s := fun h => hs (List.mem_cons_of_mem _ h)
    show List.takeWhile (· ≠ 0) (x :: (s ++ 0 :: back)) = x :: s
    rw [List.takeWhile_cons, ih hs2]
    simp [hx]

theorem cstr_at_blob (front s back : List Nat) (hs : 0 ∉ s) :
    cstr_at (front ++ (s ++ 0 :: back)) front.length = s := by
  unfold cstr_at
  rw [List.drop_left]
  exact takeWhile_ne_zero s back hs

theorem push_pointers_cons (line : Nat) (buf : List Nat) (a : Nat) (s : List Nat)
    (rest : List (List Nat)) (ptr : Nat) (st : State) :
    push_pointers line buf a (s :: rest) ptr st =
      if cstr_at buf (sub64 (sub64 ptr (strlen s + 1)) a) = s then
        push_pointers line buf a rest (sub64 ptr (strlen s + 1))
          (push (some (le64 (sub64 ptr (strlen s + 1)))) 8 st).2
      else .abort line (push (some (le64 (sub64 ptr (strlen s + 1)))) 8 st).2 := rfl

theorem push_pointers_inv (line : Nat) (buf : List Nat) (args_start : Nat) (front : List Nat)
    (base : Nat) (mem0 : Nat → Nat) (strs : List (List Nat)) :
    ∀ (back : List Nat) (st : State) (ws : List Nat),
      buf = front ++ (blob strs ++ back) →
      (∀ s ∈ strs, 0 ∉ s) →
      args_start + front.length + (blob strs).length < 2 ^ 64 →
      8 * strs.length ≤ st.rsp →
      StackInv base mem0 st ws →
      ∃ st1, push_pointers line buf args_start strs.reverse
          (args_start + front.length + (blob strs).length) st = .done () st1 ∧
        StackInv base mem0 st1 (str_ptrs (args_start + front.length) strs ++ ws) := by
  induction strs using List.reverseRecOn with
  | nil =>
    intro back st ws _ _ _ _ hinv
    exact ⟨st, rfl, by simpa [str_ptrs] using hinv⟩
  | append_singleton pre s ih =>
    intro back st ws hbuf hnul hlt hroom hinv
    have hs : 0 ∉ s := hnul s (by simp)
    have hpre : ∀ x ∈ pre, 0 ∉ x := fun x hx => hnul x (by simp [hx])
    have hbl : blob (pre ++ [s]) = blob pre ++ (s ++ [0]) := by
      rw [blob_append]
      rfl
    have hlen : (blob (pre ++ [s])).length = (blob pre).length + (s.length + 1) := by
      rw [hbl]
      simp
    rw [hlen] at hlt
    simp only [List.length_append, List.length_singleton] at hroom
    have hp1 : sub64 (args_start + front.length + (blob (pre ++ [s])).length) (strlen s + 1) =
        args_start + front.length + (blob pre).length := by
      rw [hlen]
      unfold sub64 strlen
      omega
    have hoff : sub64 (args_start + front.length + (blob pre).length) args_start =
        (front ++ blob pre).length := by
      rw [List.length_append]
      unfold sub64
      omega
    have hbuf2 : buf = (front ++ blob pre) ++ (s ++ 0 :: back) := by
      rw [hbuf, hbl]
      simp
    have hassert : cstr_at buf (sub64 (args_start + front.length + (blob pre).length) args_start)
        = s := by
      rw [hoff, hbuf2]
      exact cstr_at_blob _ s back hs
    have hrev : (pre ++ [s]).reverse = s :: pre.reverse := by simp
    rw [hrev, push_pointers_cons, hp1, if_pos hassert]
    have i1 := push_word_inv base mem0 st ws (args_start + front.length + (blob pre).length)
      hinv (by omega) (by omega)
    have r1 : (push (some (le64 (args_start + front.length + (blob pre).length))) 8 st).2.rsp
        = st.rsp - 8 := by
      have := i1.1
      have := hinv.1
      simp only [List.length_cons] at *
      omega
    have hbuf3 : buf = front ++ (blob pre ++ ((s ++ [0]) ++ back)) := by
      rw [hbuf, hbl]
      simp
    obtain ⟨st1, hrun, hinv1⟩ := ih ((s ++ [0]) ++ back) _ _ hbuf3 hpre (by omega) (by omega) i1
    refine ⟨st1, hrun, ?_⟩
    have e : str_ptrs (args_start + front.length) (pre ++ [s]) ++ ws =
        str_ptrs (args_start + front.length) pre ++
          ((args_start + front.length + (blob pre).length) :: ws) := by
      rw [str_ptrs_append]
      simp [str_ptrs]
    rw [e]
    exact hinv1

/-! ## The layout of the initial stack -/

/-- The initial stack built by `init_userstack`: the run ends normally, and from
the final RSP upwards the words are `argc`, the argv pointers, 0, the envp
pointers, 0, the auxiliary entries in the reverse of their input order, and the
`(AT_NULL, 0)` pair; above them, at `args_start`, lies the string blob. -/
theorem init_userstack_layout (cfg : Config) (accept : List MapReq → MapReq → Bool)
    (argv envp : List (List Nat)) (ents : List Elf64_Auxv) (term : Elf64_Auxv)
    (rest : List Elf64_Auxv) (st : State)
    (hargv : ∀ s ∈ argv, 0 ∉ s) (henvp : ∀ s ∈ envp, 0 ∉ s)
    (hents : ∀ e ∈ ents, e.a_tag ≠ AT_NULL ∧ e.a_tag < 2 ^ 64 ∧ e.a_val < 2 ^ 64)
    (hterm : term.a_tag = AT_NULL)
    (htop : cfg.STACK_TOP < 2 ^ 64)
    (hroom : stack_need argv envp ents ≤ cfg.STACK_TOP) :
    ∃ st1, init_userstack cfg accept argv.length argv envp (ents ++ term :: rest) st
        = .done () st1 ∧
      st1.rsp + stack_need argv envp ents = cfg.STACK_TOP ∧
      stack_words st1.mem st1.rsp
        (argv.length ::
          (str_ptrs (cfg.STACK_TOP - ((blob argv).length + (blob envp).length + 7) / 8 * 8) argv ++
          0 :: (str_ptrs (cfg.STACK_TOP - ((blob argv).length + (blob envp).length + 7) / 8 * 8
                  + (blob argv).length) envp ++
          0 :: (aux_words ents.reverse ++ [0, 0])))) ∧
      bytes_at st1.mem (cfg.STACK_TOP - ((blob argv).length + (blob envp).length + 7) / 8 * 8)
        (blob argv ++ blob envp) := by
  unfold stack_need at hroom ⊢
  have hn := blob_length_ge argv
  have hm := blob_length_ge envp
  generalize hA : (blob argv).length = A at *
  generalize hE : (blob envp).length = E at *
  generalize hB : cfg.STACK_TOP - (A + E + 7) / 8 * 8 = B
  have hAl : add_lengths 0 argv = A := by
    rw [add_lengths_eq _ _ (by norm_num), hA]
    omega
  have hTl : add_lengths A envp = A + E := by
    rw [add_lengths_eq _ _ (by omega), hE]
    omega
  have hR : sub64 cfg.STACK_TOP (roundup (A + E) 8) = B := by
    rw [roundup_8, ← hB]
    unfold sub64
    omega
  have hbuf : copy_strings (copy_strings [] argv) envp = blob argv ++ blob envp := by
    rw [copy_strings_eq, copy_strings_eq, List.nil_append]
  have hbuflen : (blob argv ++ blob envp).length = A + E := by
    rw [List.length_append, hA, hE]
  simp only [init_userstack, List.take_length, hbuf, hAl, hTl]
  generalize hst0 : ({ ({ (do_mmap accept (sub64 cfg.STACK_TOP cfg.STACK_SIZE) cfg.STACK_SIZE
    (L_PROT_READ ||| L_PROT_WRITE) (L_MAP_PRIVATE ||| L_MAP_FIXED ||| L_MAP_ANONYMOUS) st)
      with rsp := cfg.STACK_TOP } : State) with rbp := cfg.STACK_TOP } : State) = st0
  have h0 : st0.rsp = cfg.STACK_TOP := by
    subst hst0
    rfl
  rw [push_some_eq, h0, hR]
  simp only
  generalize hs1 : (⟨memcpy st0.mem B (bytes_of (blob argv ++ blob envp)) (A + E),
      st0.requests, st0.mapped, st0.rip, B, st0.rbp, st0.brk_min⟩ : State) = s1
  have hs1rsp : s1.rsp = B := by
    subst hs1
    rfl
  have hblob : bytes_at s1.mem B (blob argv ++ blob envp) := by
    subst hs1
    rw [← hbuflen]
    exact bytes_at_memcpy _ _ _
  have i1 : StackInv B s1.mem s1 [] := ⟨by simp [hs1rsp], by omega, trivial, fun _ _ => rfl⟩
  have i2 := push_zero16_inv B s1.mem s1 [] i1 (by omega)
  have r2 : (push none 16 s1).2.rsp = B - 16 := by
    have := i2.1
    simp only [List.length_cons, List.length_nil] at this
    omega
  have i3 := push_auxv_inv B s1.mem ents term rest hterm _ _ i2 hents (by omega)
  have r3 : (push_auxv (ents ++ term :: rest) (push none 16 s1).2).rsp
      = B - 16 - 16 * ents.length := by
    have := i3.1
    simp only [List.length_cons, List.length_nil, List.length_append, aux_words_length,
      List.length_reverse] at this
    omega
  have i4 := push_zero_inv B s1.mem _ _ i3 (by omega)
  have r4 : (push none 8 (push_auxv (ents ++ term :: rest) (push none 16 s1).2)).2.rsp
      = B - 24 - 16 * ents.length := by
    have := i4.1
    simp only [List.length_cons, List.length_nil, List.length_append, aux_words_length,
      List.length_reverse] at this
    omega
  have hptr1 : add64 B (A + E) = B + (blob argv).length + (blob envp).length := by
    rw [hA, hE]
    unfold add64
    omega
  obtain ⟨s5, hrun5, i5⟩ := push_pointers_inv 238 (blob argv ++ blob envp) B (blob argv) B s1.mem
    envp [] _ _ (by simp) henvp (by omega) (by omega) i4
  rw [hptr1, hrun5]
  simp only
  have r5 : s5.rsp = B - 24 - 16 * ents.length - 8 * envp.length := by
    have := i5.1
    simp only [List.length_cons, List.length_nil, List.length_append, aux_words_length,
      List.length_reverse, str_ptrs_length] at this
    omega
  have i6 := push_zero_inv B s1.mem _ _ i5 (by omega)
  have r6 : (push none 8 s5).2.rsp = B - 32 - 16 * ents.length - 8 * envp.length := by
    have := i6.1
    simp only [List.length_cons, List.length_nil, List.length_append, aux_words_length,
      List.length_reverse, str_ptrs_length] at this
    omega
  have hptr2 : add64 B A = B + ([] : List Nat).length + (blob argv).length := by
    rw [hA]
    simp only [List.length_nil]
    unfold add64
    omega
  obtain ⟨s7, hrun7, i7⟩ := push_pointers_inv 247 (blob argv ++ blob envp) B [] B s1.mem
    argv (blob envp) _ _ (by simp) hargv (by simp only [List.length_nil]; omega) (by omega) i6
  rw [hptr2, hrun7]
  simp only
  have r7 : s7.rsp = B - 32 - 16 * ents.length - 8 * envp.length - 8 * argv.length := by
    have := i7.1
    simp only [List.length_cons, List.length_nil, List.length_append, aux_words_length,
      List.length_reverse, str_ptrs_length] at this
    omega
  have hargc : argv.length % 2 ^ 64 = argv.length := by omega
  rw [hargc]
  have i8 := push_word_inv B s1.mem s7 _ argv.length i7 (by omega) (by omega)
  refine ⟨_, rfl, ?_, ?_, ?_⟩
  · have := i8.1
    simp only [List.length_cons, List.length_nil, List.length_append, aux_words_length,
      List.length_reverse, str_ptrs_length] at this
    omega
  · have := i8.2.2.1
    simpa [hA] using this
  · exact bytes_at_congr s1.mem _ _ B (fun x hx => i8.2.2.2 x hx) hblob

/-- Where the auxiliary vector lies on the initial stack, and in which
order. -/
theorem init_userstack_auxv (cfg : Config) (accept : List MapReq → MapReq → Bool)
    (argv envp : List (List Nat)) (ents : List Elf64_Auxv) (term : Elf64_Auxv)
    (rest : List Elf64_Auxv) (st : State)
    (hargv : ∀ s ∈ argv, 0 ∉ s) (henvp : ∀ s ∈ envp, 0 ∉ s)
    (hents : ∀ e ∈ ents, e.a_tag ≠ AT_NULL ∧ e.a_tag < 2 ^ 64 ∧ e.a_val < 2 ^ 64)
    (hterm : term.a_tag = AT_NULL)
    (htop : cfg.STACK_TOP < 2 ^ 64)
    (hroom : stack_need argv envp ents ≤ cfg.STACK_TOP) :
    ∃ st1, init_userstack cfg accept argv.length argv envp (ents ++ term :: rest) st
        = .done () st1 ∧
      read64 st1.mem (st1.rsp + 8 * (argv.length + envp.length + 2)) = 0 ∧
      stack_words st1.mem (st1.rsp + 8 * (argv.length + envp.length + 3))
        (aux_words ents.reverse ++ [AT_NULL, 0]) := by
  obtain ⟨st1, hrun, _, hw, _⟩ := init_userstack_layout cfg accept argv envp ents term rest st
    hargv henvp hents hterm htop hroom
  refine ⟨st1, hrun, ?_⟩
  generalize cfg.STACK_TOP - ((blob argv).length + (blob envp).length + 7) / 8 * 8 = B at hw
  have e : argv.length :: (str_ptrs B argv ++ 0 :: (str_ptrs (B + (blob argv).length) envp ++
      0 :: (aux_words ents.reverse ++ [0, 0]))) =
      (argv.length :: (str_ptrs B argv ++ 0 :: str_ptrs (B + (blob argv).length) envp)) ++
        (0 :: (aux_words ents.reverse ++ [0, 0])) := by
    simp
  rw [e, stack_words_append] at hw
  have hlen : (argv.length :: (str_ptrs B argv ++
      0 :: str_ptrs (B + (blob argv).length) envp)).length = argv.length + envp.length + 2 := by
    simp only [List.length_cons, List.length_append, str_ptrs_length]
    omega
  rw [hlen] at hw
  obtain ⟨h1, h2⟩ := hw.2
  have e2 : st1.rsp + 8 * (argv.length + envp.length + 2) + 8 =
      st1.rsp + 8 * (argv.length + envp.length + 3) := by omega
  rw [e2] at h2
  exact ⟨h1, h2⟩

/-- C1: stack-layout round trip. For NUL-free argv strings (`argc` their
number), NUL-free envp strings and an auxiliary vector terminated by `AT_NULL`,
with room for the pushes below `STACK_TOP < 2^64`, `init_userstack` ends
normally, and from the final RSP upwards the 8-byte words are: `argc`; then one
pointer per argv string, in order, each the address where that string's bytes
followed by a NUL are stored; a zero word; one pointer per envp string
likewise; a zero word; the words of the auxiliary entries; and last the
`(AT_NULL, 0)` pair. -/
theorem stack_layout_round_trip (cfg : Config) (accept : List MapReq → MapReq → Bool)
    (argv envp : List (List Nat)) (ents : List Elf64_Auxv) (term : Elf64_Auxv)
    (rest : List Elf64_Auxv) (st : State)
    (hargv : ∀ s ∈ argv, 0 ∉ s) (henvp : ∀ s ∈ envp, 0 ∉ s)
    (hents : ∀ e ∈ ents, e.a_tag ≠ AT_NULL ∧ e.a_tag < 2 ^ 64 ∧ e.a_val < 2 ^ 64)
    (hterm : term.a_tag = AT_NULL)
    (htop : cfg.STACK_TOP < 2 ^ 64)
    (hroom : stack_need argv envp ents ≤ cfg.STACK_TOP) :
    ∃ (st1 : State) (argv_ptrs envp_ptrs auxv_words : List Nat),
      init_userstack cfg accept argv.length argv envp (ents ++ term :: rest) st = .done () st1 ∧
      stack_words st1.mem st1.rsp
        (argv.length :: (argv_ptrs ++ 0 :: (envp_ptrs ++ 0 :: (auxv_words ++ [AT_NULL, 0])))) ∧
      List.Forall₂ (cstring_in st1.mem) argv_ptrs argv ∧
      List.Forall₂ (cstring_in st1.mem) envp_ptrs envp ∧
      auxv_words.length = 2 * ents.length := by
  obtain ⟨st1, hrun, _, hw, hb⟩ := init_userstack_layout cfg accept argv envp ents term rest st
    hargv henvp hents hterm htop hroom
  rw [bytes_at_append] at hb
  exact ⟨st1, _, _, aux_words ents.reverse, hrun, hw, strings_in_blob _ _ _ hb.1,
    strings_in_blob _ _ _ hb.2, by rw [aux_words_length, List.length_reverse]⟩

theorem stack_layout_round_trip_witness :
    ∃ (st1 : State) (argv_ptrs envp_ptrs auxv_words : List Nat),
      init_userstack demo_cfg accept_all demo_argv.length demo_argv demo_envp
        (demo_ents ++ ⟨AT_NULL, 0⟩ :: []) State.zero = .done () st1 ∧
      stack_words st1.mem st1.rsp
        (demo_argv.length ::
          (argv_ptrs ++ 0 :: (envp_ptrs ++ 0 :: (auxv_words ++ [AT_NULL, 0])))) ∧
      List.Forall₂ (cstring_in st1.mem) argv_ptrs demo_argv ∧
      List.Forall₂ (cstring_in st1.mem) envp_ptrs demo_envp ∧
      auxv_words.length = 2 * demo_ents.length :=
  stack_layout_round_trip demo_cfg accept_all demo_argv demo_envp demo_ents ⟨AT_NULL, 0⟩ []
    State.zero (by decide) (by decide) (by decide) rfl (by decide) (by decide)

/-- C2 (as amended): after all pushes the auxiliary vector lies just above the
envp NULL terminator as 16-byte entries, tag at the low address and value
above it, in the reverse of the input order (the last input entry at the lowest
address), and the `(AT_NULL, 0)` pair is at the highest address among the auxv
data. -/
theorem auxv_in_reverse_order (cfg : Config) (accept : List MapReq → MapReq → Bool)
    (argv envp : List (List Nat)) (ents : List Elf64_Auxv) (term : Elf64_Auxv)
    (rest : List Elf64_Auxv) (st : State)
    (hargv : ∀ s ∈ argv, 0 ∉ s) (henvp : ∀ s ∈ envp, 0 ∉ s)
    (hents : ∀ e ∈ ents, e.a_tag ≠ AT_NULL ∧ e.a_tag < 2 ^ 64 ∧ e.a_val < 2 ^ 64)
    (hterm : term.a_tag = AT_NULL)
    (htop : cfg.STACK_TOP < 2 ^ 64)
    (hroom : stack_need argv envp ents ≤ cfg.STACK_TOP) :
    ∃ st1, init_userstack cfg accept argv.length argv envp (ents ++ term :: rest) st
        = .done () st1 ∧
      read64 st1.mem (st1.rsp + 8 * (argv.length + envp.length + 2)) = 0 ∧
      stack_words st1.mem (st1.rsp + 8 * (argv.length + envp.length + 3))
        (aux_words ents.reverse ++ [AT_NULL, 0]) :=
  init_userstack_auxv cfg accept argv envp ents term rest st hargv henvp hents hterm htop hroom

theorem auxv_in_reverse_order_witness :
    ∃ st1, init_userstack demo_cfg accept_all demo_argv.length demo_argv demo_envp
        (demo_ents ++ ⟨AT_NULL, 0⟩ :: []) State.zero = .done () st1 ∧
      read64 st1.mem (st1.rsp + 8 * (demo_argv.length + demo_envp.length + 2)) = 0 ∧
      stack_words st1.mem (st1.rsp + 8 * (demo_argv.length + demo_envp.length + 3))
        (aux_words demo_ents.reverse ++ [AT_NULL, 0]) :=
  auxv_in_reverse_order demo_cfg accept_all demo_argv demo_envp demo_ents ⟨AT_NULL, 0⟩ []
    State.zero (by decide) (by decide) (by decide) rfl (by decide) (by decide)

/-- C2 (counterexample to the claim as stated): for the vector
`[(AT_PHDR, 0x400040), (AT_ENTRY, 0x400078), (AT_NULL, 0)]` the entries read at
ascending addresses just above the envp NULL terminator are not the input
entries in their original order: the first one is `AT_ENTRY`. -/
theorem auxv_not_in_input_order :
    ∃ st1, init_userstack demo_cfg accept_all demo_argv.length demo_argv demo_envp
        (demo_ents ++ ⟨AT_NULL, 0⟩ :: []) State.zero = .done () st1 ∧
      read64 st1.mem (st1.rsp + 8 * (demo_argv.length + demo_envp.length + 3)) = AT_ENTRY ∧
      ¬ stack_words st1.mem (st1.rsp + 8 * (demo_argv.length + demo_envp.length + 3))
        (aux_words demo_ents ++ [AT_NULL, 0]) := by
  obtain ⟨st1, hrun, _, hw⟩ := init_userstack_auxv demo_cfg accept_all demo_argv demo_envp
    demo_ents ⟨AT_NULL, 0⟩ [] State.zero (by decide) (by decide) (by decide) rfl (by decide)
    (by decide)
  have h1 : read64 st1.mem (st1.rsp + 8 * (demo_argv.length + demo_envp.length + 3))
      = AT_ENTRY := hw.1
  refine ⟨st1, hrun, h1, ?_⟩
  intro hf
  have h2 : read64 st1.mem (st1.rsp + 8 * (demo_argv.length + demo_envp.length + 3))
      = AT_PHDR := hf.1
  rw [h1] at h2
  exact absurd h2 (by decide)

/-! ## The mapping region of a segment -/

theorem seg_request_bounds (pv memsz fl : Nat) (h : pv + memsz + 4095 < 2 ^ 64) :
    (seg_request pv memsz fl).addr = pv / 4096 * 4096 ∧
    (seg_request pv memsz fl).addr + (seg_request pv memsz fl).len
      = (pv + memsz + 4095) / 4096 * 4096 := by
  simp only [seg_request, roundup_page, and_page_mask, and_not_page_mask, add64]
  omega

/-- C18: for a `PT_LOAD` entry and load bias `b` without 64-bit overflow, the
region `[vaddr, vaddr + size)` requested by the loop of `load_elf_interp` (and,
for `b = 0`, by the loop of `load_elf`) contains the segment
`[p_vaddr + b, p_vaddr + b + p_memsz)` and is the tightest page-aligned such
region: `vaddr ≤ p_vaddr + b < vaddr + 4096`,
`p_vaddr + b + p_memsz ≤ vaddr + size < p_vaddr + b + p_memsz + 4096`, both
ends are multiples of 4096, and `roundup(vaddr + size, 4096) = vaddr + size`. -/
theorem mapping_region_is_tight (accept : List MapReq → MapReq → Bool) (data : List Nat)
    (b : Nat) (acc : InterpAcc) (acc0 : LoadAcc) (p : Elf64_Phdr)
    (hp : p.p_type = PT_LOAD)
    (hno : p.p_vaddr + b + p.p_memsz + 4095 < 2 ^ 64) :
    (load_elf_interp_segment accept data b acc p).st.requests =
        acc.st.requests ++ [seg_request (add64 p.p_vaddr b) p.p_memsz p.p_flags]
    ∧ (seg_request (add64 p.p_vaddr b) p.p_memsz p.p_flags).addr ≤ p.p_vaddr + b
    ∧ p.p_vaddr + b < (seg_request (add64 p.p_vaddr b) p.p_memsz p.p_flags).addr + 4096
    ∧ p.p_vaddr + b + p.p_memsz ≤
        (seg_request (add64 p.p_vaddr b) p.p_memsz p.p_flags).addr +
          (seg_request (add64 p.p_vaddr b) p.p_memsz p.p_flags).len
    ∧ (seg_request (add64 p.p_vaddr b) p.p_memsz p.p_flags).addr +
          (seg_request (add64 p.p_vaddr b) p.p_memsz p.p_flags).len
        < p.p_vaddr + b + p.p_memsz + 4096
    ∧ (seg_request (add64 p.p_vaddr b) p.p_memsz p.p_flags).addr % 4096 = 0
    ∧ (seg_request (add64 p.p_vaddr b) p.p_memsz p.p_flags).len % 4096 = 0
    ∧ roundup (add64 (seg_request (add64 p.p_vaddr b) p.p_memsz p.p_flags).addr
          (seg_request (add64 p.p_vaddr b) p.p_memsz p.p_flags).len) PAGE_SIZE_4KB
        = (seg_request (add64 p.p_vaddr b) p.p_memsz p.p_flags).addr +
          (seg_request (add64 p.p_vaddr b) p.p_memsz p.p_flags).len
    ∧ (b = 0 →
        (load_elf_segment accept data acc0 p).st.requests =
          acc0.st.requests ++ [seg_request p.p_vaddr p.p_memsz p.p_flags]
        ∧ seg_request p.p_vaddr p.p_memsz p.p_flags =
          seg_request (add64 p.p_vaddr b) p.p_memsz p.p_flags) := by
  have hpv : add64 p.p_vaddr b = p.p_vaddr + b := by
    unfold add64
    omega
  have hb := seg_request_bounds (p.p_vaddr + b) p.p_memsz p.p_flags hno
  rw [hpv]
  obtain ⟨ha, hs⟩ := hb
  refine ⟨?_, ?_, ?_, ?_, ?_, ?_, ?_, ?_, ?_⟩
  · rw [interp_segment_requests, if_pos hp, hpv]
  · rw [ha]
    omega
  · rw [ha]
    omega
  · rw [hs]
    omega
  · rw [hs]
    omega
  · rw [ha]
    omega
  · have : (seg_request (p.p_vaddr + b) p.p_memsz p.p_flags).len % 4096 = 0 := by
      simp only [seg_request, roundup_page]
      omega
    exact this
  · rw [roundup_page]
    unfold add64
    rw [hs]
    omega
  · intro h0
    subst h0
    refine ⟨?_, rfl⟩
    rw [segment_requests, if_pos hp]

theorem mapping_region_is_tight_witness :
    phdr_data.p_type = PT_LOAD ∧
    phdr_data.p_vaddr + 0x401000 + phdr_data.p_memsz + 4095 < 2 ^ 64 ∧
    (seg_request (add64 phdr_data.p_vaddr 0x401000) phdr_data.p_memsz phdr_data.p_flags).addr
      ≤ phdr_data.p_vaddr + 0x401000 :=
  ⟨by decide, by decide,
   (mapping_region_is_tight accept_all demo_data 0x401000 { st := State.zero, map_top := 0 }
      { st := State.zero, load_base := 0, load_base_set := false, map_top := 0 } phdr_data
      (by decide) (by decide)).2.1⟩

/-! ## The brk baseline -/

theorem spec_map_top_no_load (b : Nat) (tbl : List Elf64_Phdr)
    (h : ∀ q ∈ tbl, q.p_type ≠ PT_LOAD) : spec_map_top b tbl = 0 := by
  induction tbl with
  | nil => rfl
  | cons p tbl ih =>
    rw [spec_map_top_cons, if_neg (h p (List.mem_cons_self _ _))]
    exact ih (fun q hq => h q (List.mem_cons_of_mem _ hq))

theorem spec_map_top_ge_bias (b : Nat) (tbl : List Elf64_Phdr)
    (h : ∃ q ∈ tbl, q.p_type = PT_LOAD) : b ≤ spec_map_top b tbl := by
  induction tbl with
  | nil =>
    obtain ⟨q, hq, _⟩ := h
    cases hq
  | cons p tbl ih =>
    rw [spec_map_top_cons]
    by_cases hp : p.p_type = PT_LOAD
    · rw [if_pos hp]
      omega
    · rw [if_neg hp]
      apply ih
      obtain ⟨q, hq, hqt⟩ := h
      rcases List.mem_cons.mp hq with e | e
      · rw [e] at hqt
        exact absurd hqt hp
      · exact ⟨q, e, hqt⟩

/-- C19: the brk baseline after `load_elf` on a valid main image. Without a
`PT_INTERP` entry `brk_min` is the main image's `map_top`. With a `PT_INTERP`
entry whose interpreter is loaded successfully, `brk_min` is the `map_top`
computed by the loop of `load_elf_interp` over the interpreter's own table;
that value is 0 when the interpreter has no `PT_LOAD` entry, and it is at
least the main image's `map_top` when the interpreter has a `PT_LOAD` entry
and no 64-bit overflow occurs. -/
theorem brk_baseline (cfg : Config) (fs : List Nat → Option Elf64_Ehdr)
    (accept : List MapReq → MapReq → Bool) (ehdr : Elf64_Ehdr)
    (argc : Nat) (argv envp : List (List Nat)) (st : State)
    (hmagic : IS_ELF ehdr = true) (htype : ehdr.e_type = ET_EXEC)
    (hmach : ehdr.e_machine = EM_X86_64)
    (hload : ∃ q ∈ phdr_table ehdr, q.p_type = PT_LOAD) :
    ((∀ q ∈ phdr_table ehdr, q.p_type ≠ PT_INTERP) →
      (load_elf cfg fs accept ehdr argc argv envp st).state.brk_min =
        (load_elf_segments accept ehdr st).map_top)
    ∧ (∀ (p : Elf64_Phdr) (h : Elf64_Ehdr) (s1 : State),
      (phdr_table ehdr).find? (fun q => q.p_type == PT_INTERP) = some p →
      fs (interp_path ehdr p) = some h →
      load_elf_interp fs accept (interp_path ehdr p)
        (load_elf_segments accept ehdr st).map_top (load_elf_segments accept ehdr st).st
          = .done 0 s1 →
      (load_elf cfg fs accept ehdr argc argv envp st).state.brk_min =
          ((phdr_table h).foldl
            (load_elf_interp_segment accept h.data (load_elf_segments accept ehdr st).map_top)
            { st := (load_elf_segments accept ehdr st).st, map_top := 0 }).map_top
      ∧ ((∀ q ∈ phdr_table h, q.p_type ≠ PT_LOAD) →
          (load_elf cfg fs accept ehdr argc argv envp st).state.brk_min = 0)
      ∧ ((∃ q ∈ phdr_table h, q.p_type = PT_LOAD) →
          (∀ q ∈ phdr_table h, q.p_type = PT_LOAD →
            q.p_vaddr + (load_elf_segments accept ehdr st).map_top + q.p_memsz + 4095 < 2 ^ 64) →
          (load_elf_segments accept ehdr st).map_top ≤
            (load_elf cfg fs accept ehdr argc argv envp st).state.brk_min)) := by
  constructor
  · intro hno
    have himg : load_elf_image fs accept ehdr st =
        .done (.inr (load_elf_auxv ehdr (load_elf_segments accept ehdr st).load_base
          (load_elf_segments accept ehdr st).map_top false))
          { (load_elf_segments accept ehdr st).st with
            rip := ehdr.e_entry, brk_min := (load_elf_segments accept ehdr st).map_top } := by
      rw [load_elf_image_valid fs accept ehdr st hmagic htype hmach,
        load_base_set_of_load accept ehdr st hload]
      simp only [not_true_eq_false, if_false, find_interp_none _ hno]
    rw [load_elf_state_of_image cfg fs accept ehdr argc argv envp st _ _ himg,
      (init_userstack_ctl cfg accept argc argv envp _ _).2.1]
  · intro p h s1 hinterp hfs hok
    have himg : load_elf_image fs accept ehdr st =
        .done (.inr (load_elf_auxv ehdr (load_elf_segments accept ehdr st).load_base
          (load_elf_segments accept ehdr st).map_top true)) s1 := by
      rw [load_elf_image_valid fs accept ehdr st hmagic htype hmach,
        load_base_set_of_load accept ehdr st hload]
      simp only [not_true_eq_false, if_false, hinterp, hok]
    have hs := load_elf_interp_success fs accept _ _ _ _ h hfs hok
    have hbrk : (load_elf cfg fs accept ehdr argc argv envp st).state.brk_min =
        ((phdr_table h).foldl
          (load_elf_interp_segment accept h.data (load_elf_segments accept ehdr st).map_top)
          { st := (load_elf_segments accept ehdr st).st, map_top := 0 }).map_top := by
      rw [load_elf_state_of_image cfg fs accept ehdr argc argv envp st _ _ himg,
        (init_userstack_ctl cfg accept argc argv envp _ _).2.1, hs]
    refine ⟨hbrk, ?_, ?_⟩
    · intro hnone
      rw [hbrk, interp_fold_map_top accept h.data _ (phdr_table h) _
        (fun q hq ht => absurd ht (hnone q hq)), spec_map_top_no_load _ _ hnone]
      rfl
    · intro hsome hno
      rw [hbrk, interp_fold_map_top accept h.data _ (phdr_table h) _ hno]
      have := spec_map_top_ge_bias (load_elf_segments accept ehdr st).map_top (phdr_table h) hsome
      omega

theorem brk_baseline_witness :
    (load_elf demo_cfg demo_fs accept_all demo_static 0 [] [] State.zero).state.brk_min =
      (load_elf_segments accept_all demo_static State.zero).map_top ∧
    (load_elf_segments accept_all demo_dynamic State.zero).map_top ≤
      (load_elf demo_cfg demo_fs accept_all demo_dynamic 0 [] [] State.zero).state.brk_min :=
  ⟨(brk_baseline demo_cfg demo_fs accept_all demo_static 0 [] [] State.zero
      (by decide) (by decide) (by decide) (by decide)).1 (by decide),
   ((brk_baseline demo_cfg demo_fs accept_all demo_dynamic 0 [] [] State.zero
      (by decide) (by decide) (by decide) (by decide)).2 phdr_interp demo_ld_so
      (load_elf_interp demo_fs accept_all (interp_path demo_dynamic phdr_interp)
        (load_elf_segments accept_all demo_dynamic State.zero).map_top
        (load_elf_segments accept_all demo_dynamic State.zero).st).state
      (by decide) (by decide) rfl).2.2 (by decide) (by decide)⟩

/-! ## The size of the initial stack -/

theorem blob_length_total (strs : List (List Nat)) : (blob strs).length = total_len strs := by
  induction strs with
  | nil => rfl
  | cons s r ih =>
    rw [blob_length_cons, ih]
    simp [total_len]

theorem load_elf_auxv_shape (ehdr : Elf64_Ehdr) (lb mt : Nat) (interp : Bool) :
    ∃ ents, load_elf_auxv ehdr lb mt interp = ents ++ [⟨AT_NULL, 0⟩] ∧ ents.length = 6 ∧
      ∀ e ∈ ents, e.a_tag ≠ AT_NULL :=
  ⟨[ ⟨AT_PHDR, add64 lb ehdr.e_phoff⟩, ⟨AT_PHENT, ehdr.e_phentsize⟩, ⟨AT_PHNUM, ehdr.e_phnum⟩,
     ⟨AT_PAGESZ, PAGE_SIZE_4KB⟩, ⟨AT_BASE, if interp then mt else 0⟩,
     ⟨AT_ENTRY, ehdr.e_entry⟩ ], rfl, rfl, by
    intro e he
    simp only [List.mem_cons, List.mem_singleton, List.not_mem_nil, or_false] at he
    rcases he with h | h | h | h | h | h <;> rw [h] <;>
      simp [AT_NULL, AT_PHDR, AT_PHENT, AT_PHNUM, AT_PAGESZ, AT_BASE, AT_ENTRY]⟩

/-- C17: for `n` argv strings, `m` envp strings and an auxiliary vector with
`k` entries before its `AT_NULL`, the stack pointer left by `init_userstack`
is `STACK_TOP - (roundup(T, 8) + 8 * (n + m + 2 * k + 5))`, where `T` is the
total length of the argv and envp strings with one NUL each; the string blob
lies at `args_start = STACK_TOP - roundup(T, 8)`, has `T` bytes, and the argv
pointers start there. The vector built by `load_elf` has `k = 6`. -/
theorem initial_stack_pointer (cfg : Config) (accept : List MapReq → MapReq → Bool)
    (argv envp : List (List Nat)) (ents : List Elf64_Auxv) (term : Elf64_Auxv)
    (rest : List Elf64_Auxv) (st : State)
    (hargv : ∀ s ∈ argv, 0 ∉ s) (henvp : ∀ s ∈ envp, 0 ∉ s)
    (hents : ∀ e ∈ ents, e.a_tag ≠ AT_NULL ∧ e.a_tag < 2 ^ 64 ∧ e.a_val < 2 ^ 64)
    (hterm : term.a_tag = AT_NULL)
    (htop : cfg.STACK_TOP < 2 ^ 64)
    (hroom : stack_need argv envp ents ≤ cfg.STACK_TOP) :
    (∃ st1, init_userstack cfg accept argv.length argv envp (ents ++ term :: rest) st
        = .done () st1 ∧
      st1.rsp = cfg.STACK_TOP - (roundup (total_len argv + total_len envp) 8 +
        8 * (argv.length + envp.length + 2 * ents.length + 5)) ∧
      roundup (total_len argv + total_len envp) 8 +
        8 * (argv.length + envp.length + 2 * ents.length + 5) ≤ cfg.STACK_TOP ∧
      bytes_at st1.mem (cfg.STACK_TOP - roundup (total_len argv + total_len envp) 8)
        (blob argv ++ blob envp) ∧
      (blob argv ++ blob envp).length = total_len argv + total_len envp ∧
      stack_words st1.mem (st1.rsp + 8)
        (str_ptrs (cfg.STACK_TOP - roundup (total_len argv + total_len envp) 8) argv)) ∧
    (∀ (ehdr : Elf64_Ehdr) (lb mt : Nat) (interp : Bool),
      ∃ ents6, load_elf_auxv ehdr lb mt interp = ents6 ++ [⟨AT_NULL, 0⟩] ∧ ents6.length = 6 ∧
        ∀ e ∈ ents6, e.a_tag ≠ AT_NULL) := by
  refine ⟨?_, load_elf_auxv_shape⟩
  obtain ⟨st1, hrun, hrsp, hw, hb⟩ := init_userstack_layout cfg accept argv envp ents term rest st
    hargv henvp hents hterm htop hroom
  have hT : roundup (total_len argv + total_len envp) 8 =
      ((blob argv).length + (blob envp).length + 7) / 8 * 8 := by
    rw [roundup_8, ← blob_length_total, ← blob_length_total]
    unfold stack_need at hroom
    omega
  rw [hT]
  unfold stack_need at hroom hrsp
  refine ⟨st1, hrun, by omega, hroom, hb, ?_, ?_⟩
  · rw [List.length_append, blob_length_total, blob_length_total]
  · exact ((stack_words_append st1.mem _ _ (st1.rsp + 8)).mp hw.2).1

theorem initial_stack_pointer_witness :
    ∃ st1, init_userstack demo_cfg accept_all demo_argv.length demo_argv demo_envp
        (demo_ents ++ ⟨AT_NULL, 0⟩ :: []) State.zero = .done () st1 ∧
      st1.rsp = demo_cfg.STACK_TOP - (roundup (total_len demo_argv + total_len demo_envp) 8 +
        8 * (demo_argv.length + demo_envp.length + 2 * demo_ents.length + 5)) :=
  match (initial_stack_pointer demo_cfg accept_all demo_argv demo_envp demo_ents ⟨AT_NULL, 0⟩ []
    State.zero (by decide) (by decide) (by decide) rfl (by decide) (by decide)).1 with
  | ⟨st1, h1, h2, _⟩ => ⟨st1, h1, h2⟩

/-! ## The contract of `push` -/

theorem roundup_8_mod (n : Nat) : roundup n 8 % 8 = 0 := by
  rw [roundup_8]
  omega

theorem push_aligned (data : Option (Nat → Nat)) (n : Nat) (st : State)
    (h : st.rsp % 8 = 0) : (push data n st).2.rsp % 8 = 0 := by
  rw [(push_rsp data n st).1]
  have := roundup_8_mod n
  unfold sub64
  omega

theorem push_auxv_aligned (aux : List Elf64_Auxv) (st : State) (h : st.rsp % 8 = 0) :
    (push_auxv aux st).rsp % 8 = 0 := by
  induction aux generalizing st with
  | nil => exact h
  | cons a rest ih =>
    unfold push_auxv
    split
    · exact ih _ (push_aligned _ _ _ (push_aligned _ _ _ h))
    · exact h

theorem push_pointers_aligned (line : Nat) (buf : List Nat) (args_start : Nat)
    (strs : List (List Nat)) (ptr : Nat) (st : State) (h : st.rsp % 8 = 0) :
    (push_pointers line buf args_start strs ptr st).state.rsp % 8 = 0 := by
  induction strs generalizing ptr st with
  | nil => exact h
  | cons s rest ih =>
    rw [push_pointers_cons]
    split
    · exact ih _ _ (push_aligned _ _ _ h)
    · exact push_aligned _ _ _ h

theorem init_userstack_aligned (cfg : Config) (accept : List MapReq → MapReq → Bool)
    (argc : Nat) (argv envp : List (List Nat)) (aux : List Elf64_Auxv) (st : State)
    (h : cfg.STACK_TOP % 8 = 0) :
    (init_userstack cfg accept argc argv envp aux st).state.rsp % 8 = 0 := by
  simp only [init_userstack]
  generalize hst0 : ({ ({ (do_mmap accept (sub64 cfg.STACK_TOP cfg.STACK_SIZE) cfg.STACK_SIZE
    (L_PROT_READ ||| L_PROT_WRITE) (L_MAP_PRIVATE ||| L_MAP_FIXED ||| L_MAP_ANONYMOUS) st)
      with rsp := cfg.STACK_TOP } : State) with rbp := cfg.STACK_TOP } : State) = st0
  have h0 : st0.rsp % 8 = 0 := by
    subst hst0
    exact h
  generalize hbuf : copy_strings (copy_strings [] (List.take argc argv)) envp = buf
  generalize htot : add_lengths (add_lengths 0 (List.take argc argv)) envp = total
  generalize hst1 : push (some (bytes_of buf)) total st0 = r1
  have h1 : r1.2.rsp % 8 = 0 := by
    rw [← hst1]
    exact push_aligned _ _ _ h0
  generalize hst2 : (push none 8 (push_auxv aux (push none 16 r1.2).2)).2 = st2
  have h2 : st2.rsp % 8 = 0 := by
    rw [← hst2]
    exact push_aligned _ _ _ (push_auxv_aligned _ _ (push_aligned _ _ _ h1))
  have h3 := push_pointers_aligned 238 buf r1.1 envp.reverse (add64 r1.1 total) st2 h2
  cases hp : push_pointers 238 buf r1.1 envp.reverse (add64 r1.1 total) st2 with
  | abort l s =>
    rw [hp] at h3
    exact h3
  | done u s =>
    rw [hp] at h3
    have h4 : (push none 8 s).2.rsp % 8 = 0 := push_aligned _ _ _ h3
    have h5 := push_pointers_aligned 247 buf r1.1 (List.take argc argv).reverse
      (add64 r1.1 (add_lengths 0 (List.take argc argv))) (push none 8 s).2 h4
    simp only
    cases hq : push_pointers 247 buf r1.1 (List.take argc argv).reverse
        (add64 r1.1 (add_lengths 0 (List.take argc argv))) (push none 8 s).2 with
    | abort l s2 =>
      rw [hq] at h5
      exact h5
    | done u2 s2 =>
      rw [hq] at h5
      exact push_aligned (some (le64 (argc % 2 ^ 64))) 8 s2 h5

/-- C13: a call `push(data, n)` from a state with stack pointer `r` sets the
stack pointer to `r - roundup(n, 8)` (64-bit arithmetic) and returns that
value; the `n` bytes from the new stack pointer on are a copy of `data`, or
zero when `data` is absent; no other guest byte and no other register changes.
A push from a stack pointer that is a multiple of 8 leaves a multiple of 8, so,
`init_userstack` starting from `STACK_TOP`, a multiple of 8, the stack pointer
is a multiple of 8 after every push, in particular in the state in which
`init_userstack` ends. -/
theorem push_contract (data : Option (Nat → Nat)) (n : Nat) (st : State) :
    ((push data n st).2.rsp = sub64 st.rsp (roundup n 8)
      ∧ (push data n st).1 = (push data n st).2.rsp
      ∧ (roundup n 8 ≤ st.rsp → st.rsp < 2 ^ 64 →
          (push data n st).2.rsp = st.rsp - roundup n 8)
      ∧ (∀ i, i < n → (push data n st).2.mem ((push data n st).2.rsp + i) =
          match data with
          | some d => d i
          | none => 0)
      ∧ (∀ a, a < (push data n st).2.rsp ∨ (push data n st).2.rsp + n ≤ a →
          (push data n st).2.mem a = st.mem a)
      ∧ same_ctl (push data n st).2 st)
    ∧ (st.rsp % 8 = 0 → (push data n st).2.rsp % 8 = 0)
    ∧ (∀ (cfg : Config) (accept : List MapReq → MapReq → Bool) (argc : Nat)
        (argv envp : List (List Nat)) (aux : List Elf64_Auxv),
        cfg.STACK_TOP % 8 = 0 →
        (init_userstack cfg accept argc argv envp aux st).state.rsp % 8 = 0) := by
  refine ⟨⟨(push_rsp data n st).1, ?_, ?_, ?_, ?_, push_same_ctl data n st⟩,
    push_aligned data n st, ?_⟩
  · rw [(push_rsp data n st).1, (push_rsp data n st).2]
  · intro h1 h2
    rw [(push_rsp data n st).1]
    exact sub64_small _ _ h2 h1
  · intro i hi
    cases data with
    | none =>
      rw [push_none_eq]
      exact memset_inside _ _ _ _ _ hi
    | some d =>
      rw [push_some_eq]
      exact memcpy_inside _ _ _ _ _ hi
  · intro a ha
    cases data with
    | none =>
      rw [push_none_eq] at ha ⊢
      exact memset_outside _ _ _ _ _ ha
    | some d =>
      rw [push_some_eq] at ha ⊢
      exact memcpy_outside _ _ _ _ _ ha
  · intro cfg accept argc argv envp aux h
    exact init_userstack_aligned cfg accept argc argv envp aux st h

theorem push_contract_witness :
    demo_cfg.STACK_TOP % 8 = 0 ∧
    (init_userstack demo_cfg accept_all 1 demo_argv demo_envp (demo_ents ++ [⟨AT_NULL, 0⟩])
      State.zero).state.rsp % 8 = 0 := by
  have h : demo_cfg.STACK_TOP % 8 = 0 := by decide
  have h3 := (push_contract none 0 State.zero).2.2
  have h4 := h3 demo_cfg accept_all 1 demo_argv demo_envp (demo_ents ++ [⟨AT_NULL, 0⟩]) h
  exact ⟨h, h4⟩

/-! ## The self-checks of the stack builder -/

theorem str_ptrs_getD (strs : List (List Nat)) (base j : Nat) (hj : j < strs.length) :
    (str_ptrs base strs).getD j 0 = base + total_len (strs.take j) := by
  induction strs generalizing base j with
  | nil => simp at hj
  | cons s r ih =>
    cases j with
    | zero => simp [str_ptrs, total_len]
    | succ j =>
      have hj2 : j < r.length := by simpa using hj
      have := ih (base + s.length + 1) j hj2
      simp only [str_ptrs, List.getD_cons_succ, List.take_succ_cons, this]
      simp only [total_len, List.map_cons, List.sum_cons]
      omega

/-- The string read back from the buffer at each pointer of `str_ptrs` is the
string the pointer was computed for. -/
theorem cstr_at_str_ptrs (buf : List Nat) (B : Nat) (strs : List (List Nat)) :
    ∀ (front back : List Nat), buf = front ++ (blob strs ++ back) →
      (∀ s ∈ strs, 0 ∉ s) →
      B + front.length + (blob strs).length < 2 ^ 64 →
      List.Forall₂ (fun p s => cstr_at buf (sub64 p B) = s)
        (str_ptrs (B + front.length) strs) strs := by
  induction strs with
  | nil =>
    intro _ _ _ _ _
    exact List.Forall₂.nil
  | cons s r ih =>
    intro front back hbuf hnul hlt
    have hs : 0 ∉ s := hnul s (List.mem_cons_self _ _)
    have hr : ∀ x ∈ r, 0 ∉ x := fun x hx => hnul x (List.mem_cons_of_mem _ hx)
    rw [blob_length_cons] at hlt
    have hoff : sub64 (B + front.length) B = front.length := by
      unfold sub64
      omega
    have hbuf1 : buf = front ++ (s ++ 0 :: (blob r ++ back)) := by
      rw [hbuf]
      simp [blob]
    have hbuf2 : buf = (front ++ (s ++ [0])) ++ (blob r ++ back) := by
      rw [hbuf]
      simp [blob]
    have hlen : (front ++ (s ++ [0])).length = front.length + s.length + 1 := by
      simp
      omega
    refine List.Forall₂.cons ?_ ?_
    · show cstr_at buf (sub64 (B + front.length) B) = s
      rw [hoff, hbuf1]
      exact cstr_at_blob front s _ hs
    · have := ih (front ++ (s ++ [0])) back hbuf2 hr (by rw [hlen]; omega)
      rw [hlen] at this
      have e : B + (front.length + s.length + 1) = B + front.length + s.length + 1 := by omega
      rw [e] at this
      exact this

/-- C12: the self-check assertions of the stack builder hold. For NUL-free argv
and envp strings and no address wrap-around, `init_userstack` ends normally, so
neither `assert` (lines 238 and 247) fails: at every pointer computed in the
two loops the NUL-terminated string found in `buf` at offset `ptr - args_start`
is the string being processed. The pointer pushed for the `j`-th argv string is
`args_start` plus the sum of `len + 1` over the earlier argv strings, and for
the `j`-th envp string it is `args_end` plus the sum over the earlier envp
strings; the pointer tables lie in that order above the `argc` word. -/
theorem self_checks_hold (cfg : Config) (accept : List MapReq → MapReq → Bool)
    (argv envp : List (List Nat)) (ents : List Elf64_Auxv) (term : Elf64_Auxv)
    (rest : List Elf64_Auxv) (st : State)
    (hargv : ∀ s ∈ argv, 0 ∉ s) (henvp : ∀ s ∈ envp, 0 ∉ s)
    (hents : ∀ e ∈ ents, e.a_tag ≠ AT_NULL ∧ e.a_tag < 2 ^ 64 ∧ e.a_val < 2 ^ 64)
    (hterm : term.a_tag = AT_NULL)
    (htop : cfg.STACK_TOP < 2 ^ 64)
    (hroom : stack_need argv envp ents ≤ cfg.STACK_TOP) :
    ∃ (st1 : State) (args_start args_end : Nat),
      init_userstack cfg accept argv.length argv envp (ents ++ term :: rest) st = .done () st1 ∧
      args_start = cfg.STACK_TOP - roundup (total_len argv + total_len envp) 8 ∧
      args_end = args_start + total_len argv ∧
      List.Forall₂
        (fun p s => cstr_at (copy_strings (copy_strings [] argv) envp) (sub64 p args_start) = s)
        (str_ptrs args_start argv) argv ∧
      List.Forall₂
        (fun p s => cstr_at (copy_strings (copy_strings [] argv) envp) (sub64 p args_start) = s)
        (str_ptrs args_end envp) envp ∧
      stack_words st1.mem (st1.rsp + 8) (str_ptrs args_start argv) ∧
      stack_words st1.mem (st1.rsp + 8 * (argv.length + 2)) (str_ptrs args_end envp) ∧
      (∀ j, j < argv.length →
        (str_ptrs args_start argv).getD j 0 = args_start + total_len (argv.take j)) ∧
      (∀ j, j < envp.length →
        (str_ptrs args_end envp).getD j 0 = args_end + total_len (envp.take j)) := by
  obtain ⟨st1, hrun, hrsp, hw, hb⟩ := init_userstack_layout cfg accept argv envp ents term rest st
    hargv henvp hents hterm htop hroom
  have hT : cfg.STACK_TOP - ((blob argv).length + (blob envp).length + 7) / 8 * 8 =
      cfg.STACK_TOP - roundup (total_len argv + total_len envp) 8 := by
    rw [roundup_8, ← blob_length_total, ← blob_length_total]
    unfold stack_need at hroom
    omega
  have hbuf : copy_strings (copy_strings [] argv) envp = blob argv ++ blob envp := by
    rw [copy_strings_eq, copy_strings_eq, List.nil_append]
  have hBlt : cfg.STACK_TOP - ((blob argv).length + (blob envp).length + 7) / 8 * 8 +
      (blob argv).length + (blob envp).length < 2 ^ 64 := by
    unfold stack_need at hroom
    omega
  generalize cfg.STACK_TOP - ((blob argv).length + (blob envp).length + 7) / 8 * 8 = B
    at hw hb hBlt hT
  refine ⟨st1, B, B + (blob argv).length, hrun, ?_, ?_, ?_, ?_, ?_, ?_, ?_, ?_⟩
  · omega
  · rw [blob_length_total]
  · rw [hbuf]
    have := cstr_at_str_ptrs (blob argv ++ blob envp) B argv [] (blob envp) (by simp) hargv
      (by simp only [List.length_nil]; omega)
    simpa using this
  · rw [hbuf]
    exact cstr_at_str_ptrs (blob argv ++ blob envp) B envp (blob argv) [] (by simp) henvp hBlt
  · exact ((stack_words_append st1.mem _ _ (st1.rsp + 8)).mp hw.2).1
  · have h1 := ((stack_words_append st1.mem _ _ (st1.rsp + 8)).mp hw.2).2
    rw [str_ptrs_length] at h1
    have h2 := ((stack_words_append st1.mem _ _ _).mp h1.2).1
    have e : st1.rsp + 8 + 8 * argv.length + 8 = st1.rsp + 8 * (argv.length + 2) := by omega
    rw [e] at h2
    exact h2
  · intro j hj
    exact str_ptrs_getD argv B j hj
  · intro j hj
    exact str_ptrs_getD envp (B + (blob argv).length) j hj

theorem self_checks_hold_witness :
    ∃ (st1 : State) (args_start args_end : Nat),
      init_userstack demo_cfg accept_all demo_argv.length demo_argv demo_envp
        (demo_ents ++ ⟨AT_NULL, 0⟩ :: []) State.zero = .done () st1 ∧
      args_start = demo_cfg.STACK_TOP - roundup (total_len demo_argv + total_len demo_envp) 8 ∧
      args_end = args_start + total_len demo_argv := by
  obtain ⟨st1, a, e, h1, h2, h3, _⟩ := self_checks_hold demo_cfg accept_all demo_argv demo_envp
    demo_ents ⟨AT_NULL, 0⟩ [] State.zero (by decide) (by decide) (by decide) rfl (by decide)
    (by decide)
  exact ⟨st1, a, e, h1, h2, h3⟩

/-! ## What the pushes leave untouched -/

theorem below_push (s0 st : State) (data : Option (Nat → Nat)) (n : Nat)
    (hb : Below s0 st) (hroom : roundup n 8 ≤ st.rsp) (hlt : st.rsp < 2 ^ 64) :
    Below s0 (push data n st).2 ∧ (push data n st).2.rsp = st.rsp - roundup n 8 := by
  have hr : (push data n st).2.rsp = st.rsp - roundup n 8 := by
    rw [(push_rsp data n st).1]
    exact sub64_small _ _ hlt hroom
  refine ⟨⟨by rw [hr]; exact Nat.le_trans (Nat.sub_le _ _) hb.1, ?_⟩, hr⟩
  intro a ha
  have hm : (push data n st).2.mem a = st.mem a := by
    cases data with
    | none =>
      rw [push_none_eq] at ha ⊢
      exact memset_outside _ _ _ _ _ (Or.inl ha)
    | some d =>
      rw [push_some_eq] at ha ⊢
      exact memcpy_outside _ _ _ _ _ (Or.inl ha)
  rw [hm]
  exact hb.2 a (by rw [hr] at ha; omega)

theorem below_push_auxv (s0 : State) (ents : List Elf64_Auxv) (term : Elf64_Auxv)
    (rest : List Elf64_Auxv) (hterm : term.a_tag = AT_NULL) :
    ∀ st : State, Below s0 st → (∀ e ∈ ents, e.a_tag ≠ AT_NULL) →
      16 * ents.length ≤ st.rsp → st.rsp < 2 ^ 64 →
      Below s0 (push_auxv (ents ++ term :: rest) st) ∧
      (push_auxv (ents ++ term :: rest) st).rsp = st.rsp - 16 * ents.length := by
  induction ents with
  | nil =>
    intro st hb _ _ _
    have e : push_auxv ([] ++ term :: rest) st = st := by
      simp [push_auxv, hterm]
    rw [e]
    exact ⟨hb, by simp⟩
  | cons e ents ih =>
    intro st hb hents hroom hlt
    have he := hents e (List.mem_cons_self _ _)
    have hrest : ∀ x ∈ ents, x.a_tag ≠ AT_NULL :=
      fun x hx => hents x (List.mem_cons_of_mem _ hx)
    simp only [List.length_cons] at hroom
    have h8 : roundup 8 8 = 8 := by decide
    obtain ⟨b1, r1⟩ := below_push s0 st (some (le64 e.a_val)) 8 hb (by rw [h8]; omega) hlt
    rw [h8] at r1
    obtain ⟨b2, r2⟩ := below_push s0 _ (some (le64 e.a_tag)) 8 b1 (by rw [h8, r1]; omega)
      (by rw [r1]; omega)
    rw [h8, r1] at r2
    obtain ⟨b3, r3⟩ := ih _ b2 hrest (by rw [r2]; omega) (by rw [r2]; omega)
    have e1 : push_auxv ((e :: ents) ++ term :: rest) st =
        push_auxv (ents ++ term :: rest)
          (push (some (le64 e.a_tag)) 8 (push (some (le64 e.a_val)) 8 st).2).2 := by
      show push_auxv (e :: (ents ++ term :: rest)) st = _
      rw [push_auxv, if_pos he]
    rw [e1]
    refine ⟨b3, ?_⟩
    rw [r3, r2]
    simp only [List.length_cons]
    omega

theorem below_push_pointers (s0 : State) (line : Nat) (buf : List Nat) (args_start : Nat)
    (strs : List (List Nat)) :
    ∀ (ptr : Nat) (st st1 : State),
      push_pointers line buf args_start strs ptr st = .done () st1 →
      Below s0 st → 8 * strs.length ≤ st.rsp → st.rsp < 2 ^ 64 →
      Below s0 st1 ∧ st1.rsp = st.rsp - 8 * strs.length := by
  induction strs with
  | nil =>
    intro ptr st st1 hrun hb _ _
    have e : st1 = st := by
      simp only [push_pointers] at hrun
      cases hrun
      rfl
    rw [e]
    exact ⟨hb, by simp⟩
  | cons s r ih =>
    intro ptr st st1 hrun hb hroom hlt
    simp only [List.length_cons] at hroom
    rw [push_pointers_cons] at hrun
    have h8 : roundup 8 8 = 8 := by decide
    obtain ⟨b1, r1⟩ := below_push s0 st (some (le64 (sub64 ptr (strlen s + 1)))) 8 hb
      (by rw [h8]; omega) hlt
    rw [h8] at r1
    split at hrun
    · obtain ⟨b2, r2⟩ := ih _ _ _ hrun b1 (by rw [r1]; omega) (by rw [r1]; omega)
      refine ⟨b2, ?_⟩
      rw [r2, r1]
      simp only [List.length_cons]
      omega
    · cases hrun

/-- Under the hypotheses of the layout theorem, no push of `init_userstack`
writes below the final stack pointer: memory there is as the stack mapping
left it. -/
theorem init_userstack_below (cfg : Config) (accept : List MapReq → MapReq → Bool)
    (argv envp : List (List Nat)) (ents : List Elf64_Auxv) (term : Elf64_Auxv)
    (rest : List Elf64_Auxv) (st : State)
    (hargv : ∀ s ∈ argv, 0 ∉ s) (henvp : ∀ s ∈ envp, 0 ∉ s)
    (hents : ∀ e ∈ ents, e.a_tag ≠ AT_NULL ∧ e.a_tag < 2 ^ 64 ∧ e.a_val < 2 ^ 64)
    (hterm : term.a_tag = AT_NULL)
    (htop : cfg.STACK_TOP < 2 ^ 64)
    (hroom : stack_need argv envp ents ≤ cfg.STACK_TOP) :
    ∃ st1, init_userstack cfg accept argv.length argv envp (ents ++ term :: rest) st
        = .done () st1 ∧
      read64 st1.mem st1.rsp = argv.length ∧
      ∀ a, a < st1.rsp → st1.mem a =
        (do_mmap accept (sub64 cfg.STACK_TOP cfg.STACK_SIZE) cfg.STACK_SIZE
          (L_PROT_READ ||| L_PROT_WRITE) (L_MAP_PRIVATE ||| L_MAP_FIXED ||| L_MAP_ANONYMOUS)
          st).mem a := by
  obtain ⟨st1, hrun, hrsp, hw, _⟩ := init_userstack_layout cfg accept argv envp ents term rest st
    hargv henvp hents hterm htop hroom
  refine ⟨st1, hrun, hw.1, ?_⟩
  unfold stack_need at hroom
  have hn := blob_length_ge argv
  have hm := blob_length_ge envp
  have hAl : add_lengths 0 argv = (blob argv).length := by
    rw [add_lengths_eq _ _ (by norm_num)]
    omega
  have hTl : add_lengths (blob argv).length envp = (blob argv).length + (blob envp).length := by
    rw [add_lengths_eq _ _ (by omega)]
    omega
  have hR : roundup ((blob argv).length + (blob envp).length) 8 =
      ((blob argv).length + (blob envp).length + 7) / 8 * 8 := by
    rw [roundup_8]
    omega
  simp only [init_userstack, List.take_length, hAl, hTl] at hrun
  generalize hst0 : ({ ({ (do_mmap accept (sub64 cfg.STACK_TOP cfg.STACK_SIZE) cfg.STACK_SIZE
    (L_PROT_READ ||| L_PROT_WRITE) (L_MAP_PRIVATE ||| L_MAP_FIXED ||| L_MAP_ANONYMOUS) st)
      with rsp := cfg.STACK_TOP } : State) with rbp := cfg.STACK_TOP } : State) = st0 at hrun
  have h0 : st0.rsp = cfg.STACK_TOP := by
    subst hst0
    rfl
  have hmem0 : st0.mem = (do_mmap accept (sub64 cfg.STACK_TOP cfg.STACK_SIZE) cfg.STACK_SIZE
      (L_PROT_READ ||| L_PROT_WRITE) (L_MAP_PRIVATE ||| L_MAP_FIXED ||| L_MAP_ANONYMOUS)
      st).mem := by
    subst hst0
    rfl
  rw [← hmem0]
  have b0 : Below st0 st0 := ⟨Nat.le_refl _, fun _ _ => rfl⟩
  generalize copy_strings (copy_strings [] argv) envp = buf at hrun
  have h8 : roundup 8 8 = 8 := by decide
  have h16 : roundup 16 8 = 16 := by decide
  obtain ⟨b1, r1⟩ := below_push st0 st0 (some (bytes_of buf))
    ((blob argv).length + (blob envp).length) b0 (by rw [hR, h0]; omega) (by rw [h0]; exact htop)
  rw [hR, h0] at r1
  generalize push (some (bytes_of buf)) ((blob argv).length + (blob envp).length) st0 = p1
    at hrun b1 r1
  obtain ⟨b2, r2⟩ := below_push st0 p1.2 none 16 b1 (by rw [h16, r1]; omega) (by rw [r1]; omega)
  rw [h16, r1] at r2
  obtain ⟨b3, r3⟩ := below_push_auxv st0 ents term rest hterm _ b2 (fun e he => (hents e he).1)
    (by rw [r2]; omega) (by rw [r2]; omega)
  rw [r2] at r3
  obtain ⟨b4, r4⟩ := below_push st0 _ none 8 b3 (by rw [h8, r3]; omega) (by rw [r3]; omega)
  rw [h8, r3] at r4
  cases h5 : push_pointers 238 buf p1.1 envp.reverse
      (add64 p1.1 ((blob argv).length + (blob envp).length))
      (push none 8 (push_auxv (ents ++ term :: rest) (push none 16 p1.2).2)).2 with
  | abort l s =>
    rw [h5] at hrun
    cases hrun
  | done u s5 =>
    rw [h5] at hrun
    simp only at hrun
    obtain ⟨b5, r5⟩ := below_push_pointers st0 238 buf p1.1 envp.reverse _ _ _ h5 b4
      (by rw [r4, List.length_reverse]; omega) (by rw [r4]; omega)
    rw [r4, List.length_reverse] at r5
    obtain ⟨b6, r6⟩ := below_push st0 s5 none 8 b5 (by rw [h8, r5]; omega) (by rw [r5]; omega)
    rw [h8, r5] at r6
    cases h7 : push_pointers 247 buf p1.1 argv.reverse (add64 p1.1 (blob argv).length)
        (push none 8 s5).2 with
    | abort l s =>
      rw [h7] at hrun
      cases hrun
    | done u2 s7 =>
      rw [h7] at hrun
      simp only at hrun
      obtain ⟨b7, r7⟩ := below_push_pointers st0 247 buf p1.1 argv.reverse _ _ _ h7 b6
        (by rw [r6, List.length_reverse]; omega) (by rw [r6]; omega)
      rw [r6, List.length_reverse] at r7
      obtain ⟨b8, _⟩ := below_push st0 s7 (some (le64 (argv.length % 2 ^ 64))) 8 b7
        (by rw [h8, r7]; omega) (by rw [r7]; omega)
      have e := (Run.done.inj hrun).2
      rw [← e]
      exact b8.2

/-- C14: after `init_userstack`, whatever its arguments and outcome, RBP equals
`STACK_TOP` and RIP (and `brk_min`) are as the loader left them before the
stack was built. When the stack is built (hypotheses of C1), RSP is the
address of the `argc` word, and that is the lowest address written by a push:
memory below RSP is as the stack mapping left it. -/
theorem registers_after_init_userstack (cfg : Config) (accept : List MapReq → MapReq → Bool)
    (argc : Nat) (argv envp : List (List Nat)) (aux : List Elf64_Auxv) (st : State) :
    ((init_userstack cfg accept argc argv envp aux st).state.rbp = cfg.STACK_TOP
      ∧ (init_userstack cfg accept argc argv envp aux st).state.rip = st.rip
      ∧ (init_userstack cfg accept argc argv envp aux st).state.brk_min = st.brk_min)
    ∧ (∀ (ents : List Elf64_Auxv) (term : Elf64_Auxv) (rest : List Elf64_Auxv),
        argc = argv.length → aux = ents ++ term :: rest →
        (∀ s ∈ argv, 0 ∉ s) → (∀ s ∈ envp, 0 ∉ s) →
        (∀ e ∈ ents, e.a_tag ≠ AT_NULL ∧ e.a_tag < 2 ^ 64 ∧ e.a_val < 2 ^ 64) →
        term.a_tag = AT_NULL → cfg.STACK_TOP < 2 ^ 64 →
        stack_need argv envp ents ≤ cfg.STACK_TOP →
        ∃ st1, init_userstack cfg accept argc argv envp aux st = .done () st1 ∧
          st1.rbp = cfg.STACK_TOP ∧ st1.rip = st.rip ∧
          st1.rsp + stack_need argv envp ents = cfg.STACK_TOP ∧
          read64 st1.mem st1.rsp = argc ∧
          ∀ a, a < st1.rsp → st1.mem a =
            (do_mmap accept (sub64 cfg.STACK_TOP cfg.STACK_SIZE) cfg.STACK_SIZE
              (L_PROT_READ ||| L_PROT_WRITE)
              (L_MAP_PRIVATE ||| L_MAP_FIXED ||| L_MAP_ANONYMOUS) st).mem a) := by
  have hc := init_userstack_ctl cfg accept argc argv envp aux st
  refine ⟨⟨hc.2.2, hc.1, hc.2.1⟩, ?_⟩
  intro ents term rest hargc haux hargv henvp hents hterm htop hroom
  subst hargc
  subst haux
  obtain ⟨st1, hrun, hread, hbelow⟩ := init_userstack_below cfg accept argv envp ents term rest st
    hargv henvp hents hterm htop hroom
  obtain ⟨st2, hrun2, hrsp, _⟩ := init_userstack_layout cfg accept argv envp ents term rest st
    hargv henvp hents hterm htop hroom
  have hc2 := init_userstack_ctl cfg accept argv.length argv envp (ents ++ term :: rest) st
  rw [hrun] at hc2 hrun2
  cases hrun2
  exact ⟨st1, hrun, hc2.2.2, hc2.1, hrsp, hread, hbelow⟩

theorem registers_after_init_userstack_witness :
    ∃ st1, init_userstack demo_cfg accept_all 1 demo_argv demo_envp
        (demo_ents ++ ⟨AT_NULL, 0⟩ :: []) State.zero = .done () st1 ∧
      st1.rbp = demo_cfg.STACK_TOP ∧ st1.rip = State.zero.rip ∧
      read64 st1.mem st1.rsp = 1 := by
  have h := (registers_after_init_userstack demo_cfg accept_all 1 demo_argv demo_envp
    (demo_ents ++ ⟨AT_NULL, 0⟩ :: []) State.zero).2
  obtain ⟨st1, h1, h2, h3, _, h5, _⟩ := h demo_ents ⟨AT_NULL, 0⟩ [] rfl rfl (by decide)
    (by decide) (by decide) rfl (by decide) (by decide)
  exact ⟨st1, h1, h2, h3, h5⟩

/-! ## The contents of the loaded segments -/

theorem do_mmap_mem (accept : List MapReq → MapReq → Bool) (a l pr fl : Nat) (st : State)
    (x : Nat) :
    (do_mmap accept a l pr fl st).mem x =
      if accept st.mapped ⟨a, l, pr, fl⟩ = true then memset st.mem a 0 l x else st.mem x := by
  simp only [do_mmap]
  split <;> rfl

theorem interp_segment_mem (accept : List MapReq → MapReq → Bool) (data : List Nat) (b : Nat)
    (acc : InterpAcc) (p : Elf64_Phdr) (hp : p.p_type = PT_LOAD) :
    (load_elf_interp_segment accept data b acc p).st.mem =
      memcpy (do_mmap accept (seg_request (add64 p.p_vaddr b) p.p_memsz p.p_flags).addr
          (seg_request (add64 p.p_vaddr b) p.p_memsz p.p_flags).len
          (seg_request (add64 p.p_vaddr b) p.p_memsz p.p_flags).prot
          (seg_request (add64 p.p_vaddr b) p.p_memsz p.p_flags).flags acc.st).mem
        ((add64 p.p_vaddr b &&& not64 (PAGE_SIZE_4KB - 1)) +
          (add64 p.p_vaddr b &&& (PAGE_SIZE_4KB - 1)))
        (fun i => data.getD (p.p_offset + i) 0) p.p_filesz := by
  have hne : ¬ (p.p_type ≠ PT_LOAD) := by simp [hp]
  simp only [load_elf_interp_segment, if_neg hne, seg_request]

theorem interp_segment_frame (accept : List MapReq → MapReq → Bool) (data : List Nat) (b : Nat)
    (acc : InterpAcc) (p : Elf64_Phdr) (x : Nat)
    (h : p.p_type = PT_LOAD → p.p_filesz ≤ p.p_memsz ∧
      p.p_vaddr + b + p.p_memsz + 4095 < 2 ^ 64 ∧
      (x < page_lo (p.p_vaddr + b) ∨ page_hi (p.p_vaddr + b) p.p_memsz ≤ x)) :
    (load_elf_interp_segment accept data b acc p).st.mem x = acc.st.mem x := by
  by_cases hp : p.p_type = PT_LOAD
  · obtain ⟨hf, hno, hx⟩ := h hp
    have hpv : add64 p.p_vaddr b = p.p_vaddr + b := by
      unfold add64
      omega
    obtain ⟨ha, hs⟩ := seg_request_bounds (p.p_vaddr + b) p.p_memsz p.p_flags hno
    have hsum : (add64 p.p_vaddr b &&& not64 (PAGE_SIZE_4KB - 1)) +
        (add64 p.p_vaddr b &&& (PAGE_SIZE_4KB - 1)) = p.p_vaddr + b := by
      simp only [and_page_mask, and_not_page_mask, add64]
      omega
    unfold page_lo page_hi at hx
    rw [interp_segment_mem accept data b acc p hp, hsum, hpv,
      memcpy_outside _ _ _ _ _ (by omega), do_mmap_mem]
    split
    · exact memset_outside _ _ _ _ _ (by omega)
    · rfl
  · unfold load_elf_interp_segment
    rw [if_pos hp]

theorem interp_fold_frame (accept : List MapReq → MapReq → Bool) (data : List Nat) (b : Nat)
    (tbl : List Elf64_Phdr) (x : Nat) :
    ∀ acc : InterpAcc,
      (∀ p ∈ tbl, p.p_type = PT_LOAD → p.p_filesz ≤ p.p_memsz ∧
        p.p_vaddr + b + p.p_memsz + 4095 < 2 ^ 64 ∧
        (x < page_lo (p.p_vaddr + b) ∨ page_hi (p.p_vaddr + b) p.p_memsz ≤ x)) →
      (tbl.foldl (load_elf_interp_segment accept data b) acc).st.mem x = acc.st.mem x := by
  induction tbl with
  | nil =>
    intro acc _
    rfl
  | cons p tbl ih =>
    intro acc h
    rw [List.foldl_cons, ih _ (fun q hq => h q (List.mem_cons_of_mem _ hq))]
    exact interp_segment_frame accept data b acc p x (h p (List.mem_cons_self _ _))

theorem interp_segment_content (accept : List MapReq → MapReq → Bool) (data : List Nat) (b : Nat)
    (acc : InterpAcc) (p : Elf64_Phdr) (hacc : ∀ m r, accept m r = true)
    (hp : p.p_type = PT_LOAD) (hf : p.p_filesz ≤ p.p_memsz)
    (hno : p.p_vaddr + b + p.p_memsz + 4095 < 2 ^ 64) :
    (∀ i, i < p.p_filesz →
      (load_elf_interp_segment accept data b acc p).st.mem (p.p_vaddr + b + i) =
        data.getD (p.p_offset + i) 0) ∧
    (∀ i, p.p_filesz ≤ i → i < p.p_memsz →
      (load_elf_interp_segment accept data b acc p).st.mem (p.p_vaddr + b + i) = 0) := by
  have hpv : add64 p.p_vaddr b = p.p_vaddr + b := by
    unfold add64
    omega
  obtain ⟨ha, hs⟩ := seg_request_bounds (p.p_vaddr + b) p.p_memsz p.p_flags hno
  have hsum : (add64 p.p_vaddr b &&& not64 (PAGE_SIZE_4KB - 1)) +
      (add64 p.p_vaddr b &&& (PAGE_SIZE_4KB - 1)) = p.p_vaddr + b := by
    simp only [and_page_mask, and_not_page_mask, add64]
    omega
  rw [interp_segment_mem accept data b acc p hp, hsum, hpv]
  constructor
  · intro i hi
    exact memcpy_inside _ _ _ _ _ hi
  · intro i h1 h2
    rw [memcpy_outside _ _ _ _ _ (by omega), do_mmap_mem, if_pos (hacc _ _)]
    have := memset_inside acc.st.mem (seg_request (p.p_vaddr + b) p.p_memsz p.p_flags).addr 0
      (seg_request (p.p_vaddr + b) p.p_memsz p.p_flags).len
      (p.p_vaddr + b + i - (seg_request (p.p_vaddr + b) p.p_memsz p.p_flags).addr) (by omega)
    have e : (seg_request (p.p_vaddr + b) p.p_memsz p.p_flags).addr +
        (p.p_vaddr + b + i - (seg_request (p.p_vaddr + b) p.p_memsz p.p_flags).addr) =
        p.p_vaddr + b + i := by omega
    rw [e] at this
    exact this

theorem interp_fold_content (accept : List MapReq → MapReq → Bool) (data : List Nat) (b : Nat)
    (hacc : ∀ m r, accept m r = true) (tbl : List Elf64_Phdr) :
    ∀ acc : InterpAcc,
      (∀ p ∈ tbl, p.p_type = PT_LOAD →
        p.p_filesz ≤ p.p_memsz ∧ p.p_vaddr + b + p.p_memsz + 4095 < 2 ^ 64) →
      tbl.Pairwise (fun p q => p.p_type = PT_LOAD → q.p_type = PT_LOAD → disjoint_pages b p q) →
      ∀ p ∈ tbl, p.p_type = PT_LOAD →
        (∀ i, i < p.p_filesz →
          (tbl.foldl (load_elf_interp_segment accept data b) acc).st.mem (p.p_vaddr + b + i) =
            data.getD (p.p_offset + i) 0) ∧
        (∀ i, p.p_filesz ≤ i → i < p.p_memsz →
          (tbl.foldl (load_elf_interp_segment accept data b) acc).st.mem (p.p_vaddr + b + i)
            = 0) := by
  induction tbl with
  | nil =>
    intro _ _ _ p hp
    cases hp
  | cons q tbl ih =>
    intro acc hwf hdis p hp hpt
    rw [List.pairwise_cons] at hdis
    rw [List.foldl_cons]
    rcases List.mem_cons.mp hp with e | e
    · subst e
      obtain ⟨hf, hno⟩ := hwf p (List.mem_cons_self _ _) hpt
      have hfr : ∀ i, i < p.p_memsz →
          (tbl.foldl (load_elf_interp_segment accept data b)
            (load_elf_interp_segment accept data b acc p)).st.mem (p.p_vaddr + b + i) =
          (load_elf_interp_segment accept data b acc p).st.mem (p.p_vaddr + b + i) := by
        intro i hi
        apply interp_fold_frame
        intro r hr hrt
        obtain ⟨hrf, hrno⟩ := hwf r (List.mem_cons_of_mem _ hr) hrt
        have hd := hdis.1 r hr hpt hrt
        unfold disjoint_pages page_lo page_hi at hd
        unfold page_lo page_hi
        refine ⟨hrf, hrno, ?_⟩
        omega
      obtain ⟨c1, c2⟩ := interp_segment_content accept data b acc p hacc hpt hf hno
      constructor
      · intro i hi
        rw [hfr i (by omega)]
        exact c1 i hi
      · intro i h1 h2
        rw [hfr i h2]
        exact c2 i h1 h2
    · exact ih _ (fun r hr => hwf r (List.mem_cons_of_mem _ hr)) hdis.2 p e hpt

theorem segment_st_eq (accept : List MapReq → MapReq → Bool) (data : List Nat)
    (acc : LoadAcc) (acc2 : InterpAcc) (p : Elf64_Phdr) (h : acc.st = acc2.st) :
    (load_elf_segment accept data acc p).st =
      (load_elf_interp_segment accept data 0 acc2 p).st := by
  have h1 : add64 p.p_vaddr 0 &&& not64 (PAGE_SIZE_4KB - 1) =
      p.p_vaddr &&& not64 (PAGE_SIZE_4KB - 1) := by
    simp only [and_not_page_mask, add64]
    omega
  have h2 : add64 p.p_vaddr 0 &&& (PAGE_SIZE_4KB - 1) = p.p_vaddr &&& (PAGE_SIZE_4KB - 1) := by
    simp only [and_page_mask, add64]
    omega
  by_cases hp : p.p_type = PT_LOAD
  · have hne : ¬ (p.p_type ≠ PT_LOAD) := by simp [hp]
    simp only [load_elf_segment, load_elf_interp_segment, if_neg hne, h1, h2, h]
  · simp only [load_elf_segment, load_elf_interp_segment, if_pos hp, h]

theorem segments_fold_st_eq (accept : List MapReq → MapReq → Bool) (data : List Nat)
    (tbl : List Elf64_Phdr) :
    ∀ (acc : LoadAcc) (acc2 : InterpAcc), acc.st = acc2.st →
      (tbl.foldl (load_elf_segment accept data) acc).st =
        (tbl.foldl (load_elf_interp_segment accept data 0) acc2).st := by
  induction tbl with
  | nil =>
    intro acc acc2 h
    exact h
  | cons p tbl ih =>
    intro acc acc2 h
    rw [List.foldl_cons, List.foldl_cons]
    exact ih _ _ (segment_st_eq accept data acc acc2 p h)

/-- C15: assume the memory manager accepts every request, so that each fixed
anonymous mapping reads as zero, and let the `PT_LOAD` entries of the table
satisfy `p_filesz ≤ p_memsz`, occupy pairwise disjoint page ranges and cause no
64-bit overflow. Then after the loop of `load_elf_interp` with bias `b` (and,
for `b = 0`, after the loop of `load_elf`) every `PT_LOAD` segment has the
image bytes `[p_offset, p_offset + p_filesz)` at the guest addresses
`[p_vaddr + b, p_vaddr + b + p_filesz)`, and zero bytes at
`[p_vaddr + b + p_filesz, p_vaddr + b + p_memsz)`. -/
theorem segment_bytes_loaded (accept : List MapReq → MapReq → Bool) (data : List Nat)
    (b : Nat) (tbl : List Elf64_Phdr) (st : State)
    (hacc : ∀ m r, accept m r = true)
    (hwf : ∀ p ∈ tbl, p.p_type = PT_LOAD →
      p.p_filesz ≤ p.p_memsz ∧ p.p_vaddr + b + p.p_memsz + 4095 < 2 ^ 64)
    (hdis : tbl.Pairwise
      (fun p q => p.p_type = PT_LOAD → q.p_type = PT_LOAD → disjoint_pages b p q)) :
    (∀ p ∈ tbl, p.p_type = PT_LOAD →
      (∀ i, i < p.p_filesz →
        (tbl.foldl (load_elf_interp_segment accept data b)
          { st := st, map_top := 0 }).st.mem (p.p_vaddr + b + i) = data.getD (p.p_offset + i) 0) ∧
      (∀ i, p.p_filesz ≤ i → i < p.p_memsz →
        (tbl.foldl (load_elf_interp_segment accept data b)
          { st := st, map_top := 0 }).st.mem (p.p_vaddr + b + i) = 0))
    ∧ (b = 0 → ∀ p ∈ tbl, p.p_type = PT_LOAD →
      (∀ i, i < p.p_filesz →
        (tbl.foldl (load_elf_segment accept data)
          { st := st, load_base := 0, load_base_set := false, map_top := 0 }).st.mem
            (p.p_vaddr + i) = data.getD (p.p_offset + i) 0) ∧
      (∀ i, p.p_filesz ≤ i → i < p.p_memsz →
        (tbl.foldl (load_elf_segment accept data)
          { st := st, load_base := 0, load_base_set := false, map_top := 0 }).st.mem
            (p.p_vaddr + i) = 0)) := by
  have A := interp_fold_content accept data b hacc tbl { st := st, map_top := 0 } hwf hdis
  refine ⟨A, ?_⟩
  intro hb p hp hpt
  subst hb
  rw [segments_fold_st_eq accept data tbl
    { st := st, load_base := 0, load_base_set := false, map_top := 0 }
    { st := st, map_top := 0 } rfl]
  exact A p hp hpt

theorem segment_bytes_loaded_witness :
    (∀ i, i < phdr_data.p_filesz →
      (demo_dynamic.phdrs.foldl (load_elf_interp_segment accept_all demo_data 0x401000)
        { st := State.zero, map_top := 0 }).st.mem (phdr_data.p_vaddr + 0x401000 + i) =
        demo_data.getD (phdr_data.p_offset + i) 0) ∧
    (∀ i, phdr_data.p_filesz ≤ i → i < phdr_data.p_memsz →
      (demo_dynamic.phdrs.foldl (load_elf_interp_segment accept_all demo_data 0x401000)
        { st := State.zero, map_top := 0 }).st.mem (phdr_data.p_vaddr + 0x401000 + i) = 0) :=
  (segment_bytes_loaded accept_all demo_data 0x401000 demo_dynamic.phdrs State.zero
    (fun _ _ => rfl) (by decide) (by decide)).1 phdr_data (by decide) (by decide)

/-! ## Failures the loader does not act on -/

theorem load_elf_loaded_of (cfg : Config) (fs : List Nat → Option Elf64_Ehdr)
    (accept : List MapReq → MapReq → Bool) (ehdr : Elf64_Ehdr) (argc : Nat)
    (argv envp : List (List Nat)) (st s st1 : State) (aux : List Elf64_Auxv)
    (h : load_elf_image fs accept ehdr st = .done (.inr aux) s)
    (h2 : init_userstack cfg accept argc argv envp aux s = .done () st1) :
    load_elf cfg fs accept ehdr argc argv envp st = .done .loaded st1 := by
  unfold load_elf
  rw [h]
  simp only
  rw [h2]

/-- C11 (the code at a failing input): the main image `demo_dynamic` names the
interpreter `/lib/ld.so`. When the file cannot be opened, or when it has an
unsupported type, `load_elf_interp` returns -1 without touching the state, and
`load_elf` nevertheless builds the initial stack and ends as for a loaded
image, with RIP still holding its old value 0. -/
theorem interp_failure_is_ignored :
    (load_elf_interp fs_empty accept_all (interp_path demo_dynamic phdr_interp)
        (load_elf_segments accept_all demo_dynamic State.zero).map_top
        (load_elf_segments accept_all demo_dynamic State.zero).st
      = .done (-1) (load_elf_segments accept_all demo_dynamic State.zero).st)
    ∧ (∃ st1, load_elf demo_cfg fs_empty accept_all demo_dynamic 1 demo_argv demo_envp State.zero
        = .done .loaded st1 ∧ st1.rip = 0 ∧ st1.rbp = demo_cfg.STACK_TOP ∧
        read64 st1.mem st1.rsp = 1)
    ∧ (load_elf_interp fs_rel accept_all (interp_path demo_dynamic phdr_interp)
        (load_elf_segments accept_all demo_dynamic State.zero).map_top
        (load_elf_segments accept_all demo_dynamic State.zero).st
      = .done (-1) (load_elf_segments accept_all demo_dynamic State.zero).st)
    ∧ (∃ st1, load_elf demo_cfg fs_rel accept_all demo_dynamic 1 demo_argv demo_envp State.zero
        = .done .loaded st1 ∧ st1.rip = 0 ∧ st1.rbp = demo_cfg.STACK_TOP ∧
        read64 st1.mem st1.rsp = 1) := by
  have haux : load_elf_auxv demo_dynamic 0x400000 0x603000 true =
      (load_elf_auxv demo_dynamic 0x400000 0x603000 true).take 6 ++ ⟨AT_NULL, 0⟩ :: [] := by
    decide
  have key : ∀ fs : List Nat → Option Elf64_Ehdr,
      load_elf_image fs accept_all demo_dynamic State.zero =
        .done (.inr (load_elf_auxv demo_dynamic 0x400000 0x603000 true))
          (load_elf_segments accept_all demo_dynamic State.zero).st →
      ∃ st1, load_elf demo_cfg fs accept_all demo_dynamic 1 demo_argv demo_envp State.zero
        = .done .loaded st1 ∧ st1.rip = 0 ∧ st1.rbp = demo_cfg.STACK_TOP ∧
        read64 st1.mem st1.rsp = 1 := by
    intro fs himg
    obtain ⟨st1, hrun, _, hw, _⟩ := init_userstack_layout demo_cfg accept_all demo_argv demo_envp
      ((load_elf_auxv demo_dynamic 0x400000 0x603000 true).take 6) ⟨AT_NULL, 0⟩ []
      (load_elf_segments accept_all demo_dynamic State.zero).st
      (by decide) (by decide) (by decide) rfl (by decide) (by decide)
    rw [← haux] at hrun
    have hc := init_userstack_ctl demo_cfg accept_all demo_argv.length demo_argv demo_envp
      (load_elf_auxv demo_dynamic 0x400000 0x603000 true)
      (load_elf_segments accept_all demo_dynamic State.zero).st
    rw [hrun] at hc
    refine ⟨st1, load_elf_loaded_of _ _ _ _ _ _ _ _ _ _ _ himg hrun, ?_, hc.2.2, hw.1⟩
    rw [show st1.rip = (load_elf_segments accept_all demo_dynamic State.zero).st.rip from hc.1]
    rfl
  exact ⟨rfl, key fs_empty rfl, rfl, key fs_rel rfl⟩

theorem interp_segment_copied (accept : List MapReq → MapReq → Bool) (data : List Nat) (b : Nat)
    (acc : InterpAcc) (p : Elf64_Phdr) (hp : p.p_type = PT_LOAD) (i : Nat)
    (hi : i < p.p_filesz) :
    (load_elf_interp_segment accept data b acc p).st.mem ((p.p_vaddr + b) % 2 ^ 64 + i) =
      data.getD (p.p_offset + i) 0 := by
  have hsum : (add64 p.p_vaddr b &&& not64 (PAGE_SIZE_4KB - 1)) +
      (add64 p.p_vaddr b &&& (PAGE_SIZE_4KB - 1)) = (p.p_vaddr + b) % 2 ^ 64 := by
    simp only [and_page_mask, and_not_page_mask, add64]
    omega
  rw [interp_segment_mem accept data b acc p hp, hsum]
  exact memcpy_inside _ _ _ _ _ hi

/-! ## A rejected mapping -/

theorem do_mmap_mapped (accept : List MapReq → MapReq → Bool) (a l pr fl : Nat) (st : State) :
    (do_mmap accept a l pr fl st).mapped =
      if accept st.mapped ⟨a, l, pr, fl⟩ = true then st.mapped ++ [⟨a, l, pr, fl⟩]
      else st.mapped := by
  simp only [do_mmap]
  split <;> rfl

/-- Whatever its outcome, `init_userstack` leaves the active mappings as its
`do_mmap` call for the stack left them. -/
theorem init_userstack_mapped (cfg : Config) (accept : List MapReq → MapReq → Bool) (argc : Nat)
    (argv envp : List (List Nat)) (aux : List Elf64_Auxv) (st : State) :
    (init_userstack cfg accept argc argv envp aux st).state.mapped =
      (do_mmap accept (sub64 cfg.STACK_TOP cfg.STACK_SIZE) cfg.STACK_SIZE
        (L_PROT_READ ||| L_PROT_WRITE) (L_MAP_PRIVATE ||| L_MAP_FIXED ||| L_MAP_ANONYMOUS)
        st).mapped := by
  simp only [init_userstack]
  generalize hst0 : ({ ({ (do_mmap accept (sub64 cfg.STACK_TOP cfg.STACK_SIZE) cfg.STACK_SIZE
    (L_PROT_READ ||| L_PROT_WRITE) (L_MAP_PRIVATE ||| L_MAP_FIXED ||| L_MAP_ANONYMOUS) st)
      with rsp := cfg.STACK_TOP } : State) with rbp := cfg.STACK_TOP } : State) = st0
  have h0 : st0.mapped = (do_mmap accept (sub64 cfg.STACK_TOP cfg.STACK_SIZE) cfg.STACK_SIZE
      (L_PROT_READ ||| L_PROT_WRITE) (L_MAP_PRIVATE ||| L_MAP_FIXED ||| L_MAP_ANONYMOUS)
      st).mapped := by
    subst hst0
    rfl
  rw [← h0]
  generalize hbuf : copy_strings (copy_strings [] (List.take argc argv)) envp = buf
  generalize htot : add_lengths (add_lengths 0 (List.take argc argv)) envp = total
  generalize hst1 : push (some (bytes_of buf)) total st0 = r1
  have h1 : same_ctl r1.2 st0 := by
    rw [← hst1]
    exact push_same_ctl _ _ _
  generalize hst2 : (push none 8 (push_auxv aux (push none 16 r1.2).2)).2 = st2
  have h2 : same_ctl st2 st0 := by
    rw [← hst2]
    exact same_ctl_trans (push_same_ctl _ _ _) (same_ctl_trans (push_auxv_same_ctl _ _)
      (same_ctl_trans (push_same_ctl _ _ _) h1))
  have h3 := push_pointers_same_ctl 238 buf r1.1 envp.reverse (add64 r1.1 total) st2
  cases hp : push_pointers 238 buf r1.1 envp.reverse (add64 r1.1 total) st2 with
  | abort l s =>
    rw [hp] at h3
    exact (same_ctl_trans h3 h2).2.2.2.2
  | done u s =>
    rw [hp] at h3
    have h4 : same_ctl (push none 8 s).2 st0 :=
      same_ctl_trans (push_same_ctl _ _ _) (same_ctl_trans h3 h2)
    have h5 := push_pointers_same_ctl 247 buf r1.1 (List.take argc argv).reverse
      (add64 r1.1 (add_lengths 0 (List.take argc argv))) (push none 8 s).2
    simp only
    cases hq : push_pointers 247 buf r1.1 (List.take argc argv).reverse
        (add64 r1.1 (add_lengths 0 (List.take argc argv))) (push none 8 s).2 with
    | abort l s2 =>
      rw [hq] at h5
      exact (same_ctl_trans h5 h4).2.2.2.2
    | done u2 s2 =>
      rw [hq] at h5
      exact (same_ctl_trans (push_same_ctl (some (le64 (argc % 2 ^ 64))) 8 s2)
        (same_ctl_trans h5 h4)).2.2.2.2

theorem segment_copied (accept : List MapReq → MapReq → Bool) (data : List Nat)
    (acc : LoadAcc) (p : Elf64_Phdr) (hp : p.p_type = PT_LOAD) (i : Nat) (hi : i < p.p_filesz) :
    (load_elf_segment accept data acc p).st.mem (p.p_vaddr % 2 ^ 64 + i) =
      data.getD (p.p_offset + i) 0 := by
  rw [segment_st_eq accept data acc { st := acc.st, map_top := 0 } p rfl]
  have := interp_segment_copied accept data 0 { st := acc.st, map_top := 0 } p hp i hi
  simpa using this

/-- A valid static image is loaded, and its initial stack built, whatever the
memory manager answered to the mapping requests, provided the stack range
lies within an active mapping. -/
theorem load_elf_static_stack (cfg : Config) (fs : List Nat → Option Elf64_Ehdr)
    (accept : List MapReq → MapReq → Bool) (ehdr : Elf64_Ehdr)
    (argv envp : List (List Nat)) (st : State)
    (hmagic : IS_ELF ehdr = true) (htype : ehdr.e_type = ET_EXEC)
    (hmach : ehdr.e_machine = EM_X86_64)
    (hload : ∃ q ∈ phdr_table ehdr, q.p_type = PT_LOAD)
    (hno : ∀ q ∈ phdr_table ehdr, q.p_type ≠ PT_INTERP)
    (hfields : ehdr.e_entry < 2 ^ 64 ∧ ehdr.e_phentsize < 2 ^ 64 ∧ ehdr.e_phnum < 2 ^ 64)
    (hargv : ∀ s ∈ argv, 0 ∉ s) (henvp : ∀ s ∈ envp, 0 ∉ s)
    (htop : cfg.STACK_TOP < 2 ^ 64)
    (hroom : ((blob argv).length + (blob envp).length + 7) / 8 * 8 +
      8 * (argv.length + envp.length + 17) ≤ cfg.STACK_TOP)
    (hstack : backed
      (do_mmap accept (sub64 cfg.STACK_TOP cfg.STACK_SIZE) cfg.STACK_SIZE
        (L_PROT_READ ||| L_PROT_WRITE) (L_MAP_PRIVATE ||| L_MAP_FIXED ||| L_MAP_ANONYMOUS)
        (load_elf_segments accept ehdr st).st)
      (cfg.STACK_TOP - (((blob argv).length + (blob envp).length + 7) / 8 * 8 +
        8 * (argv.length + envp.length + 17)))
      (((blob argv).length + (blob envp).length + 7) / 8 * 8 +
        8 * (argv.length + envp.length + 17))) :
    ∃ (st1 : State) (argv_ptrs envp_ptrs auxv_words : List Nat),
      load_elf cfg fs accept ehdr argv.length argv envp st = .done .loaded st1 ∧
      st1.rip = ehdr.e_entry ∧ st1.rbp = cfg.STACK_TOP ∧
      st1.rsp + (((blob argv).length + (blob envp).length + 7) / 8 * 8 +
        8 * (argv.length + envp.length + 17)) = cfg.STACK_TOP ∧
      stack_words st1.mem st1.rsp
        (argv.length :: (argv_ptrs ++ 0 :: (envp_ptrs ++ 0 :: (auxv_words ++ [AT_NULL, 0])))) ∧
      List.Forall₂ (cstring_in st1.mem) argv_ptrs argv ∧
      List.Forall₂ (cstring_in st1.mem) envp_ptrs envp ∧
      auxv_words.length = 12 ∧
      backed st1 st1.rsp (((blob argv).length + (blob envp).length + 7) / 8 * 8 +
        8 * (argv.length + envp.length + 17)) := by
  have himg : load_elf_image fs accept ehdr st =
      .done (.inr (load_elf_auxv ehdr (load_elf_segments accept ehdr st).load_base
        (load_elf_segments accept ehdr st).map_top false))
        { (load_elf_segments accept ehdr st).st with
          rip := ehdr.e_entry, brk_min := (load_elf_segments accept ehdr st).map_top } := by
    rw [load_elf_image_valid fs accept ehdr st hmagic htype hmach,
      load_base_set_of_load accept ehdr st hload]
    simp only [not_true_eq_false, if_false, find_interp_none _ hno]
  generalize hS : ({ (load_elf_segments accept ehdr st).st with
      rip := ehdr.e_entry, brk_min := (load_elf_segments accept ehdr st).map_top } : State) = S
    at himg
  have hSm : S.mapped = (load_elf_segments accept ehdr st).st.mapped := by
    subst hS
    rfl
  have hSr : S.rip = ehdr.e_entry := by
    subst hS
    rfl
  generalize hlb : (load_elf_segments accept ehdr st).load_base = lb at himg
  generalize hmt : (load_elf_segments accept ehdr st).map_top = mt at himg
  have haux : load_elf_auxv ehdr lb mt false =
      [ ⟨AT_PHDR, add64 lb ehdr.e_phoff⟩, ⟨AT_PHENT, ehdr.e_phentsize⟩,
        ⟨AT_PHNUM, ehdr.e_phnum⟩, ⟨AT_PAGESZ, PAGE_SIZE_4KB⟩, ⟨AT_BASE, 0⟩,
        ⟨AT_ENTRY, ehdr.e_entry⟩ ] ++ ⟨AT_NULL, 0⟩ :: [] := by
    simp [load_elf_auxv]
  have hents : ∀ e ∈ ([ ⟨AT_PHDR, add64 lb ehdr.e_phoff⟩, ⟨AT_PHENT, ehdr.e_phentsize⟩,
        ⟨AT_PHNUM, ehdr.e_phnum⟩, ⟨AT_PAGESZ, PAGE_SIZE_4KB⟩, ⟨AT_BASE, 0⟩,
        ⟨AT_ENTRY, ehdr.e_entry⟩ ] : List Elf64_Auxv),
      e.a_tag ≠ AT_NULL ∧ e.a_tag < 2 ^ 64 ∧ e.a_val < 2 ^ 64 := by
    intro e he
    have hmod : add64 lb ehdr.e_phoff < 2 ^ 64 := by
      unfold add64
      omega
    simp only [List.mem_cons, List.mem_singleton, List.not_mem_nil, or_false] at he
    rcases he with h | h | h | h | h | h <;> rw [h]
    · exact ⟨by simp [AT_PHDR, AT_NULL], by norm_num [AT_PHDR], hmod⟩
    · exact ⟨by simp [AT_PHENT, AT_NULL], by norm_num [AT_PHENT], hfields.2.1⟩
    · exact ⟨by simp [AT_PHNUM, AT_NULL], by norm_num [AT_PHNUM], hfields.2.2⟩
    · exact ⟨by simp [AT_PAGESZ, AT_NULL], by norm_num [AT_PAGESZ], by norm_num [PAGE_SIZE_4KB]⟩
    · exact ⟨by simp [AT_BASE, AT_NULL], by norm_num [AT_BASE], by norm_num⟩
    · exact ⟨by simp [AT_ENTRY, AT_NULL], by norm_num [AT_ENTRY], hfields.1⟩
  obtain ⟨st1, hrun, hrsp, hw, hb⟩ := init_userstack_layout cfg accept argv envp _ ⟨AT_NULL, 0⟩ []
    S hargv henvp hents rfl htop (by simpa [stack_need] using hroom)
  rw [← haux] at hrun
  have hc := init_userstack_ctl cfg accept argv.length argv envp (load_elf_auxv ehdr lb mt false) S
  have hm := init_userstack_mapped cfg accept argv.length argv envp
    (load_elf_auxv ehdr lb mt false) S
  rw [hrun] at hc hm
  have hrsp2 : st1.rsp + (((blob argv).length + (blob envp).length + 7) / 8 * 8 +
      8 * (argv.length + envp.length + 17)) = cfg.STACK_TOP := by
    simpa [stack_need] using hrsp
  rw [bytes_at_append] at hb
  refine ⟨st1, _, _, aux_words _, load_elf_loaded_of _ _ _ _ _ _ _ _ _ _ _ himg hrun,
    hc.1.trans hSr, hc.2.2, hrsp2, hw, strings_in_blob _ _ _ hb.1, strings_in_blob _ _ _ hb.2,
    by simp [aux_words], ?_⟩
  have hmapped : st1.mapped = (do_mmap accept (sub64 cfg.STACK_TOP cfg.STACK_SIZE) cfg.STACK_SIZE
      (L_PROT_READ ||| L_PROT_WRITE) (L_MAP_PRIVATE ||| L_MAP_FIXED ||| L_MAP_ANONYMOUS)
      (load_elf_segments accept ehdr st).st).mapped := by
    have h1 : st1.mapped = _ := hm
    rw [h1, do_mmap_mapped, do_mmap_mapped, hSm]
  have hrsp3 : st1.rsp = cfg.STACK_TOP - (((blob argv).length + (blob envp).length + 7) / 8 * 8 +
      8 * (argv.length + envp.length + 17)) := by omega
  unfold backed at hstack ⊢
  rw [hmapped, hrsp3]
  exact hstack

theorem segments_backed_split (accept : List MapReq → MapReq → Bool) (data : List Nat)
    (l1 l2 : List Elf64_Phdr) (p : Elf64_Phdr) :
    ∀ acc : LoadAcc, segments_backed accept data (l1 ++ p :: l2) acc →
      segment_backed accept (l1.foldl (load_elf_segment accept data) acc) p := by
  induction l1 with
  | nil =>
    intro acc h
    exact h.1
  | cons q l1 ih =>
    intro acc h
    exact ih _ h.2

theorem demo_two_backed :
    segments_backed reject_overlap demo_two.data (phdr_table demo_two)
      { st := state_with_old_text, load_base := 0, load_base_set := false, map_top := 0 } := by
  show segment_backed reject_overlap
      { st := state_with_old_text, load_base := 0, load_base_set := false, map_top := 0 }
      phdr_text ∧
    segment_backed reject_overlap
      (load_elf_segment reject_overlap demo_two.data
        { st := state_with_old_text, load_base := 0, load_base_set := false, map_top := 0 }
        phdr_text) phdr_data ∧ True
  exact ⟨by decide, by decide, trivial⟩

end Noah
